import Mathlib

/-!
A verification development for the tape-simplification core of the `fidget`
repository.  The central artifact is a shallow embedding of
`VmData::simplify` (src/fidget/src/core/vm/data.rs) together with the
register tape container (src/fidget/src/core/vm/tape.rs).

Machine integers: slot ids are `u32` in the source; every value the
algorithm stores is bounded by the tape length (the builder refuses graphs
with 2^32 or more nodes), so they are modelled as `Nat`.  The `u32::MAX`
sentinel stored in `VmWorkspace::bind` is modelled as `Option.none`.
`f32` immediates are a type parameter `α`; evaluation is parameterized by an
interpretation of the arithmetic primitives.
-/

set_option autoImplicit false

namespace Fidget

/-- The four-valued choice tag (`vm::Choice`, spec section 3):
per-min/max decision recorded by interval evaluation. -/
inductive Choice where
  | Left
  | Right
  | Both
  | Unknown
deriving DecidableEq, Repr

/-- Modelled from the spec: `SsaOp` (crate `compiler`, not under src/).
The variant list and field layout follow spec section 3 together with the
exhaustive `match` inside `VmData::simplify`
(src/fidget/src/core/vm/data.rs, lines 147-256).  The first field of every
variant is the output slot; `f32` immediates are the parameter `α`. -/
inductive SsaOp (α : Type) where
  | Input (out axis : Nat)
  | Var (out v : Nat)
  | CopyImm (out : Nat) (imm : α)
  | NegReg (out arg : Nat)
  | AbsReg (out arg : Nat)
  | RecipReg (out arg : Nat)
  | SqrtReg (out arg : Nat)
  | SquareReg (out arg : Nat)
  | SinReg (out arg : Nat)
  | CosReg (out arg : Nat)
  | TanReg (out arg : Nat)
  | AsinReg (out arg : Nat)
  | AcosReg (out arg : Nat)
  | AtanReg (out arg : Nat)
  | ExpReg (out arg : Nat)
  | LnReg (out arg : Nat)
  | CopyReg (out src : Nat)
  | AddRegReg (out lhs rhs : Nat)
  | MulRegReg (out lhs rhs : Nat)
  | SubRegReg (out lhs rhs : Nat)
  | DivRegReg (out lhs rhs : Nat)
  | MinRegReg (out lhs rhs : Nat)
  | MaxRegReg (out lhs rhs : Nat)
  | AddRegImm (out arg : Nat) (imm : α)
  | MulRegImm (out arg : Nat) (imm : α)
  | SubRegImm (out arg : Nat) (imm : α)
  | SubImmReg (out arg : Nat) (imm : α)
  | DivRegImm (out arg : Nat) (imm : α)
  | DivImmReg (out arg : Nat) (imm : α)
  | MinRegImm (out arg : Nat) (imm : α)
  | MaxRegImm (out arg : Nat) (imm : α)
deriving DecidableEq, Repr

namespace SsaOp

variable {α : Type}

/-- `SsaOp::output()`: the destination slot (spec section 3: uniform
interface `output()`). -/
def output : SsaOp α → Nat
  | .Input o _ | .Var o _ | .NegReg o _ | .AbsReg o _ | .RecipReg o _
  | .SqrtReg o _ | .SquareReg o _ | .SinReg o _ | .CosReg o _ | .TanReg o _
  | .AsinReg o _ | .AcosReg o _ | .AtanReg o _ | .ExpReg o _ | .LnReg o _
  | .CopyReg o _ => o
  | .CopyImm o _ => o
  | .AddRegReg o _ _ | .MulRegReg o _ _ | .SubRegReg o _ _
  | .DivRegReg o _ _ | .MinRegReg o _ _ | .MaxRegReg o _ _ => o
  | .AddRegImm o _ _ | .MulRegImm o _ _ | .SubRegImm o _ _
  | .SubImmReg o _ _ | .DivRegImm o _ _ | .DivImmReg o _ _
  | .MinRegImm o _ _ | .MaxRegImm o _ _ => o

/-- `SsaOp::has_choice()`: true exactly for the min/max variants. -/
def hasChoice : SsaOp α → Bool
  | .MinRegReg _ _ _ | .MaxRegReg _ _ _
  | .MinRegImm _ _ _ | .MaxRegImm _ _ _ => true
  | _ => false

/-- The input slots read by an operation, in source order. -/
def inputs : SsaOp α → List Nat
  | .Input _ _ | .Var _ _ | .CopyImm _ _ => []
  | .NegReg _ a | .AbsReg _ a | .RecipReg _ a | .SqrtReg _ a
  | .SquareReg _ a | .SinReg _ a | .CosReg _ a | .TanReg _ a
  | .AsinReg _ a | .AcosReg _ a | .AtanReg _ a | .ExpReg _ a | .LnReg _ a
  | .CopyReg _ a => [a]
  | .AddRegReg _ l r | .MulRegReg _ l r | .SubRegReg _ l r
  | .DivRegReg _ l r | .MinRegReg _ l r | .MaxRegReg _ l r => [l, r]
  | .AddRegImm _ a _ | .MulRegImm _ a _ | .SubRegImm _ a _
  | .SubImmReg _ a _ | .DivRegImm _ a _ | .DivImmReg _ a _
  | .MinRegImm _ a _ | .MaxRegImm _ a _ => [a]

end SsaOp

/-- An interpretation of the arithmetic vocabulary over a value type `α`:
the unary primitives, the binary primitives (with `fmin`/`fmax` for the
choice-bearing ops), the input point (`input` maps an axis to its
coordinate), variable values, and a default for uninitialized slots. -/
structure Interp (α : Type) where
  neg : α → α
  abs : α → α
  recip : α → α
  sqrt : α → α
  square : α → α
  sin : α → α
  cos : α → α
  tan : α → α
  asin : α → α
  acos : α → α
  atan : α → α
  exp : α → α
  ln : α → α
  add : α → α → α
  mul : α → α → α
  sub : α → α → α
  div : α → α → α
  fmin : α → α → α
  fmax : α → α → α
  input : Nat → α
  var : Nat → α
  dflt : α

variable {α : Type}

/-- Value produced by one operation given current slot values `m`. -/
def opEval (I : Interp α) (m : Nat → α) : SsaOp α → α
  | .Input _ ax => I.input ax
  | .Var _ v => I.var v
  | .CopyImm _ imm => imm
  | .NegReg _ a => I.neg (m a)
  | .AbsReg _ a => I.abs (m a)
  | .RecipReg _ a => I.recip (m a)
  | .SqrtReg _ a => I.sqrt (m a)
  | .SquareReg _ a => I.square (m a)
  | .SinReg _ a => I.sin (m a)
  | .CosReg _ a => I.cos (m a)
  | .TanReg _ a => I.tan (m a)
  | .AsinReg _ a => I.asin (m a)
  | .AcosReg _ a => I.acos (m a)
  | .AtanReg _ a => I.atan (m a)
  | .ExpReg _ a => I.exp (m a)
  | .LnReg _ a => I.ln (m a)
  | .CopyReg _ a => m a
  | .AddRegReg _ l r => I.add (m l) (m r)
  | .MulRegReg _ l r => I.mul (m l) (m r)
  | .SubRegReg _ l r => I.sub (m l) (m r)
  | .DivRegReg _ l r => I.div (m l) (m r)
  | .MinRegReg _ l r => I.fmin (m l) (m r)
  | .MaxRegReg _ l r => I.fmax (m l) (m r)
  | .AddRegImm _ a imm => I.add (m a) imm
  | .MulRegImm _ a imm => I.mul (m a) imm
  | .SubRegImm _ a imm => I.sub (m a) imm
  | .SubImmReg _ a imm => I.sub imm (m a)
  | .DivRegImm _ a imm => I.div (m a) imm
  | .DivImmReg _ a imm => I.div imm (m a)
  | .MinRegImm _ a imm => I.fmin (m a) imm
  | .MaxRegImm _ a imm => I.fmax (m a) imm

/-- Pointwise function update on slot maps. -/
def upd (m : Nat → α) (k : Nat) (v : α) : Nat → α :=
  fun j => if j = k then v else m j

/-- Evaluate a tape stored in reverse evaluation order (root first):
execute the ops from the last list element (the deepest leaf) towards the
head, writing each result into its output slot. -/
def evalTape (I : Interp α) (ops : List (SsaOp α)) (m : Nat → α) : Nat → α :=
  ops.foldr (fun op m => upd m op.output (opEval I m op)) m

/-- The value of a tape: final content of slot 0 (the root), starting from
all-default slots. -/
def tapeVal (I : Interp α) (ops : List (SsaOp α)) : α :=
  evalTape I ops (fun _ => I.dflt) 0

/-! ## Register-level operations and the register tape

`vm::Op` and `compiler::RegTape` are re-exported through
src/fidget/src/core/vm/tape.rs, which is the `Tape` container below.  The
op set mirrors `SsaOp`, with fields renamed to registers, plus the two
spill operations (spec section 3). -/

/-- Modelled from the spec: the register-level op set (`vm::Op`, not under
src/): the `SsaOp` vocabulary over registers plus `Load`/`Store`
(spec section 3, "RegTape"). -/
inductive RegOp (α : Type) where
  | Load (reg mem : Nat)
  | Store (mem reg : Nat)
  | Input (out axis : Nat)
  | Var (out v : Nat)
  | CopyImm (out : Nat) (imm : α)
  | NegReg (out arg : Nat)
  | AbsReg (out arg : Nat)
  | RecipReg (out arg : Nat)
  | SqrtReg (out arg : Nat)
  | SquareReg (out arg : Nat)
  | SinReg (out arg : Nat)
  | CosReg (out arg : Nat)
  | TanReg (out arg : Nat)
  | AsinReg (out arg : Nat)
  | AcosReg (out arg : Nat)
  | AtanReg (out arg : Nat)
  | ExpReg (out arg : Nat)
  | LnReg (out arg : Nat)
  | CopyReg (out src : Nat)
  | AddRegReg (out lhs rhs : Nat)
  | MulRegReg (out lhs rhs : Nat)
  | SubRegReg (out lhs rhs : Nat)
  | DivRegReg (out lhs rhs : Nat)
  | MinRegReg (out lhs rhs : Nat)
  | MaxRegReg (out lhs rhs : Nat)
  | AddRegImm (out arg : Nat) (imm : α)
  | MulRegImm (out arg : Nat) (imm : α)
  | SubRegImm (out arg : Nat) (imm : α)
  | SubImmReg (out arg : Nat) (imm : α)
  | DivRegImm (out arg : Nat) (imm : α)
  | DivImmReg (out arg : Nat) (imm : α)
  | MinRegImm (out arg : Nat) (imm : α)
  | MaxRegImm (out arg : Nat) (imm : α)
deriving DecidableEq, Repr

/-- True for the two spill operations. -/
def RegOp.isLoadStore : RegOp α → Bool
  | .Load _ _ | .Store _ _ => true
  | _ => false

/-- The register tape container (src/fidget/src/core/vm/tape.rs, `Tape`).
`Vec::with_capacity(512)` is an allocation hint with no observable effect
and is not modelled. -/
structure TapeR (α : Type) where
  tape : List (RegOp α)
  slot_count : Nat
  reg_limit : Nat
deriving DecidableEq, Repr

namespace TapeR

/-- `Tape::new(reg_limit)` (tape.rs lines 15-21): empty op list,
`slot_count` set to 1. -/
def new (reg_limit : Nat) : TapeR α :=
  { tape := [], slot_count := 1, reg_limit := reg_limit }

/-- `Tape::reset(reg_limit)` (tape.rs lines 22-26). -/
def reset (t : TapeR α) (reg_limit : Nat) : TapeR α :=
  { t with tape := [], slot_count := 1, reg_limit := reg_limit }

/-- `Tape::reg_limit()` accessor. -/
def regLimitFn (t : TapeR α) : Nat := t.reg_limit

/-- `Tape::slot_count()` accessor (tape.rs lines 30-33): returns the stored
counter. -/
def slotCountFn (t : TapeR α) : Nat := t.slot_count

/-- `Tape::len()`. -/
def len (t : TapeR α) : Nat := t.tape.length

/-- `Tape::is_empty()`. -/
def isEmpty (t : TapeR α) : Bool := t.tape.isEmpty

/-- `Tape::push(op)`. -/
def push (t : TapeR α) (op : RegOp α) : TapeR α :=
  { t with tape := t.tape ++ [op] }

/-- `#[derive(Default)]` for `Tape`: every field takes its default, so the
derived default has `slot_count = 0` (unlike `Tape::new`). -/
def dfltTape : TapeR α := { tape := [], slot_count := 0, reg_limit := 0 }

end TapeR

/-- Modelled from the spec: `SsaTape` (crate `compiler`, not under src/):
op list in reverse evaluation order, recorded choice count, and the
variable-name map (spec section 3).  Variable names are modelled as `Nat`
keys; the map is inert for every claim here. -/
structure SsaTapeL (α : Type) where
  tape : List (SsaOp α)
  choice_count : Nat
  vars : List (Nat × Nat)
deriving DecidableEq, Repr

/-- Modelled from the spec: `SsaTape::reset` clears the scratch SSA tape
for reuse (spec section 4.3 step 1: "clear `scratch.ssa`"). -/
def SsaTapeL.resetTape (_s : SsaTapeL α) : SsaTapeL α :=
  { tape := [], choice_count := 0, vars := [] }

/-- `VmData` (src/fidget/src/core/vm/data.rs lines 52-56): an SSA tape
paired with its register-allocated form.  The register budget `N` is a
const generic in the source and a function argument here. -/
structure VmDataL (α : Type) where
  ssa : SsaTapeL α
  asm : TapeR α
deriving DecidableEq, Repr

/-- `#[derive(Default)]` for `VmData`: both members default (empty SSA
tape, default register tape with `slot_count = 0`). -/
def VmDataL.dfltData : VmDataL α :=
  { ssa := { tape := [], choice_count := 0, vars := [] }, asm := TapeR.dfltTape }

/-- `VmData::len()` (data.rs lines 71-74): length of the register tape. -/
def VmDataL.len (d : VmDataL α) : Nat := d.asm.len

/-- `VmData::choice_count()` (data.rs lines 85-87). -/
def VmDataL.choiceCountFn (d : VmDataL α) : Nat := d.ssa.choice_count

/-- `VmData::slot_count()` (data.rs lines 90-92). -/
def VmDataL.slotCountFn (d : VmDataL α) : Nat := d.asm.slotCountFn

/-! ## Errors and outcomes -/

/-- Modelled from the spec: the error kind raised by `simplify`
(spec section 7, `BadChoiceSlice(got, expected)`); the full `Error` enum is
not under src/ and only this variant is reachable from the embedded code. -/
inductive ErrorE where
  | BadChoiceSlice (got expected : Nat)
deriving DecidableEq, Repr

/-- Result of running a fallible, possibly-panicking function: a normal
value, a result-shaped error, or an abort (panic / failed assert / index
out of bounds). -/
inductive Outcome (β : Type) where
  | ok (val : β)
  | err (e : ErrorE)
  | panicked
deriving DecidableEq, Repr

/-! ## The simplifier workspace and main loop -/

/-- The binding table and counter of `VmWorkspace`
(data.rs lines 293-305).  `bind` is `Vec<u32>` with `u32::MAX` as the
sentinel, modelled as a total map to `Option Nat`; the embedded register
allocator is modelled as a separate pass over the emitted op stream (the
source interleaves `workspace.alloc.op(op)` with emission, which is
functionally the same stream). -/
structure WorkspaceL where
  bind : Nat → Option Nat
  count : Nat

namespace WorkspaceL

/-- `VmWorkspace::active` (data.rs lines 318-324). -/
def active (w : WorkspaceL) (i : Nat) : Option Nat := w.bind i

/-- `VmWorkspace::set_active` (data.rs lines 334-336). -/
def setActive (w : WorkspaceL) (i v : Nat) : WorkspaceL :=
  { w with bind := fun j => if j = i then some v else w.bind j }

/-- `VmWorkspace::get_or_insert_active` (data.rs lines 326-332): returns
the binding, allocating the next counter value when the slot is fresh. -/
def getOrInsertActive (w : WorkspaceL) (i : Nat) : Nat × WorkspaceL :=
  match w.bind i with
  | some v => (v, w)
  | none =>
      (w.count,
       { bind := fun j => if j = i then some w.count else w.bind j,
         count := w.count + 1 })

/-- `VmWorkspace::reset` (data.rs lines 340-345): every binding becomes the
sentinel and the counter restarts (under the total-map model the `fill` +
`resize` pair is the constant-`none` map). -/
def reset (_w : WorkspaceL) (_tapeLen : Nat) : WorkspaceL :=
  { bind := fun _ => none, count := 0 }

end WorkspaceL

/-- State threaded through the op loop of `VmData::simplify`: the
workspace bindings, the not-yet-consumed suffix of the reversed choice
list, the running output choice count, and the emitted ops (in emission
order, which is stored order of the new tape). -/
structure LoopSt (α : Type) where
  ws : WorkspaceL
  choices : List Choice
  choiceCount : Nat
  opsOut : List (SsaOp α)

/-- Append an emitted op (the `workspace.alloc.op(op); ops_out.push(op)`
pair at data.rs lines 257-258) with an updated workspace. -/
def emitOp (st : LoopSt α) (w : WorkspaceL) (e : SsaOp α) : LoopSt α :=
  { st with ws := w, opsOut := st.opsOut ++ [e] }

/-- One iteration of the op loop of `VmData::simplify`
(data.rs lines 132-259).  `none` models a panic: `choice_iter.next()
.unwrap()` on an exhausted iterator, or `panic!` on `Choice::Unknown`. -/
def simplifyStep (op : SsaOp α) (st : LoopSt α) : Option (LoopSt α) :=
  match st.ws.active op.output with
  | none =>
      -- dead output: drop the op, discarding one choice if it has one
      if op.hasChoice then
        match st.choices with
        | [] => none
        | _ :: cs => some { st with choices := cs }
      else
        some st
  | some newIndex =>
      match op with
      | .Input _ ax => some (emitOp st st.ws (.Input newIndex ax))
      | .Var _ v => some (emitOp st st.ws (.Var newIndex v))
      | .CopyImm _ imm => some (emitOp st st.ws (.CopyImm newIndex imm))
      | .NegReg _ a =>
          let r := st.ws.getOrInsertActive a
          some (emitOp st r.2 (.NegReg newIndex r.1))
      | .AbsReg _ a =>
          let r := st.ws.getOrInsertActive a
          some (emitOp st r.2 (.AbsReg newIndex r.1))
      | .RecipReg _ a =>
          let r := st.ws.getOrInsertActive a
          some (emitOp st r.2 (.RecipReg newIndex r.1))
      | .SqrtReg _ a =>
          let r := st.ws.getOrInsertActive a
          some (emitOp st r.2 (.SqrtReg newIndex r.1))
      | .SquareReg _ a =>
          let r := st.ws.getOrInsertActive a
          some (emitOp st r.2 (.SquareReg newIndex r.1))
      | .SinReg _ a =>
          let r := st.ws.getOrInsertActive a
          some (emitOp st r.2 (.SinReg newIndex r.1))
      | .CosReg _ a =>
          let r := st.ws.getOrInsertActive a
          some (emitOp st r.2 (.CosReg newIndex r.1))
      | .TanReg _ a =>
          let r := st.ws.getOrInsertActive a
          some (emitOp st r.2 (.TanReg newIndex r.1))
      | .AsinReg _ a =>
          let r := st.ws.getOrInsertActive a
          some (emitOp st r.2 (.AsinReg newIndex r.1))
      | .AcosReg _ a =>
          let r := st.ws.getOrInsertActive a
          some (emitOp st r.2 (.AcosReg newIndex r.1))
      | .AtanReg _ a =>
          let r := st.ws.getOrInsertActive a
          some (emitOp st r.2 (.AtanReg newIndex r.1))
      | .ExpReg _ a =>
          let r := st.ws.getOrInsertActive a
          some (emitOp st r.2 (.ExpReg newIndex r.1))
      | .LnReg _ a =>
          let r := st.ws.getOrInsertActive a
          some (emitOp st r.2 (.LnReg newIndex r.1))
      | .CopyReg _ src =>
          -- data.rs lines 169-185: emit when the source is already active,
          -- otherwise alias the source slot to this op's new index
          match st.ws.active src with
          | some newSrc => some (emitOp st st.ws (.CopyReg newIndex newSrc))
          | none => some { st with ws := st.ws.setActive src newIndex }
      | .MinRegImm _ a imm =>
          match st.choices with
          | [] => none
          | c :: cs =>
            match c with
            | .Left =>
                match st.ws.active a with
                | some newArg =>
                    some (emitOp { st with choices := cs } st.ws
                      (.CopyReg newIndex newArg))
                | none =>
                    some { st with ws := st.ws.setActive a newIndex,
                                   choices := cs }
            | .Right =>
                some (emitOp { st with choices := cs } st.ws
                  (.CopyImm newIndex imm))
            | .Both =>
                let r := st.ws.getOrInsertActive a
                some (emitOp { st with choices := cs,
                                       choiceCount := st.choiceCount + 1 }
                  r.2 (.MinRegImm newIndex r.1 imm))
            | .Unknown => none
      | .MaxRegImm _ a imm =>
          match st.choices with
          | [] => none
          | c :: cs =>
            match c with
            | .Left =>
                match st.ws.active a with
                | some newArg =>
                    some (emitOp { st with choices := cs } st.ws
                      (.CopyReg newIndex newArg))
                | none =>
                    some { st with ws := st.ws.setActive a newIndex,
                                   choices := cs }
            | .Right =>
                some (emitOp { st with choices := cs } st.ws
                  (.CopyImm newIndex imm))
            | .Both =>
                let r := st.ws.getOrInsertActive a
                some (emitOp { st with choices := cs,
                                       choiceCount := st.choiceCount + 1 }
                  r.2 (.MaxRegImm newIndex r.1 imm))
            | .Unknown => none
      | .MinRegReg _ l rr =>
          match st.choices with
          | [] => none
          | c :: cs =>
            match c with
            | .Left =>
                match st.ws.active l with
                | some newLhs =>
                    some (emitOp { st with choices := cs } st.ws
                      (.CopyReg newIndex newLhs))
                | none =>
                    some { st with ws := st.ws.setActive l newIndex,
                                   choices := cs }
            | .Right =>
                match st.ws.active rr with
                | some newRhs =>
                    some (emitOp { st with choices := cs } st.ws
                      (.CopyReg newIndex newRhs))
                | none =>
                    some { st with ws := st.ws.setActive rr newIndex,
                                   choices := cs }
            | .Both =>
                let r1 := st.ws.getOrInsertActive l
                let r2 := r1.2.getOrInsertActive rr
                some (emitOp { st with choices := cs,
                                       choiceCount := st.choiceCount + 1 }
                  r2.2 (.MinRegReg newIndex r1.1 r2.1))
            | .Unknown => none
      | .MaxRegReg _ l rr =>
          match st.choices with
          | [] => none
          | c :: cs =>
            match c with
            | .Left =>
                match st.ws.active l with
                | some newLhs =>
                    some (emitOp { st with choices := cs } st.ws
                      (.CopyReg newIndex newLhs))
                | none =>
                    some { st with ws := st.ws.setActive l newIndex,
                                   choices := cs }
            | .Right =>
                match st.ws.active rr with
                | some newRhs =>
                    some (emitOp { st with choices := cs } st.ws
                      (.CopyReg newIndex newRhs))
                | none =>
                    some { st with ws := st.ws.setActive rr newIndex,
                                   choices := cs }
            | .Both =>
                let r1 := st.ws.getOrInsertActive l
                let r2 := r1.2.getOrInsertActive rr
                some (emitOp { st with choices := cs,
                                       choiceCount := st.choiceCount + 1 }
                  r2.2 (.MaxRegReg newIndex r1.1 r2.1))
            | .Unknown => none
      | .AddRegReg _ l rr =>
          let r1 := st.ws.getOrInsertActive l
          let r2 := r1.2.getOrInsertActive rr
          some (emitOp st r2.2 (.AddRegReg newIndex r1.1 r2.1))
      | .MulRegReg _ l rr =>
          let r1 := st.ws.getOrInsertActive l
          let r2 := r1.2.getOrInsertActive rr
          some (emitOp st r2.2 (.MulRegReg newIndex r1.1 r2.1))
      | .SubRegReg _ l rr =>
          let r1 := st.ws.getOrInsertActive l
          let r2 := r1.2.getOrInsertActive rr
          some (emitOp st r2.2 (.SubRegReg newIndex r1.1 r2.1))
      | .DivRegReg _ l rr =>
          let r1 := st.ws.getOrInsertActive l
          let r2 := r1.2.getOrInsertActive rr
          some (emitOp st r2.2 (.DivRegReg newIndex r1.1 r2.1))
      | .AddRegImm _ a imm =>
          let r := st.ws.getOrInsertActive a
          some (emitOp st r.2 (.AddRegImm newIndex r.1 imm))
      | .MulRegImm _ a imm =>
          let r := st.ws.getOrInsertActive a
          some (emitOp st r.2 (.MulRegImm newIndex r.1 imm))
      | .SubRegImm _ a imm =>
          let r := st.ws.getOrInsertActive a
          some (emitOp st r.2 (.SubRegImm newIndex r.1 imm))
      | .SubImmReg _ a imm =>
          let r := st.ws.getOrInsertActive a
          some (emitOp st r.2 (.SubImmReg newIndex r.1 imm))
      | .DivRegImm _ a imm =>
          let r := st.ws.getOrInsertActive a
          some (emitOp st r.2 (.DivRegImm newIndex r.1 imm))
      | .DivImmReg _ a imm =>
          let r := st.ws.getOrInsertActive a
          some (emitOp st r.2 (.DivImmReg newIndex r.1 imm))

/-- The op loop of `VmData::simplify`, iterating the stored tape from the
root; failure of any step (a panic) aborts the whole run. -/
def simplifyLoop : List (SsaOp α) → LoopSt α → Option (LoopSt α)
  | [], st => some st
  | op :: rest, st =>
      match simplifyStep op st with
      | none => none
      | some st' => simplifyLoop rest st'

/-! ## A register allocator, modelled from the spec

`RegisterAllocator` (crate `compiler`) is not under src/.  The model below
follows spec section 4.2: SSA tape consumed in stored (root-first) order;
per-slot allocations to registers or memory; a free-list of registers; LRU
eviction; `Load`/`Store` spill ops around the rewritten op.  The LRU policy
itself is implementation-defined per spec section 9; the model commits to
move-to-front on use and evict-the-back. -/

/-- Modelled from the spec: a slot's allocation — register or spill slot
(spec section 4.2, state map 1). -/
inductive Loc where
  | reg (r : Nat)
  | mem (m : Nat)
deriving DecidableEq, Repr

/-- Modelled from the spec: register-allocator state (spec section 4.2):
allocations, reverse register contents, free-lists, LRU order, next fresh
memory slot, and the output stream in stored order. -/
structure AllocSt (α : Type) where
  alloc : Nat → Option Loc
  contents : Nat → Option Nat
  free : List Nat
  lru : List Nat
  freeMem : List Nat
  nextMem : Nat
  out : List (RegOp α)

/-- Rewrite an `SsaOp` into the corresponding `RegOp`, with destination
register `d` and input registers `ins` (parallel to `SsaOp.inputs`);
opcode kind is unchanged (spec section 4.2, "Op rewriting on emission"). -/
def mapRegs : SsaOp α → Nat → List Nat → RegOp α
  | .Input _ ax, d, _ => .Input d ax
  | .Var _ v, d, _ => .Var d v
  | .CopyImm _ imm, d, _ => .CopyImm d imm
  | .NegReg _ _, d, ins => .NegReg d (ins.headD 0)
  | .AbsReg _ _, d, ins => .AbsReg d (ins.headD 0)
  | .RecipReg _ _, d, ins => .RecipReg d (ins.headD 0)
  | .SqrtReg _ _, d, ins => .SqrtReg d (ins.headD 0)
  | .SquareReg _ _, d, ins => .SquareReg d (ins.headD 0)
  | .SinReg _ _, d, ins => .SinReg d (ins.headD 0)
  | .CosReg _ _, d, ins => .CosReg d (ins.headD 0)
  | .TanReg _ _, d, ins => .TanReg d (ins.headD 0)
  | .AsinReg _ _, d, ins => .AsinReg d (ins.headD 0)
  | .AcosReg _ _, d, ins => .AcosReg d (ins.headD 0)
  | .AtanReg _ _, d, ins => .AtanReg d (ins.headD 0)
  | .ExpReg _ _, d, ins => .ExpReg d (ins.headD 0)
  | .LnReg _ _, d, ins => .LnReg d (ins.headD 0)
  | .CopyReg _ _, d, ins => .CopyReg d (ins.headD 0)
  | .AddRegReg _ _ _, d, ins => .AddRegReg d (ins.headD 0) ((ins.drop 1).headD 0)
  | .MulRegReg _ _ _, d, ins => .MulRegReg d (ins.headD 0) ((ins.drop 1).headD 0)
  | .SubRegReg _ _ _, d, ins => .SubRegReg d (ins.headD 0) ((ins.drop 1).headD 0)
  | .DivRegReg _ _ _, d, ins => .DivRegReg d (ins.headD 0) ((ins.drop 1).headD 0)
  | .MinRegReg _ _ _, d, ins => .MinRegReg d (ins.headD 0) ((ins.drop 1).headD 0)
  | .MaxRegReg _ _ _, d, ins => .MaxRegReg d (ins.headD 0) ((ins.drop 1).headD 0)
  | .AddRegImm _ _ imm, d, ins => .AddRegImm d (ins.headD 0) imm
  | .MulRegImm _ _ imm, d, ins => .MulRegImm d (ins.headD 0) imm
  | .SubRegImm _ _ imm, d, ins => .SubRegImm d (ins.headD 0) imm
  | .SubImmReg _ _ imm, d, ins => .SubImmReg d (ins.headD 0) imm
  | .DivRegImm _ _ imm, d, ins => .DivRegImm d (ins.headD 0) imm
  | .DivImmReg _ _ imm, d, ins => .DivImmReg d (ins.headD 0) imm
  | .MinRegImm _ _ imm, d, ins => .MinRegImm d (ins.headD 0) imm
  | .MaxRegImm _ _ imm, d, ins => .MaxRegImm d (ins.headD 0) imm

/-- Modelled from the spec: spill the victim register's occupant to a
memory slot (spec section 4.2, step 3), emitting the `Store`. -/
def evictVictim (st : AllocSt α) (victim : Nat) :
    Nat × AllocSt α × List (RegOp α) :=
  match st.contents victim with
  | none => (victim, st, [])
  | some s =>
      match st.freeMem with
      | m :: ms =>
          (victim,
           { st with
               alloc := fun j => if j = s then some (.mem m) else st.alloc j,
               contents := fun r => if r = victim then none else st.contents r,
               freeMem := ms },
           [.Store m victim])
      | [] =>
          (victim,
           { st with
               alloc := fun j => if j = s then some (.mem st.nextMem) else st.alloc j,
               contents := fun r => if r = victim then none else st.contents r,
               nextMem := st.nextMem + 1 },
           [.Store st.nextMem victim])

/-- Modelled from the spec: obtain a free register, evicting the least
recently used register not in `forbidden` when none is free (spec
section 4.2, steps 2-3).  Returns the register, the new state, and the
`Store` spill emitted by an eviction. -/
def getFreeReg (st : AllocSt α) (forbidden : List Nat) :
    Nat × AllocSt α × List (RegOp α) :=
  match st.free with
  | r :: rest => (r, { st with free := rest, lru := r :: st.lru }, [])
  | [] =>
      match (st.lru.reverse.filter (fun r => !(forbidden.contains r))).head? with
      | none => (0, st, [])
      | some victim =>
          evictVictim { st with lru := victim :: st.lru.erase victim } victim

/-- Modelled from the spec: bring input slot `s` into a register (spec
section 4.2, step 2).  Returns the register, the new state, pre-ops
(evicting `Store`s) and post-ops (the `Load` when the value was spilled). -/
def ensureReg (st : AllocSt α) (s : Nat) (forbidden : List Nat) :
    Nat × AllocSt α × List (RegOp α) × List (RegOp α) :=
  match st.alloc s with
  | some (.reg r) =>
      (r, { st with lru := r :: st.lru.erase r }, [], [])
  | some (.mem m) =>
      match getFreeReg st forbidden with
      | (r, st', stores) =>
          (r,
           { st' with
               alloc := fun j => if j = s then some (.reg r) else st'.alloc j,
               contents := fun q => if q = r then some s else st'.contents q,
               freeMem := m :: st'.freeMem },
           stores, [.Load r m])
  | none =>
      match getFreeReg st forbidden with
      | (r, st', stores) =>
          (r,
           { st' with
               alloc := fun j => if j = s then some (.reg r) else st'.alloc j,
               contents := fun q => if q = r then some s else st'.contents q },
           stores, [])

/-- Modelled from the spec: release the destination register after the op
is emitted (spec section 4.2, step 1: the register becomes available
again). -/
def releaseReg (st : AllocSt α) (o r : Nat) : AllocSt α :=
  { st with
      alloc := fun j => if j = o then none else st.alloc j,
      contents := fun q => if q = r then none else st.contents q,
      free := r :: st.free,
      lru := st.lru.erase r }

/-- Modelled from the spec: resolve the op's input slots into registers in
order, accumulating chosen registers, eviction `Store`s and spill `Load`s
(spec section 4.2, step 2). -/
def allocInputs (rOut : Nat) :
    List Nat → List Nat × AllocSt α × List (RegOp α) × List (RegOp α) →
    List Nat × AllocSt α × List (RegOp α) × List (RegOp α)
  | [], acc => acc
  | s :: ins, acc =>
      match ensureReg acc.2.1 s (rOut :: acc.1) with
      | (r, st', pres', posts') =>
          allocInputs rOut ins
            (acc.1 ++ [r], st', acc.2.2.1 ++ pres', acc.2.2.2 ++ posts')

/-- Modelled from the spec: process one SSA op (spec section 4.2,
steps 1-4).  A `none` destination marks a dead op, skipped entirely. -/
def allocOp (st : AllocSt α) (op : SsaOp α) : AllocSt α :=
  match st.alloc op.output with
  | none => st
  | some loc =>
      let dst :=
        match loc with
        | .reg r => (r, st, ([] : List (RegOp α)))
        | .mem m =>
            match getFreeReg st [] with
            | (r, st', stores) =>
                (r, { st' with
                        contents := fun q => if q = r then some op.output else st'.contents q,
                        alloc := fun j => if j = op.output then some (.reg r) else st'.alloc j,
                        freeMem := m :: st'.freeMem },
                 stores ++ [.Store m r])
      match dst with
      | (rOut, st1, pres) =>
          match allocInputs rOut op.inputs
              (([] : List Nat), st1, pres, ([] : List (RegOp α))) with
          | (regs, st2, preOps, postOps) =>
              let e := mapRegs op rOut regs
              let st3 := releaseReg st2 op.output rOut
              { st3 with out := st3.out ++ preOps ++ [e] ++ postOps }

/-- Modelled from the spec: initial allocator state for register budget
`n`; the root SSA slot 0 is pre-bound to register 0 so that the first
(root) op finds its destination (spec section 4.2/4.3). -/
def allocInit (n : Nat) : AllocSt α :=
  { alloc := fun j => if j = 0 then some (.reg 0) else none,
    contents := fun r => if r = 0 then some 0 else none,
    free := (List.range n).drop 1,
    lru := [0],
    freeMem := [],
    nextMem := n,
    out := [] }

/-- Modelled from the spec: run the allocator over a whole SSA op stream
and package the result as a register tape (spec section 4.2,
finalization; `slot_count` counts slot 0 plus any spill slots used,
matching `Tape::new`'s starting value of 1). -/
def allocateTape (n : Nat) (ops : List (SsaOp α)) : TapeR α :=
  let fin := ops.foldl allocOp (allocInit n)
  { tape := fin.out,
    slot_count := 1 + (fin.nextMem - n),
    reg_limit := n }

/-! ## The simplifier entry point -/

/-- `VmData::simplify` (data.rs lines 103-272), returning the outcome, the
final workspace state, and the scratch `VmData`'s final buffer state (the
source takes `tape` by value; the third component records what remains of
it at exit — untouched on the length-check error path, consumed
otherwise). -/
def VmDataL.simplify (n : Nat) (self : VmDataL α) (choices : List Choice)
    (workspace : WorkspaceL) (tape : VmDataL α) :
    Outcome (VmDataL α) × WorkspaceL × VmDataL α :=
  if choices.length ≠ self.choiceCountFn then
    (.err (.BadChoiceSlice choices.length self.choiceCountFn), workspace, tape)
  else
    let scratch : VmDataL α :=
      { ssa := tape.ssa.resetTape, asm := TapeR.dfltTape }
    let ws0 := workspace.reset self.ssa.tape.length
    match self.ssa.tape with
    | [] =>
        -- `self.ssa.tape[0]` at data.rs line 123: index out of bounds
        (.panicked, ws0, scratch)
    | op0 :: rest =>
        if op0.output ≠ 0 then
          -- failed `assert_eq!(self.ssa.tape[0].output(), 0)`
          (.panicked, ws0, scratch)
        else
          let ws1 := ws0.setActive op0.output 0
          let ws2 := { ws1 with count := ws1.count + 1 }
          let st0 : LoopSt α :=
            { ws := ws2, choices := choices.reverse, choiceCount := 0,
              opsOut := [] }
          match simplifyLoop (op0 :: rest) st0 with
          | none => (.panicked, ws2, scratch)
          | some st =>
              if st.ws.count ≠ st.opsOut.length then
                -- failed `assert_eq!(workspace.count as usize, ops_out.len())`
                (.panicked, st.ws, scratch)
              else
                (.ok { ssa := { tape := st.opsOut,
                                choice_count := st.choiceCount,
                                vars := self.ssa.vars },
                       asm := allocateTape n st.opsOut },
                 st.ws, scratch)

/-! ## Tape well-formedness and evaluation lemmas -/

/-- Output slots of a tape, in stored order. -/
def outs (l : List (SsaOp α)) : List Nat := l.map SsaOp.output

/-- Dependency closure: every input of every op is the output of a
strictly later op in stored order (spec sections 3 and 4.1: reverse
evaluation order, root first, leaves later). -/
def DepC : List (SsaOp α) → Prop
  | [] => True
  | op :: rest => (∀ a ∈ op.inputs, a ∈ outs rest) ∧ DepC rest

instance depCDec : ∀ (l : List (SsaOp α)), Decidable (DepC l)
  | [] => .isTrue trivial
  | op :: rest =>
      haveI : Decidable (DepC rest) := depCDec rest
      inferInstanceAs (Decidable ((∀ a ∈ op.inputs, a ∈ outs rest) ∧ DepC rest))

/-! ## Workspace-extension lemmas

`bind` entries are write-once during the simplify loop: `set_active` is
only reached behind an `active(..) == None` check and
`get_or_insert_active` only writes fresh slots.  `GIext w w' allowed`
captures the effect of a chain of `get_or_insert_active` calls on slots
from `allowed`: an extension whose new entries carry fresh, uniquely-owned
counter values. -/

def GIext (w w' : WorkspaceL) (allowed : List Nat) : Prop :=
  (∀ s j, w.bind s = some j → w'.bind s = some j) ∧
  w.count ≤ w'.count ∧
  (∀ s j, w'.bind s = some j →
      w.bind s = some j ∨ (w.count ≤ j ∧ j < w'.count ∧ s ∈ allowed)) ∧
  (∀ j, w.count ≤ j → j < w'.count →
      ∃ s, w'.bind s = some j ∧ s ∈ allowed ∧ w.bind s = none ∧
        ∀ s', w'.bind s' = some j → s' = s)

/-! ## The structural loop invariant -/

/-- Slot `s` is the pending owner of new name `j`: it is bound to `j` and
its defining op is still in the unprocessed suffix `todo`. -/
def Owns (b : Nat → Option Nat) (todo : List (SsaOp α)) (s j : Nat) : Prop :=
  b s = some j ∧ s ∈ outs todo

/-- Structural invariant of the simplify loop, relating the state to the
unprocessed suffix `todo`: counter values are fresh bounds; every
allocated name below the counter is either the output of exactly one
emitted op or pending with exactly one owner in `todo`; emitted ops only
reference names defined later in emission order or still pending; the
first emitted op takes name 0; the emitted choice ops count the running
`choice_count`. -/
structure InvS (todo : List (SsaOp α)) (st : LoopSt α) : Prop where
  fresh : ∀ s j, st.ws.bind s = some j → j < st.ws.count
  outLt : ∀ e ∈ st.opsOut, SsaOp.output e < st.ws.count
  emNodup : (outs st.opsOut).Nodup
  part : ∀ j, j < st.ws.count →
    (j ∈ outs st.opsOut ∧ ∀ s, ¬ Owns st.ws.bind todo s j) ∨
    (j ∉ outs st.opsOut ∧ ∃ s, Owns st.ws.bind todo s j ∧
        ∀ s', Owns st.ws.bind todo s' j → s' = s)
  dep : ∀ l₁ e l₂, st.opsOut = l₁ ++ e :: l₂ →
    ∀ a ∈ SsaOp.inputs e, a ∈ outs l₂ ∨ ∃ s, Owns st.ws.bind todo s a
  fc : st.opsOut = [] → st.ws.count = 1
  fo : ∀ e l, st.opsOut = e :: l → SsaOp.output e = 0
  ccEq : st.opsOut.countP SsaOp.hasChoice = st.choiceCount

/-! ## Semantic invariant

`σ` is the final slot valuation of the source tape.  The semantic
invariant states that the binding table only merges slots with equal
source values, and that any new-slot valuation compatible with the
binding table satisfies every emitted op's defining equation. -/

def Compat (σ v' : Nat → α) (b : Nat → Option Nat) : Prop :=
  ∀ s j, b s = some j → v' j = σ s

structure SemInv (I : Interp α) (σ : Nat → α) (st : LoopSt α) : Prop where
  consist : ∀ s s' j, st.ws.bind s = some j → st.ws.bind s' = some j →
    σ s = σ s'
  satAll : ∀ v' : Nat → α, Compat σ v' st.ws.bind →
    ∀ e ∈ st.opsOut, v' (SsaOp.output e) = opEval I v' e

/-! ## Choice-correctness pairing -/

/-- A choice correctly describes the winner of its min/max op at the
point described by `σ` (spec section 3: a choice tells which operand(s)
can reach the output; `Unknown` must never appear). -/
def ChoiceOkFor (I : Interp α) (σ : Nat → α) : SsaOp α → Choice → Prop :=
  fun op c =>
    match op, c with
    | .MinRegImm _ a imm, .Left => I.fmin (σ a) imm = σ a
    | .MinRegImm _ a imm, .Right => I.fmin (σ a) imm = imm
    | .MaxRegImm _ a imm, .Left => I.fmax (σ a) imm = σ a
    | .MaxRegImm _ a imm, .Right => I.fmax (σ a) imm = imm
    | .MinRegReg _ l r, .Left => I.fmin (σ l) (σ r) = σ l
    | .MinRegReg _ l r, .Right => I.fmin (σ l) (σ r) = σ r
    | .MaxRegReg _ l r, .Left => I.fmax (σ l) (σ r) = σ l
    | .MaxRegReg _ l r, .Right => I.fmax (σ l) (σ r) = σ r
    | _, .Unknown => False
    | _, _ => True

/-- The pairing of a tape suffix with its (reversed) choice list: each
choice-bearing op in stored order consumes the head, which must be correct
for it; the list is exhausted exactly when the suffix ends. -/
def ZipC (I : Interp α) (σ : Nat → α) : List (SsaOp α) → List Choice → Prop
  | [], cs => cs = []
  | op :: rest, cs =>
      match SsaOp.hasChoice op, cs with
      | true, [] => False
      | true, c :: cs' => ChoiceOkFor I σ op c ∧ ZipC I σ rest cs'
      | false, cs => ZipC I σ rest cs


/-- The loop state that `VmData::simplify` seeds the op loop with: the
root slot bound to new name 0, counter 1, and the choice list reversed. -/
def initState (op0 : SsaOp α) (choices : List Choice) : LoopSt α :=
  { ws := { bind := fun j => if j = SsaOp.output op0 then some 0 else none,
            count := 1 },
    choices := choices.reverse, choiceCount := 0, opsOut := [] }

/-- The scratch `VmData` after `simplify` has consumed its buffers. -/
def scratchOf (scr : VmDataL α) : VmDataL α :=
  { ssa := scr.ssa.resetTape, asm := TapeR.dfltTape }

/-! ## Concrete data for witnesses and counterexamples -/

/-- A concrete interpretation over `Int` (transcendental primitives are
irrelevant to the witnesses and interpreted as the identity). -/
def IInt : Interp Int :=
  { neg := fun x => -x, abs := fun x => (x.natAbs : Int), recip := fun x => x,
    sqrt := fun x => x, square := fun x => x * x, sin := fun x => x,
    cos := fun x => x, tan := fun x => x, asin := fun x => x,
    acos := fun x => x, atan := fun x => x, exp := fun x => x,
    ln := fun x => x, add := fun x y => x + y, mul := fun x y => x * y,
    sub := fun x y => x - y, div := fun x y => x / y,
    fmin := fun x y => min x y, fmax := fun x y => max x y,
    input := fun ax => if ax = 0 then 3 else 7, var := fun _ => 0, dflt := 0 }

/-- An empty workspace. -/
def wsEmpty : WorkspaceL := { bind := fun _ => none, count := 0 }

/-- `min(x, 5)`: the witness source tape. -/
def tapeC1 : List (SsaOp Int) := [.MinRegImm 0 1 5, .Input 1 0]

/-- The witness source `VmData`. -/
def dC1 : VmDataL Int :=
  { ssa := { tape := tapeC1, choice_count := 1, vars := [] },
    asm := allocateTape 255 tapeC1 }

/-- The expected simplification of `dC1` under `[Left]`. -/
def d1C1 : VmDataL Int :=
  { ssa := { tape := [.Input 0 0], choice_count := 0, vars := [] },
    asm := allocateTape 255 [SsaOp.Input 0 0] }

/-- `min(x, 5) + x`: the C7 counterexample source tape — the register
operand of the min stays live in the sum, so resolving the min to its
immediate side cannot shrink the tape. -/
def tapeC7 : List (SsaOp Int) :=
  [.AddRegReg 0 1 2, .MinRegImm 1 2 5, .Input 2 0]

/-- The C7 counterexample source `VmData`. -/
def dC7 : VmDataL Int :=
  { ssa := { tape := tapeC7, choice_count := 1, vars := [] },
    asm := allocateTape 255 tapeC7 }

/-- The simplification of `dC7` under `[Right]`: same length as the
source. -/
def dC7s : VmDataL Int :=
  { ssa := { tape := [.AddRegReg 0 1 2, .CopyImm 1 5, .Input 2 0],
             choice_count := 0, vars := [] },
    asm := allocateTape 255 [SsaOp.AddRegReg 0 1 2, SsaOp.CopyImm 1 5,
      SsaOp.Input 2 0] }

/-- A second C7 counterexample source, exercising register spills: seven
ops over a three-register budget, with two choice ops resolved to
`Right`.  Its register tape allocates with two spill pairs. -/
def tapeC7b : List (SsaOp Int) :=
  [.SubRegReg 0 1 3, .AddRegReg 1 2 4, .MinRegReg 2 3 6, .SubRegReg 3 5 6,
   .AddRegReg 4 6 6, .MaxRegReg 5 6 6, .Input 6 1]

/-- The spill counterexample source `VmData`, coherent with its own
register tape (`asm` is the allocation of `ssa` at the same budget). -/
def dC7b : VmDataL Int :=
  { ssa := { tape := tapeC7b, choice_count := 2, vars := [] },
    asm := allocateTape 3 tapeC7b }

/-- The simplification of `dC7b` under `[Right, Right]`: one SSA op
fewer, but the changed slot lifetimes cost an extra spill pair, so the
register tape is longer than the source's. -/
def tapeC7bs : List (SsaOp Int) :=
  [.SubRegReg 0 1 2, .AddRegReg 1 3 4, .SubRegReg 2 5 3, .AddRegReg 4 3 3,
   .CopyReg 5 3, .Input 3 1]

/-- The expected result of simplifying `dC7b` under `[Right, Right]`. -/
def dC7bs : VmDataL Int :=
  { ssa := { tape := tapeC7bs, choice_count := 0, vars := [] },
    asm := allocateTape 3 tapeC7bs }

theorem upd_self (m : Nat → α) (k : Nat) (v : α) : upd m k v k = v := by
  simp [upd]

theorem upd_ne (m : Nat → α) (k : Nat) (v : α) {j : Nat} (h : j ≠ k) :
    upd m k v j = m j := by
  simp [upd, h]

theorem evalTape_append (I : Interp α) (l₁ l₂ : List (SsaOp α)) (m : Nat → α) :
    evalTape I (l₁ ++ l₂) m = evalTape I l₁ (evalTape I l₂ m) := by
  simp [evalTape, List.foldr_append]

theorem evalTape_not_out (I : Interp α) :
    ∀ (l : List (SsaOp α)) (m : Nat → α) (s : Nat), s ∉ outs l →
      evalTape I l m s = m s := by
  intro l
  induction l with
  | nil => intro m s _; rfl
  | cons op rest ih =>
      intro m s hs
      have h1 : s ≠ op.output := by
        intro h; exact hs (by simp [outs, h])
      have h2 : s ∉ outs rest := by
        intro h; exact hs (by simp [outs] at h ⊢; exact Or.inr h)
      show upd (evalTape I rest m) op.output _ s = m s
      rw [upd_ne _ _ _ h1, ih m s h2]

theorem opEval_congr (I : Interp α) (m₁ m₂ : Nat → α) (op : SsaOp α)
    (h : ∀ s ∈ op.inputs, m₁ s = m₂ s) : opEval I m₁ op = opEval I m₂ op := by
  cases op <;> simp_all [opEval, SsaOp.inputs]

theorem depC_suffix {l₁ l₂ : List (SsaOp α)} (h : DepC (l₁ ++ l₂)) : DepC l₂ := by
  induction l₁ with
  | nil => exact h
  | cons op rest ih => exact ih h.2

/-- The final slot map of a well-formed tape satisfies every op's defining
equation. -/
theorem evalTape_sat (I : Interp α) (m0 : Nat → α) (l : List (SsaOp α))
    (hnd : (outs l).Nodup) (hdc : DepC l) :
    ∀ l₁ op l₂, l = l₁ ++ op :: l₂ →
      evalTape I l m0 op.output = opEval I (evalTape I l m0) op := by
  intro l₁ op l₂ hsplit
  subst hsplit
  have hnd' : (outs l₁ ++ op.output :: outs l₂).Nodup := by
    simpa [outs] using hnd
  rw [List.nodup_append] at hnd'
  obtain ⟨-, hnd₂, hdisj⟩ := hnd'
  have hopl₂ : op.output ∉ outs l₂ := (List.nodup_cons.mp hnd₂).1
  have hopl₁ : op.output ∉ outs l₁ := fun h => hdisj h (List.mem_cons_self _ _)
  have hdc' : DepC (op :: l₂) := depC_suffix hdc
  have hin : ∀ a ∈ op.inputs, a ∈ outs l₂ := hdc'.1
  have hmid : evalTape I (op :: l₂) m0 =
      upd (evalTape I l₂ m0) op.output (opEval I (evalTape I l₂ m0) op) := rfl
  rw [evalTape_append I l₁ (op :: l₂) m0]
  have hout : evalTape I l₁ (evalTape I (op :: l₂) m0) op.output
      = opEval I (evalTape I l₂ m0) op := by
    rw [evalTape_not_out I l₁ _ _ hopl₁, hmid, upd_self]
  rw [hout]
  apply opEval_congr
  intro s hs
  have hsl₂ : s ∈ outs l₂ := hin s hs
  have hs₁ : s ∉ outs l₁ := fun h => hdisj h (List.mem_cons_of_mem _ hsl₂)
  have hsne : s ≠ op.output := fun h => hopl₂ (h ▸ hsl₂)
  rw [evalTape_not_out I l₁ _ _ hs₁, hmid, upd_ne _ _ _ hsne]

/-- On a well-formed tape, any two slot maps satisfying every op's
equation agree on every defined slot. -/
theorem eval_unique (I : Interp α) :
    ∀ (l : List (SsaOp α)), (outs l).Nodup → DepC l →
      ∀ v₁ v₂ : Nat → α,
        (∀ op ∈ l, v₁ op.output = opEval I v₁ op) →
        (∀ op ∈ l, v₂ op.output = opEval I v₂ op) →
        ∀ op ∈ l, v₁ op.output = v₂ op.output := by
  intro l
  induction l with
  | nil => intro _ _ _ _ _ _ op h; cases h
  | cons op rest ih =>
      intro hnd hdc v₁ v₂ h₁ h₂ op' hop'
      have hnd' : (outs rest).Nodup := by
        have : (op.output :: outs rest).Nodup := by simpa [outs] using hnd
        exact (List.nodup_cons.mp this).2
      have hrest : ∀ q ∈ rest, v₁ q.output = v₂ q.output :=
        ih hnd' hdc.2 v₁ v₂
          (fun q hq => h₁ q (List.mem_cons_of_mem _ hq))
          (fun q hq => h₂ q (List.mem_cons_of_mem _ hq))
      rcases List.mem_cons.mp hop' with h | h
      · subst h
        have hagree : ∀ s ∈ op'.inputs, v₁ s = v₂ s := by
          intro s hs
          have : s ∈ outs rest := hdc.1 s hs
          obtain ⟨q, hq, hqs⟩ := List.mem_map.mp this
          rw [← hqs]; exact hrest q hq
        rw [h₁ op' (List.mem_cons_self _ _), h₂ op' (List.mem_cons_self _ _)]
        exact opEval_congr I v₁ v₂ op' hagree
      · exact hrest op' h

theorem GIext_refl (w : WorkspaceL) (allowed : List Nat) : GIext w w allowed :=
  ⟨fun _ _ h => h, le_refl _, fun _ _ h => Or.inl h,
   fun j h₁ h₂ => absurd h₂ (by omega)⟩

theorem gio_eq_some {w : WorkspaceL} {i v : Nat} (h : w.bind i = some v) :
    w.getOrInsertActive i = (v, w) := by
  simp [WorkspaceL.getOrInsertActive, h]

theorem gio_eq_none {w : WorkspaceL} {i : Nat} (h : w.bind i = none) :
    w.getOrInsertActive i =
      (w.count,
       { bind := fun j => if j = i then some w.count else w.bind j,
         count := w.count + 1 }) := by
  simp [WorkspaceL.getOrInsertActive, h]

theorem gio_bind_self (w : WorkspaceL) (i : Nat) :
    (w.getOrInsertActive i).2.bind i = some (w.getOrInsertActive i).1 := by
  cases h : w.bind i with
  | none => rw [gio_eq_none h]; simp
  | some v => rw [gio_eq_some h]; exact h

theorem gio_mono {w : WorkspaceL} {s j : Nat} (i : Nat)
    (h : w.bind s = some j) : (w.getOrInsertActive i).2.bind s = some j := by
  cases hi : w.bind i with
  | none =>
      rw [gio_eq_none hi]
      by_cases hsi : s = i
      · subst hsi; rw [h] at hi; cases hi
      · simpa [hsi] using h
  | some v => rw [gio_eq_some hi]; exact h

theorem GIext_fresh {w w' : WorkspaceL} {allowed : List Nat}
    (hf : ∀ s j, w.bind s = some j → j < w.count)
    (hext : GIext w w' allowed) :
    ∀ s j, w'.bind s = some j → j < w'.count := by
  intro s j h
  rcases hext.2.2.1 s j h with h' | ⟨_, h₂, _⟩
  · exact lt_of_lt_of_le (hf s j h') hext.2.1
  · exact h₂

theorem GIext_gio {w : WorkspaceL} {i : Nat} {allowed : List Nat}
    (hf : ∀ s j, w.bind s = some j → j < w.count)
    (hi : i ∈ allowed) :
    GIext w (w.getOrInsertActive i).2 allowed := by
  cases h : w.bind i with
  | some v =>
      rw [gio_eq_some h]; exact GIext_refl w allowed
  | none =>
      rw [gio_eq_none h]
      dsimp only
      refine ⟨?_, ?_, ?_, ?_⟩
      · intro s j hs
        by_cases hsi : s = i
        · subst hsi; rw [hs] at h; cases h
        · simpa [hsi] using hs
      · exact Nat.le_succ _
      · intro s j hs
        by_cases hsi : s = i
        · subst hsi
          simp only [if_pos rfl] at hs
          have hj : w.count = j := Option.some.inj hs
          subst hj
          exact Or.inr ⟨le_refl _, Nat.lt_succ_self _, hi⟩
        · exact Or.inl (by simpa [hsi] using hs)
      · intro j h₁ h₂
        have h₂' : j < w.count + 1 := h₂
        have hj : j = w.count := by omega
        subst hj
        refine ⟨i, by simp, hi, h, ?_⟩
        intro s' hs'
        by_cases hsi : s' = i
        · exact hsi
        · simp only [if_neg hsi] at hs'
          exact absurd (hf s' _ hs') (by omega)

theorem GIext_trans {w w₁ w₂ : WorkspaceL} {allowed : List Nat}
    (h₁ : GIext w w₁ allowed) (h₂ : GIext w₁ w₂ allowed) :
    GIext w w₂ allowed := by
  obtain ⟨m₁, c₁, n₁, u₁⟩ := h₁
  obtain ⟨m₂, c₂, n₂, u₂⟩ := h₂
  refine ⟨fun s j h => m₂ s j (m₁ s j h), le_trans c₁ c₂, ?_, ?_⟩
  · intro s j h
    rcases n₂ s j h with h' | ⟨hge, hlt, hall⟩
    · rcases n₁ s j h' with h'' | ⟨hge, hlt, hall⟩
      · exact Or.inl h''
      · exact Or.inr ⟨hge, lt_of_lt_of_le hlt c₂, hall⟩
    · exact Or.inr ⟨le_trans c₁ hge, hlt, hall⟩
  · intro j hge hlt
    by_cases hmid : j < w₁.count
    · obtain ⟨s, hs, hall, hnone, huniq⟩ := u₁ j hge hmid
      refine ⟨s, m₂ s j hs, hall, hnone, ?_⟩
      intro s' hs'
      rcases n₂ s' j hs' with h' | ⟨hge', _, _⟩
      · exact huniq s' h'
      · omega
    · obtain ⟨s, hs, hall, hnone₁, huniq⟩ := u₂ j (by omega) hlt
      refine ⟨s, hs, hall, ?_, huniq⟩
      cases hw : w.bind s with
      | none => rfl
      | some v => rw [m₁ s v hw] at hnone₁; cases hnone₁

theorem outs_cons (op : SsaOp α) (rest : List (SsaOp α)) :
    outs (op :: rest) = SsaOp.output op :: outs rest := rfl

theorem outs_append (l₁ l₂ : List (SsaOp α)) :
    outs (l₁ ++ l₂) = outs l₁ ++ outs l₂ := List.map_append _ _ _

theorem owns_cons {b : Nat → Option Nat} {op : SsaOp α}
    {rest : List (SsaOp α)} {s j : Nat} :
    Owns b rest s j → Owns b (op :: rest) s j := by
  rintro ⟨h₁, h₂⟩
  exact ⟨h₁, by rw [outs_cons]; exact List.mem_cons_of_mem _ h₂⟩

theorem owns_uncons_of_none {b : Nat → Option Nat} {op : SsaOp α}
    {rest : List (SsaOp α)} {s j : Nat}
    (hb : b (SsaOp.output op) = none) :
    Owns b (op :: rest) s j → Owns b rest s j := by
  rintro ⟨h₁, h₂⟩
  rw [outs_cons, List.mem_cons] at h₂
  rcases h₂ with he | hr
  · rw [he, hb] at h₁; cases h₁
  · exact ⟨h₁, hr⟩

/-- Splitting a snoc: any middle-element decomposition of `acc ++ [e]`
either picks out `e` itself or lives inside `acc`. -/
theorem split_snoc {β : Type} :
    ∀ (l₁ acc : List β) (f e : β) (l₂ : List β),
      acc ++ [e] = l₁ ++ f :: l₂ →
      (l₁ = acc ∧ f = e ∧ l₂ = []) ∨
      ∃ l₂', acc = l₁ ++ f :: l₂' ∧ l₂ = l₂' ++ [e] := by
  intro l₁
  induction l₁ with
  | nil =>
      intro acc f e l₂ h
      cases acc with
      | nil =>
          simp only [List.nil_append] at h
          obtain ⟨he, hl⟩ := List.cons.inj h
          exact Or.inl ⟨rfl, he.symm, hl.symm⟩
      | cons x acc' =>
          simp only [List.cons_append, List.nil_append] at h
          obtain ⟨he, hl⟩ := List.cons.inj h
          exact Or.inr ⟨acc', by simp [he], hl.symm⟩
  | cons y l₁' ih =>
      intro acc f e l₂ h
      cases acc with
      | nil =>
          simp only [List.nil_append, List.cons_append] at h
          obtain ⟨-, hl⟩ := List.cons.inj h
          exact absurd hl.symm (by simp)
      | cons x acc' =>
          simp only [List.cons_append] at h
          obtain ⟨hxy, hl⟩ := List.cons.inj h
          rcases ih acc' f e l₂ hl with ⟨h1, h2, h3⟩ | ⟨l₂', h1, h2⟩
          · exact Or.inl ⟨by rw [hxy, h1], h2, h3⟩
          · exact Or.inr ⟨l₂', by rw [hxy, h1, List.cons_append], h2⟩

/-- Invariant preservation: dead op (inactive output), dropped with no
state change except (possibly) one consumed choice. -/
theorem InvS_dead (op : SsaOp α) (rest : List (SsaOp α)) (st : LoopSt α)
    (cs' : List Choice) (hb : st.ws.bind (SsaOp.output op) = none)
    (h : InvS (op :: rest) st) :
    InvS rest { st with choices := cs' } := by
  refine ⟨h.fresh, h.outLt, h.emNodup, ?_, ?_, h.fc, h.fo, h.ccEq⟩
  · intro j hj
    rcases h.part j hj with ⟨hm, hno⟩ | ⟨hm, s, hOwns, huniq⟩
    · exact Or.inl ⟨hm, fun s hO => hno s (owns_cons hO)⟩
    · exact Or.inr ⟨hm, s, owns_uncons_of_none hb hOwns,
        fun s' hO => huniq s' (owns_cons hO)⟩
  · intro l₁ e l₂ hsplit a ha
    rcases h.dep l₁ e l₂ hsplit a ha with hm | ⟨s, hOwns⟩
    · exact Or.inl hm
    · exact Or.inr ⟨s, owns_uncons_of_none hb hOwns⟩

theorem setActive_self (w : WorkspaceL) (i v : Nat) :
    (w.setActive i v).bind i = some v := by
  simp [WorkspaceL.setActive]

theorem setActive_ne (w : WorkspaceL) (i v : Nat) {s : Nat} (h : s ≠ i) :
    (w.setActive i v).bind s = w.bind s := by
  simp [WorkspaceL.setActive, h]

/-- A live op's output slot is the unique pending owner of its new name. -/
theorem owner_output {op : SsaOp α} {rest : List (SsaOp α)} {st : LoopSt α}
    {j₀ : Nat} (hb : st.ws.bind (SsaOp.output op) = some j₀)
    (hinv : InvS (op :: rest) st) :
    j₀ ∉ outs st.opsOut ∧
      ∀ s', Owns st.ws.bind (op :: rest) s' j₀ → s' = SsaOp.output op := by
  have hj₀ : j₀ < st.ws.count := hinv.fresh _ _ hb
  have hOwnOp : Owns st.ws.bind (op :: rest) (SsaOp.output op) j₀ :=
    ⟨hb, by rw [outs_cons]; exact List.mem_cons_self _ _⟩
  rcases hinv.part j₀ hj₀ with ⟨hm, hno⟩ | ⟨hm, s, hOwns, huniq⟩
  · exact absurd hOwnOp (hno _)
  · exact ⟨hm, fun s' h =>
      (huniq s' h).trans (huniq (SsaOp.output op) hOwnOp).symm⟩

/-- Invariant preservation: alias case.  A live op whose winning operand
`w` is still inactive emits nothing; `w` is re-bound to the op's new
name. -/
theorem InvS_alias (op : SsaOp α) (rest : List (SsaOp α)) (st : LoopSt α)
    (cs' : List Choice) (w j₀ : Nat)
    (hb : st.ws.bind (SsaOp.output op) = some j₀)
    (hw : w ∈ op.inputs) (hwb : st.ws.bind w = none)
    (hdep : ∀ a ∈ op.inputs, a ∈ outs rest)
    (hnd : SsaOp.output op ∉ outs rest)
    (hinv : InvS (op :: rest) st) :
    InvS rest { st with ws := st.ws.setActive w j₀, choices := cs' } := by
  obtain ⟨hnm₀, huniq₀⟩ := owner_output hb hinv
  have hbind : ∀ s j, (st.ws.setActive w j₀).bind s = some j →
      (s = w ∧ j = j₀) ∨ (s ≠ w ∧ st.ws.bind s = some j) := by
    intro s j h
    by_cases hsw : s = w
    · subst hsw
      rw [setActive_self] at h
      exact Or.inl ⟨rfl, (Option.some.inj h).symm⟩
    · exact Or.inr ⟨hsw, by rwa [setActive_ne _ _ _ hsw] at h⟩
  refine ⟨?_, hinv.outLt, hinv.emNodup, ?_, ?_, hinv.fc, hinv.fo, hinv.ccEq⟩
  · intro s j h
    rcases hbind s j h with ⟨-, hj⟩ | ⟨-, hs⟩
    · subst hj; exact hinv.fresh _ _ hb
    · exact hinv.fresh _ _ hs
  · intro j hj
    by_cases hjj : j = j₀
    · subst hjj
      refine Or.inr ⟨hnm₀, w, ⟨setActive_self _ _ _, hdep w hw⟩, ?_⟩
      rintro s' ⟨hbs', hmem'⟩
      rcases hbind s' _ hbs' with ⟨hsw, -⟩ | ⟨-, hs⟩
      · exact hsw
      · have : s' = SsaOp.output op :=
          huniq₀ s' ⟨hs, by rw [outs_cons]; exact List.mem_cons_of_mem _ hmem'⟩
        exact absurd (this ▸ hmem') hnd
    · rcases hinv.part j hj with ⟨hm, hno⟩ | ⟨hm, s, ⟨hbs, hmem⟩, huniq⟩
      · refine Or.inl ⟨hm, ?_⟩
        rintro s ⟨hbs, hmem⟩
        rcases hbind s _ hbs with ⟨-, hj'⟩ | ⟨-, hs⟩
        · exact hjj hj'
        · exact hno s ⟨hs, by rw [outs_cons]; exact List.mem_cons_of_mem _ hmem⟩
      · have hsw : s ≠ w := fun h => by rw [h, hwb] at hbs; cases hbs
        have hsrest : s ∈ outs rest := by
          rw [outs_cons, List.mem_cons] at hmem
          rcases hmem with he | hr
          · rw [he, hb] at hbs
            exact absurd (Option.some.inj hbs).symm hjj
          · exact hr
        refine Or.inr ⟨hm, s, ⟨by rwa [setActive_ne _ _ _ hsw], hsrest⟩, ?_⟩
        rintro s' ⟨hbs', hmem'⟩
        rcases hbind s' _ hbs' with ⟨-, hj'⟩ | ⟨-, hs'⟩
        · exact absurd hj' hjj
        · exact huniq s' ⟨hs', by rw [outs_cons]; exact List.mem_cons_of_mem _ hmem'⟩
  · intro l₁ e l₂ hsplit a ha
    rcases hinv.dep l₁ e l₂ hsplit a ha with hm | ⟨s, hbs, hmem⟩
    · exact Or.inl hm
    · rw [outs_cons, List.mem_cons] at hmem
      rcases hmem with he | hr
      · have ha' : a = j₀ := by
          rw [he, hb] at hbs
          exact (Option.some.inj hbs).symm
        subst ha'
        exact Or.inr ⟨w, setActive_self _ _ _, hdep w hw⟩
      · have hsw : s ≠ w := fun h => by rw [h, hwb] at hbs; cases hbs
        exact Or.inr ⟨s, by rwa [setActive_ne _ _ _ hsw], hr⟩

/-- Invariant preservation: emit case.  A live op is rewritten (inputs
resolved through `get_or_insert_active`) and appended to the output. -/
theorem InvS_emit (op : SsaOp α) (rest : List (SsaOp α)) (st : LoopSt α)
    (ws' : WorkspaceL) (e : SsaOp α) (cs' : List Choice) (cc' j₀ : Nat)
    (hb : st.ws.bind (SsaOp.output op) = some j₀)
    (hout : SsaOp.output e = j₀)
    (hext : GIext st.ws ws' op.inputs)
    (hins : ∀ a ∈ SsaOp.inputs e, ∃ s, s ∈ op.inputs ∧ ws'.bind s = some a)
    (hcc : cc' = st.choiceCount + (if SsaOp.hasChoice e then 1 else 0))
    (hdep : ∀ a ∈ op.inputs, a ∈ outs rest)
    (hnd : SsaOp.output op ∉ outs rest)
    (hinv : InvS (op :: rest) st) :
    InvS rest
      { ws := ws', choices := cs', choiceCount := cc',
        opsOut := st.opsOut ++ [e] } := by
  obtain ⟨hnm₀, huniq₀⟩ := owner_output hb hinv
  have hj₀ : j₀ < st.ws.count := hinv.fresh _ _ hb
  obtain ⟨hmono, hcount, hnew, hfreshu⟩ := hext
  have hf' : ∀ s j, ws'.bind s = some j → j < ws'.count :=
    GIext_fresh hinv.fresh ⟨hmono, hcount, hnew, hfreshu⟩
  have houts' : outs (st.opsOut ++ [e]) = outs st.opsOut ++ [j₀] := by
    rw [outs_append]
    simp [outs, hout]
  refine ⟨hf', ?_, ?_, ?_, ?_, ?_, ?_, ?_⟩
  · intro e' he'
    rcases List.mem_append.mp he' with h | h
    · exact lt_of_lt_of_le (hinv.outLt e' h) hcount
    · have he : e' = e := by simpa using h
      subst he
      rw [hout]
      exact lt_of_lt_of_le hj₀ hcount
  · rw [houts', List.nodup_append]
    refine ⟨hinv.emNodup, List.nodup_singleton _, ?_⟩
    intro a ha ha'
    have haj : a = j₀ := by simpa using ha'
    subst haj
    exact hnm₀ ha
  · intro j hj
    by_cases hjlt : j < st.ws.count
    · by_cases hjj : j = j₀
      · subst hjj
        refine Or.inl ⟨by rw [houts']; simp, ?_⟩
        rintro s ⟨hbs, hmem⟩
        rcases hnew s _ hbs with hold | ⟨hge, -, -⟩
        · have hso : s = SsaOp.output op :=
            huniq₀ s ⟨hold, by rw [outs_cons]; exact List.mem_cons_of_mem _ hmem⟩
          exact hnd (hso ▸ hmem)
        · omega
      · rcases hinv.part j hjlt with ⟨hm, hno⟩ | ⟨hm, s, ⟨hbs, hmem⟩, huniq⟩
        · refine Or.inl ⟨by rw [houts']; exact List.mem_append_left _ hm, ?_⟩
          rintro s ⟨hbs, hmem⟩
          rcases hnew s _ hbs with hold | ⟨hge, -, -⟩
          · exact hno s ⟨hold, by rw [outs_cons]; exact List.mem_cons_of_mem _ hmem⟩
          · omega
        · have hsrest : s ∈ outs rest := by
            rw [outs_cons, List.mem_cons] at hmem
            rcases hmem with he | hr
            · rw [he, hb] at hbs
              exact absurd (Option.some.inj hbs).symm hjj
            · exact hr
          refine Or.inr ⟨?_, s, ⟨hmono _ _ hbs, hsrest⟩, ?_⟩
          · rw [houts', List.mem_append]
            rintro (h | h)
            · exact hm h
            · exact hjj (by simpa using h)
          · rintro s' ⟨hbs', hmem'⟩
            rcases hnew s' _ hbs' with hold | ⟨hge, -, -⟩
            · exact huniq s' ⟨hold, by rw [outs_cons]; exact List.mem_cons_of_mem _ hmem'⟩
            · omega
    · obtain ⟨s, hbs, hall, -, huq⟩ := hfreshu j (le_of_not_lt hjlt) hj
      refine Or.inr ⟨?_, s, ⟨hbs, hdep s hall⟩, fun s' h => huq s' h.1⟩
      rw [houts', List.mem_append]
      rintro (h | h)
      · obtain ⟨q, hq, hqo⟩ := List.mem_map.mp h
        exact hjlt (hqo ▸ hinv.outLt q hq)
      · have hjeq : j = j₀ := by simpa using h
        exact hjlt (hjeq ▸ hj₀)
  · intro l₁ f l₂ hsplit a ha
    rcases split_snoc l₁ st.opsOut f e l₂ hsplit with ⟨hl₁, hfe, hl₂⟩ | ⟨l₂', h1, h2⟩
    · subst hfe
      obtain ⟨s, hsin, hbs⟩ := hins a ha
      exact Or.inr ⟨s, hbs, hdep s hsin⟩
    · rcases hinv.dep l₁ f l₂' h1 a ha with hm | ⟨s, hbs, hmem⟩
      · rw [h2, outs_append]
        exact Or.inl (List.mem_append_left _ hm)
      · rw [outs_cons, List.mem_cons] at hmem
        rcases hmem with he | hr
        · have ha' : a = j₀ := by
            rw [he, hb] at hbs
            exact (Option.some.inj hbs).symm
          subst ha'
          rw [h2, outs_append]
          refine Or.inl (List.mem_append_right _ ?_)
          simp [outs, hout]
        · exact Or.inr ⟨s, hmono _ _ hbs, hr⟩
  · intro h
    exact absurd h (by simp)
  · intro f l hfl
    cases hop : st.opsOut with
    | nil =>
        rw [hop] at hfl
        simp only [List.nil_append] at hfl
        obtain ⟨hfe, -⟩ := List.cons.inj hfl.symm
        have hc1 : st.ws.count = 1 := hinv.fc hop
        have hz : j₀ = 0 := by omega
        rw [hfe, hout]
        exact hz
    | cons x xs =>
        rw [hop] at hfl
        simp only [List.cons_append] at hfl
        obtain ⟨hfx, -⟩ := List.cons.inj hfl.symm
        rw [hfx]
        exact hinv.fo x xs hop
  · rw [List.countP_append]
    have hone : List.countP SsaOp.hasChoice [e] =
        if SsaOp.hasChoice e then 1 else 0 := by
      simp [List.countP_cons, List.countP_nil]
    rw [hone, hinv.ccEq, hcc]

/-- Semantic preservation: alias case.  Binding the (equal-valued) winning
operand to the op's name keeps the class-consistency. -/
theorem Sem_alias (I : Interp α) (σ : Nat → α) (op : SsaOp α)
    (st : LoopSt α) (cs' : List Choice) (w j₀ : Nat)
    (hb : st.ws.bind (SsaOp.output op) = some j₀)
    (hwb : st.ws.bind w = none)
    (hσw : σ w = σ (SsaOp.output op))
    (h : SemInv I σ st) :
    SemInv I σ { st with ws := st.ws.setActive w j₀, choices := cs' } := by
  constructor
  · intro s s' j hs hs'
    by_cases hsw : s = w
    · rw [hsw, setActive_self] at hs
      have hj : j = j₀ := (Option.some.inj hs).symm
      by_cases hsw' : s' = w
      · rw [hsw, hsw']
      · rw [setActive_ne _ _ _ hsw', hj] at hs'
        rw [hsw]
        exact hσw.trans (h.consist (SsaOp.output op) s' j₀ hb hs')
    · rw [setActive_ne _ _ _ hsw] at hs
      by_cases hsw' : s' = w
      · rw [hsw', setActive_self] at hs'
        have hj : j = j₀ := (Option.some.inj hs').symm
        rw [hj] at hs
        rw [hsw']
        exact (h.consist s (SsaOp.output op) j₀ hs hb).trans hσw.symm
      · rw [setActive_ne _ _ _ hsw'] at hs'
        exact h.consist s s' j hs hs'
  · intro v' hc e he
    refine h.satAll v' ?_ e he
    intro s j hs
    have hsw : s ≠ w := fun hh => by rw [hh, hwb] at hs; cases hs
    exact hc s j (by rwa [setActive_ne _ _ _ hsw])

/-- Semantic preservation: emit case. -/
theorem Sem_emit (I : Interp α) (σ : Nat → α) (op : SsaOp α)
    (st : LoopSt α) (ws' : WorkspaceL) (e : SsaOp α) (cs' : List Choice)
    (cc' j₀ : Nat)
    (hb : st.ws.bind (SsaOp.output op) = some j₀)
    (hout : SsaOp.output e = j₀)
    (hext : GIext st.ws ws' (SsaOp.inputs op))
    (hfresh : ∀ s j, st.ws.bind s = some j → j < st.ws.count)
    (hval : ∀ v' : Nat → α, Compat σ v' ws'.bind →
      opEval I v' e = σ (SsaOp.output op))
    (h : SemInv I σ st) :
    SemInv I σ
      { ws := ws', choices := cs', choiceCount := cc',
        opsOut := st.opsOut ++ [e] } := by
  obtain ⟨hmono, hcount, hnew, hfreshu⟩ := hext
  constructor
  · intro s s' j hs hs'
    rcases hnew s _ hs with h₁ | ⟨hge₁, hlt₁, -⟩
    · rcases hnew s' _ hs' with h₂ | ⟨hge₂, -, -⟩
      · exact h.consist s s' j h₁ h₂
      · exact absurd (hfresh s j h₁) (by omega)
    · rcases hnew s' _ hs' with h₂ | ⟨hge₂, -, -⟩
      · exact absurd (hfresh s' j h₂) (by omega)
      · obtain ⟨s₀, -, -, -, huq⟩ := hfreshu j hge₁ hlt₁
        rw [huq s hs, huq s' hs']
  · intro v' hc e' he'
    rcases List.mem_append.mp he' with hold | hsing
    · exact h.satAll v' (fun s j hs => hc s j (hmono s j hs)) e' hold
    · have he : e' = e := by simpa using hsing
      subst he
      have h1 : v' j₀ = σ (SsaOp.output op) :=
        hc (SsaOp.output op) j₀ (hmono _ _ hb)
      rw [hout, h1, hval v' hc]

/-- One-step preservation: structural invariant, write-once binding
monotonicity, and (for any interpretation whose valuation satisfies the
current op's equation and whose consumed choice is correct) the semantic
invariant. -/
theorem stepMain (op : SsaOp α) (rest : List (SsaOp α)) (st st' : LoopSt α)
    (hstep : simplifyStep op st = some st')
    (hdep : ∀ a ∈ SsaOp.inputs op, a ∈ outs rest)
    (hnd : SsaOp.output op ∉ outs rest)
    (hinv : InvS (op :: rest) st) :
    InvS rest st' ∧
    (∀ s j, st.ws.bind s = some j → st'.ws.bind s = some j) ∧
    ∀ (I : Interp α) (σ : Nat → α),
      SemInv I σ st →
      σ (SsaOp.output op) = opEval I σ op →
      (∀ c cs, st.choices = c :: cs → SsaOp.hasChoice op = true →
        ChoiceOkFor I σ op c) →
      SemInv I σ st' := by
  cases hact : st.ws.bind (SsaOp.output op) with
  | none =>
      simp only [simplifyStep, WorkspaceL.active, hact] at hstep
      by_cases hch : SsaOp.hasChoice op
      · rw [if_pos hch] at hstep
        cases hcs : st.choices with
        | nil =>
            rw [hcs] at hstep
            exact Option.noConfusion hstep
        | cons c cs =>
            rw [hcs] at hstep
            have hst := Option.some.inj hstep
            subst hst
            refine ⟨InvS_dead op rest st cs hact hinv, fun s j h => h, ?_⟩
            intro I σ hsem _ _
            exact ⟨hsem.consist, hsem.satAll⟩
      · rw [if_neg hch] at hstep
        have hst := Option.some.inj hstep
        subst hst
        exact ⟨InvS_dead op rest st st.choices hact hinv, fun s j h => h,
          fun I σ hsem _ _ => hsem⟩
  | some j₀ =>
    cases op with
    | Input o ax =>
        simp only [simplifyStep, WorkspaceL.active, hact] at hstep
        have hst := Option.some.inj hstep
        subst hst
        refine ⟨InvS_emit _ rest st st.ws _ st.choices st.choiceCount j₀ hact rfl
            (GIext_refl _ _) (by intro x hx; simp [SsaOp.inputs] at hx)
            (by simp [SsaOp.hasChoice]) hdep hnd hinv, fun s j h => h, ?_⟩
        intro I σ hsem heq _
        refine Sem_emit I σ _ st st.ws _ st.choices st.choiceCount j₀ hact rfl
          (GIext_refl _ _) hinv.fresh ?_ hsem
        intro v' hc
        rw [heq]
        simp [opEval]
    | Var o v =>
        simp only [simplifyStep, WorkspaceL.active, hact] at hstep
        have hst := Option.some.inj hstep
        subst hst
        refine ⟨InvS_emit _ rest st st.ws _ st.choices st.choiceCount j₀ hact rfl
            (GIext_refl _ _) (by intro x hx; simp [SsaOp.inputs] at hx)
            (by simp [SsaOp.hasChoice]) hdep hnd hinv, fun s j h => h, ?_⟩
        intro I σ hsem heq _
        refine Sem_emit I σ _ st st.ws _ st.choices st.choiceCount j₀ hact rfl
          (GIext_refl _ _) hinv.fresh ?_ hsem
        intro v' hc
        rw [heq]
        simp [opEval]
    | CopyImm o imm =>
        simp only [simplifyStep, WorkspaceL.active, hact] at hstep
        have hst := Option.some.inj hstep
        subst hst
        refine ⟨InvS_emit _ rest st st.ws _ st.choices st.choiceCount j₀ hact rfl
            (GIext_refl _ _) (by intro x hx; simp [SsaOp.inputs] at hx)
            (by simp [SsaOp.hasChoice]) hdep hnd hinv, fun s j h => h, ?_⟩
        intro I σ hsem heq _
        refine Sem_emit I σ _ st st.ws _ st.choices st.choiceCount j₀ hact rfl
          (GIext_refl _ _) hinv.fresh ?_ hsem
        intro v' hc
        rw [heq]
        simp [opEval]
    | NegReg o a =>
        simp only [simplifyStep, WorkspaceL.active, hact] at hstep
        have hst := Option.some.inj hstep
        subst hst
        have hmem : a ∈ SsaOp.inputs (SsaOp.NegReg o a : SsaOp α) := by simp [SsaOp.inputs]
        have hext := GIext_gio hinv.fresh hmem
        refine ⟨InvS_emit _ rest st _ _ st.choices st.choiceCount j₀ hact rfl hext
            ?_ (by simp [SsaOp.hasChoice]) hdep hnd hinv,
          fun s j h => gio_mono a h, ?_⟩
        · intro x hx
          have hxr : x = (st.ws.getOrInsertActive a).1 := by
            simpa [SsaOp.inputs] using hx
          exact hxr ▸ ⟨a, hmem, gio_bind_self st.ws a⟩
        · intro I σ hsem heq _
          refine Sem_emit I σ _ st _ _ st.choices st.choiceCount j₀ hact rfl hext
            hinv.fresh ?_ hsem
          intro v' hc
          rw [heq]
          have hva : v' (st.ws.getOrInsertActive a).1 = σ a :=
            hc a _ (gio_bind_self st.ws a)
          simp only [opEval]
          rw [hva]
    | AbsReg o a =>
        simp only [simplifyStep, WorkspaceL.active, hact] at hstep
        have hst := Option.some.inj hstep
        subst hst
        have hmem : a ∈ SsaOp.inputs (SsaOp.AbsReg o a : SsaOp α) := by simp [SsaOp.inputs]
        have hext := GIext_gio hinv.fresh hmem
        refine ⟨InvS_emit _ rest st _ _ st.choices st.choiceCount j₀ hact rfl hext
            ?_ (by simp [SsaOp.hasChoice]) hdep hnd hinv,
          fun s j h => gio_mono a h, ?_⟩
        · intro x hx
          have hxr : x = (st.ws.getOrInsertActive a).1 := by
            simpa [SsaOp.inputs] using hx
          exact hxr ▸ ⟨a, hmem, gio_bind_self st.ws a⟩
        · intro I σ hsem heq _
          refine Sem_emit I σ _ st _ _ st.choices st.choiceCount j₀ hact rfl hext
            hinv.fresh ?_ hsem
          intro v' hc
          rw [heq]
          have hva : v' (st.ws.getOrInsertActive a).1 = σ a :=
            hc a _ (gio_bind_self st.ws a)
          simp only [opEval]
          rw [hva]
    | RecipReg o a =>
        simp only [simplifyStep, WorkspaceL.active, hact] at hstep
        have hst := Option.some.inj hstep
        subst hst
        have hmem : a ∈ SsaOp.inputs (SsaOp.RecipReg o a : SsaOp α) := by simp [SsaOp.inputs]
        have hext := GIext_gio hinv.fresh hmem
        refine ⟨InvS_emit _ rest st _ _ st.choices st.choiceCount j₀ hact rfl hext
            ?_ (by simp [SsaOp.hasChoice]) hdep hnd hinv,
          fun s j h => gio_mono a h, ?_⟩
        · intro x hx
          have hxr : x = (st.ws.getOrInsertActive a).1 := by
            simpa [SsaOp.inputs] using hx
          exact hxr ▸ ⟨a, hmem, gio_bind_self st.ws a⟩
        · intro I σ hsem heq _
          refine Sem_emit I σ _ st _ _ st.choices st.choiceCount j₀ hact rfl hext
            hinv.fresh ?_ hsem
          intro v' hc
          rw [heq]
          have hva : v' (st.ws.getOrInsertActive a).1 = σ a :=
            hc a _ (gio_bind_self st.ws a)
          simp only [opEval]
          rw [hva]
    | SqrtReg o a =>
        simp only [simplifyStep, WorkspaceL.active, hact] at hstep
        have hst := Option.some.inj hstep
        subst hst
        have hmem : a ∈ SsaOp.inputs (SsaOp.SqrtReg o a : SsaOp α) := by simp [SsaOp.inputs]
        have hext := GIext_gio hinv.fresh hmem
        refine ⟨InvS_emit _ rest st _ _ st.choices st.choiceCount j₀ hact rfl hext
            ?_ (by simp [SsaOp.hasChoice]) hdep hnd hinv,
          fun s j h => gio_mono a h, ?_⟩
        · intro x hx
          have hxr : x = (st.ws.getOrInsertActive a).1 := by
            simpa [SsaOp.inputs] using hx
          exact hxr ▸ ⟨a, hmem, gio_bind_self st.ws a⟩
        · intro I σ hsem heq _
          refine Sem_emit I σ _ st _ _ st.choices st.choiceCount j₀ hact rfl hext
            hinv.fresh ?_ hsem
          intro v' hc
          rw [heq]
          have hva : v' (st.ws.getOrInsertActive a).1 = σ a :=
            hc a _ (gio_bind_self st.ws a)
          simp only [opEval]
          rw [hva]
    | SquareReg o a =>
        simp only [simplifyStep, WorkspaceL.active, hact] at hstep
        have hst := Option.some.inj hstep
        subst hst
        have hmem : a ∈ SsaOp.inputs (SsaOp.SquareReg o a : SsaOp α) := by simp [SsaOp.inputs]
        have hext := GIext_gio hinv.fresh hmem
        refine ⟨InvS_emit _ rest st _ _ st.choices st.choiceCount j₀ hact rfl hext
            ?_ (by simp [SsaOp.hasChoice]) hdep hnd hinv,
          fun s j h => gio_mono a h, ?_⟩
        · intro x hx
          have hxr : x = (st.ws.getOrInsertActive a).1 := by
            simpa [SsaOp.inputs] using hx
          exact hxr ▸ ⟨a, hmem, gio_bind_self st.ws a⟩
        · intro I σ hsem heq _
          refine Sem_emit I σ _ st _ _ st.choices st.choiceCount j₀ hact rfl hext
            hinv.fresh ?_ hsem
          intro v' hc
          rw [heq]
          have hva : v' (st.ws.getOrInsertActive a).1 = σ a :=
            hc a _ (gio_bind_self st.ws a)
          simp only [opEval]
          rw [hva]
    | SinReg o a =>
        simp only [simplifyStep, WorkspaceL.active, hact] at hstep
        have hst := Option.some.inj hstep
        subst hst
        have hmem : a ∈ SsaOp.inputs (SsaOp.SinReg o a : SsaOp α) := by simp [SsaOp.inputs]
        have hext := GIext_gio hinv.fresh hmem
        refine ⟨InvS_emit _ rest st _ _ st.choices st.choiceCount j₀ hact rfl hext
            ?_ (by simp [SsaOp.hasChoice]) hdep hnd hinv,
          fun s j h => gio_mono a h, ?_⟩
        · intro x hx
          have hxr : x = (st.ws.getOrInsertActive a).1 := by
            simpa [SsaOp.inputs] using hx
          exact hxr ▸ ⟨a, hmem, gio_bind_self st.ws a⟩
        · intro I σ hsem heq _
          refine Sem_emit I σ _ st _ _ st.choices st.choiceCount j₀ hact rfl hext
            hinv.fresh ?_ hsem
          intro v' hc
          rw [heq]
          have hva : v' (st.ws.getOrInsertActive a).1 = σ a :=
            hc a _ (gio_bind_self st.ws a)
          simp only [opEval]
          rw [hva]
    | CosReg o a =>
        simp only [simplifyStep, WorkspaceL.active, hact] at hstep
        have hst := Option.some.inj hstep
        subst hst
        have hmem : a ∈ SsaOp.inputs (SsaOp.CosReg o a : SsaOp α) := by simp [SsaOp.inputs]
        have hext := GIext_gio hinv.fresh hmem
        refine ⟨InvS_emit _ rest st _ _ st.choices st.choiceCount j₀ hact rfl hext
            ?_ (by simp [SsaOp.hasChoice]) hdep hnd hinv,
          fun s j h => gio_mono a h, ?_⟩
        · intro x hx
          have hxr : x = (st.ws.getOrInsertActive a).1 := by
            simpa [SsaOp.inputs] using hx
          exact hxr ▸ ⟨a, hmem, gio_bind_self st.ws a⟩
        · intro I σ hsem heq _
          refine Sem_emit I σ _ st _ _ st.choices st.choiceCount j₀ hact rfl hext
            hinv.fresh ?_ hsem
          intro v' hc
          rw [heq]
          have hva : v' (st.ws.getOrInsertActive a).1 = σ a :=
            hc a _ (gio_bind_self st.ws a)
          simp only [opEval]
          rw [hva]
    | TanReg o a =>
        simp only [simplifyStep, WorkspaceL.active, hact] at hstep
        have hst := Option.some.inj hstep
        subst hst
        have hmem : a ∈ SsaOp.inputs (SsaOp.TanReg o a : SsaOp α) := by simp [SsaOp.inputs]
        have hext := GIext_gio hinv.fresh hmem
        refine ⟨InvS_emit _ rest st _ _ st.choices st.choiceCount j₀ hact rfl hext
            ?_ (by simp [SsaOp.hasChoice]) hdep hnd hinv,
          fun s j h => gio_mono a h, ?_⟩
        · intro x hx
          have hxr : x = (st.ws.getOrInsertActive a).1 := by
            simpa [SsaOp.inputs] using hx
          exact hxr ▸ ⟨a, hmem, gio_bind_self st.ws a⟩
        · intro I σ hsem heq _
          refine Sem_emit I σ _ st _ _ st.choices st.choiceCount j₀ hact rfl hext
            hinv.fresh ?_ hsem
          intro v' hc
          rw [heq]
          have hva : v' (st.ws.getOrInsertActive a).1 = σ a :=
            hc a _ (gio_bind_self st.ws a)
          simp only [opEval]
          rw [hva]
    | AsinReg o a =>
        simp only [simplifyStep, WorkspaceL.active, hact] at hstep
        have hst := Option.some.inj hstep
        subst hst
        have hmem : a ∈ SsaOp.inputs (SsaOp.AsinReg o a : SsaOp α) := by simp [SsaOp.inputs]
        have hext := GIext_gio hinv.fresh hmem
        refine ⟨InvS_emit _ rest st _ _ st.choices st.choiceCount j₀ hact rfl hext
            ?_ (by simp [SsaOp.hasChoice]) hdep hnd hinv,
          fun s j h => gio_mono a h, ?_⟩
        · intro x hx
          have hxr : x = (st.ws.getOrInsertActive a).1 := by
            simpa [SsaOp.inputs] using hx
          exact hxr ▸ ⟨a, hmem, gio_bind_self st.ws a⟩
        · intro I σ hsem heq _
          refine Sem_emit I σ _ st _ _ st.choices st.choiceCount j₀ hact rfl hext
            hinv.fresh ?_ hsem
          intro v' hc
          rw [heq]
          have hva : v' (st.ws.getOrInsertActive a).1 = σ a :=
            hc a _ (gio_bind_self st.ws a)
          simp only [opEval]
          rw [hva]
    | AcosReg o a =>
        simp only [simplifyStep, WorkspaceL.active, hact] at hstep
        have hst := Option.some.inj hstep
        subst hst
        have hmem : a ∈ SsaOp.inputs (SsaOp.AcosReg o a : SsaOp α) := by simp [SsaOp.inputs]
        have hext := GIext_gio hinv.fresh hmem
        refine ⟨InvS_emit _ rest st _ _ st.choices st.choiceCount j₀ hact rfl hext
            ?_ (by simp [SsaOp.hasChoice]) hdep hnd hinv,
          fun s j h => gio_mono a h, ?_⟩
        · intro x hx
          have hxr : x = (st.ws.getOrInsertActive a).1 := by
            simpa [SsaOp.inputs] using hx
          exact hxr ▸ ⟨a, hmem, gio_bind_self st.ws a⟩
        · intro I σ hsem heq _
          refine Sem_emit I σ _ st _ _ st.choices st.choiceCount j₀ hact rfl hext
            hinv.fresh ?_ hsem
          intro v' hc
          rw [heq]
          have hva : v' (st.ws.getOrInsertActive a).1 = σ a :=
            hc a _ (gio_bind_self st.ws a)
          simp only [opEval]
          rw [hva]
    | AtanReg o a =>
        simp only [simplifyStep, WorkspaceL.active, hact] at hstep
        have hst := Option.some.inj hstep
        subst hst
        have hmem : a ∈ SsaOp.inputs (SsaOp.AtanReg o a : SsaOp α) := by simp [SsaOp.inputs]
        have hext := GIext_gio hinv.fresh hmem
        refine ⟨InvS_emit _ rest st _ _ st.choices st.choiceCount j₀ hact rfl hext
            ?_ (by simp [SsaOp.hasChoice]) hdep hnd hinv,
          fun s j h => gio_mono a h, ?_⟩
        · intro x hx
          have hxr : x = (st.ws.getOrInsertActive a).1 := by
            simpa [SsaOp.inputs] using hx
          exact hxr ▸ ⟨a, hmem, gio_bind_self st.ws a⟩
        · intro I σ hsem heq _
          refine Sem_emit I σ _ st _ _ st.choices st.choiceCount j₀ hact rfl hext
            hinv.fresh ?_ hsem
          intro v' hc
          rw [heq]
          have hva : v' (st.ws.getOrInsertActive a).1 = σ a :=
            hc a _ (gio_bind_self st.ws a)
          simp only [opEval]
          rw [hva]
    | ExpReg o a =>
        simp only [simplifyStep, WorkspaceL.active, hact] at hstep
        have hst := Option.some.inj hstep
        subst hst
        have hmem : a ∈ SsaOp.inputs (SsaOp.ExpReg o a : SsaOp α) := by simp [SsaOp.inputs]
        have hext := GIext_gio hinv.fresh hmem
        refine ⟨InvS_emit _ rest st _ _ st.choices st.choiceCount j₀ hact rfl hext
            ?_ (by simp [SsaOp.hasChoice]) hdep hnd hinv,
          fun s j h => gio_mono a h, ?_⟩
        · intro x hx
          have hxr : x = (st.ws.getOrInsertActive a).1 := by
            simpa [SsaOp.inputs] using hx
          exact hxr ▸ ⟨a, hmem, gio_bind_self st.ws a⟩
        · intro I σ hsem heq _
          refine Sem_emit I σ _ st _ _ st.choices st.choiceCount j₀ hact rfl hext
            hinv.fresh ?_ hsem
          intro v' hc
          rw [heq]
          have hva : v' (st.ws.getOrInsertActive a).1 = σ a :=
            hc a _ (gio_bind_self st.ws a)
          simp only [opEval]
          rw [hva]
    | LnReg o a =>
        simp only [simplifyStep, WorkspaceL.active, hact] at hstep
        have hst := Option.some.inj hstep
        subst hst
        have hmem : a ∈ SsaOp.inputs (SsaOp.LnReg o a : SsaOp α) := by simp [SsaOp.inputs]
        have hext := GIext_gio hinv.fresh hmem
        refine ⟨InvS_emit _ rest st _ _ st.choices st.choiceCount j₀ hact rfl hext
            ?_ (by simp [SsaOp.hasChoice]) hdep hnd hinv,
          fun s j h => gio_mono a h, ?_⟩
        · intro x hx
          have hxr : x = (st.ws.getOrInsertActive a).1 := by
            simpa [SsaOp.inputs] using hx
          exact hxr ▸ ⟨a, hmem, gio_bind_self st.ws a⟩
        · intro I σ hsem heq _
          refine Sem_emit I σ _ st _ _ st.choices st.choiceCount j₀ hact rfl hext
            hinv.fresh ?_ hsem
          intro v' hc
          rw [heq]
          have hva : v' (st.ws.getOrInsertActive a).1 = σ a :=
            hc a _ (gio_bind_self st.ws a)
          simp only [opEval]
          rw [hva]
    | CopyReg o src =>
        cases hsrc : st.ws.bind src with
        | some newSrc =>
            simp only [simplifyStep, WorkspaceL.active, hact, hsrc] at hstep
            have hst := Option.some.inj hstep
            subst hst
            refine ⟨InvS_emit _ rest st st.ws _ st.choices st.choiceCount j₀ hact
                rfl (GIext_refl _ _) ?_ (by simp [SsaOp.hasChoice]) hdep hnd hinv,
              fun s j h => h, ?_⟩
            · intro x hx
              have hxr : x = newSrc := by simpa [SsaOp.inputs] using hx
              exact hxr ▸ ⟨src, by simp [SsaOp.inputs], hsrc⟩
            · intro I σ hsem heq _
              refine Sem_emit I σ _ st st.ws _ st.choices st.choiceCount j₀ hact
                rfl (GIext_refl _ _) hinv.fresh ?_ hsem
              intro v' hc
              rw [heq]
              have hva : v' newSrc = σ src := hc src newSrc hsrc
              simp only [opEval]
              rw [hva]
        | none =>
            simp only [simplifyStep, WorkspaceL.active, hact, hsrc] at hstep
            have hst := Option.some.inj hstep
            subst hst
            refine ⟨InvS_alias _ rest st st.choices src j₀ hact
                (by simp [SsaOp.inputs]) hsrc hdep hnd hinv, ?_, ?_⟩
            · intro s j h
              have hsw : s ≠ src := fun hh => by rw [hh, hsrc] at h; cases h
              show (st.ws.setActive src j₀).bind s = some j
              rwa [setActive_ne _ _ _ hsw]
            · intro I σ hsem heq _
              refine Sem_alias I σ _ st st.choices src j₀ hact hsrc ?_ hsem
              rw [heq]
              simp [opEval]
    | MinRegImm o a imm =>
        cases hcs : st.choices with
        | nil =>
            simp only [simplifyStep, WorkspaceL.active, hact, hcs] at hstep
            exact Option.noConfusion hstep
        | cons c cs =>
          cases c with
          | Left =>
              cases hsrc : st.ws.bind a with
              | some newArg =>
                  simp only [simplifyStep, WorkspaceL.active, hact, hcs, hsrc] at hstep
                  have hst := Option.some.inj hstep
                  subst hst
                  refine ⟨InvS_emit _ rest st st.ws _ cs st.choiceCount j₀ hact rfl
                      (GIext_refl _ _) ?_ (by simp [SsaOp.hasChoice]) hdep hnd hinv,
                    fun s j h => h, ?_⟩
                  · intro x hx
                    have hxr : x = newArg := by simpa [SsaOp.inputs] using hx
                    exact hxr ▸ ⟨a, by simp [SsaOp.inputs], hsrc⟩
                  · intro I σ hsem heq hck
                    have hok := hck _ _ rfl rfl
                    refine Sem_emit I σ _ st st.ws _ cs st.choiceCount j₀ hact rfl
                      (GIext_refl _ _) hinv.fresh ?_ hsem
                    intro v' hc
                    rw [heq]
                    have hva : v' newArg = σ a := hc a newArg hsrc
                    simp only [opEval]
                    rw [hva]
                    exact (hok : I.fmin (σ a) imm = σ a).symm
              | none =>
                  simp only [simplifyStep, WorkspaceL.active, hact, hcs, hsrc] at hstep
                  have hst := Option.some.inj hstep
                  subst hst
                  refine ⟨InvS_alias _ rest st cs a j₀ hact
                      (by simp [SsaOp.inputs]) hsrc hdep hnd hinv, ?_, ?_⟩
                  · intro s j h
                    have hsw : s ≠ a := fun hh => by rw [hh, hsrc] at h; cases h
                    show (st.ws.setActive a j₀).bind s = some j
                    rwa [setActive_ne _ _ _ hsw]
                  · intro I σ hsem heq hck
                    have hok := hck _ _ rfl rfl
                    refine Sem_alias I σ _ st cs a j₀ hact hsrc ?_ hsem
                    rw [heq]
                    simp only [opEval]
                    exact (hok : I.fmin (σ a) imm = σ a).symm
          | Right =>
              simp only [simplifyStep, WorkspaceL.active, hact, hcs] at hstep
              have hst := Option.some.inj hstep
              subst hst
              refine ⟨InvS_emit _ rest st st.ws _ cs st.choiceCount j₀ hact rfl
                  (GIext_refl _ _) (by intro x hx; simp [SsaOp.inputs] at hx)
                  (by simp [SsaOp.hasChoice]) hdep hnd hinv, fun s j h => h, ?_⟩
              intro I σ hsem heq hck
              have hok := hck _ _ rfl rfl
              refine Sem_emit I σ _ st st.ws _ cs st.choiceCount j₀ hact rfl
                (GIext_refl _ _) hinv.fresh ?_ hsem
              intro v' hc
              rw [heq]
              simp only [opEval]
              exact (hok : I.fmin (σ a) imm = imm).symm
          | Both =>
              simp only [simplifyStep, WorkspaceL.active, hact, hcs] at hstep
              have hst := Option.some.inj hstep
              subst hst
              have hmem : a ∈ SsaOp.inputs (SsaOp.MinRegImm o a imm) := by
                simp [SsaOp.inputs]
              have hext := GIext_gio hinv.fresh hmem
              refine ⟨InvS_emit _ rest st _ _ cs (st.choiceCount + 1) j₀ hact rfl
                  hext ?_ (by simp [SsaOp.hasChoice]) hdep hnd hinv,
                fun s j h => gio_mono a h, ?_⟩
              · intro x hx
                have hxr : x = (st.ws.getOrInsertActive a).1 := by
                  simpa [SsaOp.inputs] using hx
                exact hxr ▸ ⟨a, hmem, gio_bind_self st.ws a⟩
              · intro I σ hsem heq _
                refine Sem_emit I σ _ st _ _ cs (st.choiceCount + 1) j₀ hact rfl
                  hext hinv.fresh ?_ hsem
                intro v' hc
                rw [heq]
                have hva : v' (st.ws.getOrInsertActive a).1 = σ a :=
                  hc a _ (gio_bind_self st.ws a)
                simp only [opEval]
                rw [hva]
          | Unknown =>
              simp only [simplifyStep, WorkspaceL.active, hact, hcs] at hstep
              exact Option.noConfusion hstep
    | MaxRegImm o a imm =>
        cases hcs : st.choices with
        | nil =>
            simp only [simplifyStep, WorkspaceL.active, hact, hcs] at hstep
            exact Option.noConfusion hstep
        | cons c cs =>
          cases c with
          | Left =>
              cases hsrc : st.ws.bind a with
              | some newArg =>
                  simp only [simplifyStep, WorkspaceL.active, hact, hcs, hsrc] at hstep
                  have hst := Option.some.inj hstep
                  subst hst
                  refine ⟨InvS_emit _ rest st st.ws _ cs st.choiceCount j₀ hact rfl
                      (GIext_refl _ _) ?_ (by simp [SsaOp.hasChoice]) hdep hnd hinv,
                    fun s j h => h, ?_⟩
                  · intro x hx
                    have hxr : x = newArg := by simpa [SsaOp.inputs] using hx
                    exact hxr ▸ ⟨a, by simp [SsaOp.inputs], hsrc⟩
                  · intro I σ hsem heq hck
                    have hok := hck _ _ rfl rfl
                    refine Sem_emit I σ _ st st.ws _ cs st.choiceCount j₀ hact rfl
                      (GIext_refl _ _) hinv.fresh ?_ hsem
                    intro v' hc
                    rw [heq]
                    have hva : v' newArg = σ a := hc a newArg hsrc
                    simp only [opEval]
                    rw [hva]
                    exact (hok : I.fmax (σ a) imm = σ a).symm
              | none =>
                  simp only [simplifyStep, WorkspaceL.active, hact, hcs, hsrc] at hstep
                  have hst := Option.some.inj hstep
                  subst hst
                  refine ⟨InvS_alias _ rest st cs a j₀ hact
                      (by simp [SsaOp.inputs]) hsrc hdep hnd hinv, ?_, ?_⟩
                  · intro s j h
                    have hsw : s ≠ a := fun hh => by rw [hh, hsrc] at h; cases h
                    show (st.ws.setActive a j₀).bind s = some j
                    rwa [setActive_ne _ _ _ hsw]
                  · intro I σ hsem heq hck
                    have hok := hck _ _ rfl rfl
                    refine Sem_alias I σ _ st cs a j₀ hact hsrc ?_ hsem
                    rw [heq]
                    simp only [opEval]
                    exact (hok : I.fmax (σ a) imm = σ a).symm
          | Right =>
              simp only [simplifyStep, WorkspaceL.active, hact, hcs] at hstep
              have hst := Option.some.inj hstep
              subst hst
              refine ⟨InvS_emit _ rest st st.ws _ cs st.choiceCount j₀ hact rfl
                  (GIext_refl _ _) (by intro x hx; simp [SsaOp.inputs] at hx)
                  (by simp [SsaOp.hasChoice]) hdep hnd hinv, fun s j h => h, ?_⟩
              intro I σ hsem heq hck
              have hok := hck _ _ rfl rfl
              refine Sem_emit I σ _ st st.ws _ cs st.choiceCount j₀ hact rfl
                (GIext_refl _ _) hinv.fresh ?_ hsem
              intro v' hc
              rw [heq]
              simp only [opEval]
              exact (hok : I.fmax (σ a) imm = imm).symm
          | Both =>
              simp only [simplifyStep, WorkspaceL.active, hact, hcs] at hstep
              have hst := Option.some.inj hstep
              subst hst
              have hmem : a ∈ SsaOp.inputs (SsaOp.MaxRegImm o a imm) := by
                simp [SsaOp.inputs]
              have hext := GIext_gio hinv.fresh hmem
              refine ⟨InvS_emit _ rest st _ _ cs (st.choiceCount + 1) j₀ hact rfl
                  hext ?_ (by simp [SsaOp.hasChoice]) hdep hnd hinv,
                fun s j h => gio_mono a h, ?_⟩
              · intro x hx
                have hxr : x = (st.ws.getOrInsertActive a).1 := by
                  simpa [SsaOp.inputs] using hx
                exact hxr ▸ ⟨a, hmem, gio_bind_self st.ws a⟩
              · intro I σ hsem heq _
                refine Sem_emit I σ _ st _ _ cs (st.choiceCount + 1) j₀ hact rfl
                  hext hinv.fresh ?_ hsem
                intro v' hc
                rw [heq]
                have hva : v' (st.ws.getOrInsertActive a).1 = σ a :=
                  hc a _ (gio_bind_self st.ws a)
                simp only [opEval]
                rw [hva]
          | Unknown =>
              simp only [simplifyStep, WorkspaceL.active, hact, hcs] at hstep
              exact Option.noConfusion hstep
    | MinRegReg o l rr =>
        cases hcs : st.choices with
        | nil =>
            simp only [simplifyStep, WorkspaceL.active, hact, hcs] at hstep
            exact Option.noConfusion hstep
        | cons c cs =>
          cases c with
          | Left =>
              cases hsrc : st.ws.bind l with
              | some newLhs =>
                  simp only [simplifyStep, WorkspaceL.active, hact, hcs, hsrc] at hstep
                  have hst := Option.some.inj hstep
                  subst hst
                  refine ⟨InvS_emit _ rest st st.ws _ cs st.choiceCount j₀ hact rfl
                      (GIext_refl _ _) ?_ (by simp [SsaOp.hasChoice]) hdep hnd hinv,
                    fun s j h => h, ?_⟩
                  · intro x hx
                    have hxr : x = newLhs := by simpa [SsaOp.inputs] using hx
                    exact hxr ▸ ⟨l, by simp [SsaOp.inputs], hsrc⟩
                  · intro I σ hsem heq hck
                    have hok := hck _ _ rfl rfl
                    refine Sem_emit I σ _ st st.ws _ cs st.choiceCount j₀ hact rfl
                      (GIext_refl _ _) hinv.fresh ?_ hsem
                    intro v' hc
                    rw [heq]
                    have hva : v' newLhs = σ l := hc l newLhs hsrc
                    simp only [opEval]
                    rw [hva]
                    exact (hok : I.fmin (σ l) (σ rr) = σ l).symm
              | none =>
                  simp only [simplifyStep, WorkspaceL.active, hact, hcs, hsrc] at hstep
                  have hst := Option.some.inj hstep
                  subst hst
                  refine ⟨InvS_alias _ rest st cs l j₀ hact
                      (by simp [SsaOp.inputs]) hsrc hdep hnd hinv, ?_, ?_⟩
                  · intro s j h
                    have hsw : s ≠ l := fun hh => by rw [hh, hsrc] at h; cases h
                    show (st.ws.setActive l j₀).bind s = some j
                    rwa [setActive_ne _ _ _ hsw]
                  · intro I σ hsem heq hck
                    have hok := hck _ _ rfl rfl
                    refine Sem_alias I σ _ st cs l j₀ hact hsrc ?_ hsem
                    rw [heq]
                    simp only [opEval]
                    exact (hok : I.fmin (σ l) (σ rr) = σ l).symm
          | Right =>
              cases hsrc : st.ws.bind rr with
              | some newRhs =>
                  simp only [simplifyStep, WorkspaceL.active, hact, hcs, hsrc] at hstep
                  have hst := Option.some.inj hstep
                  subst hst
                  refine ⟨InvS_emit _ rest st st.ws _ cs st.choiceCount j₀ hact rfl
                      (GIext_refl _ _) ?_ (by simp [SsaOp.hasChoice]) hdep hnd hinv,
                    fun s j h => h, ?_⟩
                  · intro x hx
                    have hxr : x = newRhs := by simpa [SsaOp.inputs] using hx
                    exact hxr ▸ ⟨rr, by simp [SsaOp.inputs], hsrc⟩
                  · intro I σ hsem heq hck
                    have hok := hck _ _ rfl rfl
                    refine Sem_emit I σ _ st st.ws _ cs st.choiceCount j₀ hact rfl
                      (GIext_refl _ _) hinv.fresh ?_ hsem
                    intro v' hc
                    rw [heq]
                    have hva : v' newRhs = σ rr := hc rr newRhs hsrc
                    simp only [opEval]
                    rw [hva]
                    exact (hok : I.fmin (σ l) (σ rr) = σ rr).symm
              | none =>
                  simp only [simplifyStep, WorkspaceL.active, hact, hcs, hsrc] at hstep
                  have hst := Option.some.inj hstep
                  subst hst
                  refine ⟨InvS_alias _ rest st cs rr j₀ hact
                      (by simp [SsaOp.inputs]) hsrc hdep hnd hinv, ?_, ?_⟩
                  · intro s j h
                    have hsw : s ≠ rr := fun hh => by rw [hh, hsrc] at h; cases h
                    show (st.ws.setActive rr j₀).bind s = some j
                    rwa [setActive_ne _ _ _ hsw]
                  · intro I σ hsem heq hck
                    have hok := hck _ _ rfl rfl
                    refine Sem_alias I σ _ st cs rr j₀ hact hsrc ?_ hsem
                    rw [heq]
                    simp only [opEval]
                    exact (hok : I.fmin (σ l) (σ rr) = σ rr).symm
          | Both =>
              simp only [simplifyStep, WorkspaceL.active, hact, hcs] at hstep
              have hst := Option.some.inj hstep
              subst hst
              have hm1 : l ∈ SsaOp.inputs (SsaOp.MinRegReg o l rr : SsaOp α) := by
                simp [SsaOp.inputs]
              have hm2 : rr ∈ SsaOp.inputs (SsaOp.MinRegReg o l rr : SsaOp α) := by
                simp [SsaOp.inputs]
              have hext1 := GIext_gio hinv.fresh hm1
              have hext := GIext_trans hext1
                (GIext_gio (GIext_fresh hinv.fresh hext1) hm2)
              refine ⟨InvS_emit _ rest st _ _ cs (st.choiceCount + 1) j₀ hact rfl
                  hext ?_ (by simp [SsaOp.hasChoice]) hdep hnd hinv,
                fun s j h => gio_mono rr (gio_mono l h), ?_⟩
              · intro x hx
                have hx' : x = (st.ws.getOrInsertActive l).1 ∨
                    x = ((st.ws.getOrInsertActive l).2.getOrInsertActive rr).1 := by
                  simpa [SsaOp.inputs] using hx
                rcases hx' with hxr | hxr
                · exact hxr ▸ ⟨l, hm1, gio_mono rr (gio_bind_self st.ws l)⟩
                · exact hxr ▸ ⟨rr, hm2, gio_bind_self _ rr⟩
              · intro I σ hsem heq _
                refine Sem_emit I σ _ st _ _ cs (st.choiceCount + 1) j₀ hact rfl
                  hext hinv.fresh ?_ hsem
                intro v' hc
                rw [heq]
                have hv1 : v' (st.ws.getOrInsertActive l).1 = σ l :=
                  hc l _ (gio_mono rr (gio_bind_self st.ws l))
                have hv2 : v' ((st.ws.getOrInsertActive l).2.getOrInsertActive rr).1
                    = σ rr := hc rr _ (gio_bind_self _ rr)
                simp only [opEval]
                rw [hv1, hv2]
          | Unknown =>
              simp only [simplifyStep, WorkspaceL.active, hact, hcs] at hstep
              exact Option.noConfusion hstep
    | MaxRegReg o l rr =>
        cases hcs : st.choices with
        | nil =>
            simp only [simplifyStep, WorkspaceL.active, hact, hcs] at hstep
            exact Option.noConfusion hstep
        | cons c cs =>
          cases c with
          | Left =>
              cases hsrc : st.ws.bind l with
              | some newLhs =>
                  simp only [simplifyStep, WorkspaceL.active, hact, hcs, hsrc] at hstep
                  have hst := Option.some.inj hstep
                  subst hst
                  refine ⟨InvS_emit _ rest st st.ws _ cs st.choiceCount j₀ hact rfl
                      (GIext_refl _ _) ?_ (by simp [SsaOp.hasChoice]) hdep hnd hinv,
                    fun s j h => h, ?_⟩
                  · intro x hx
                    have hxr : x = newLhs := by simpa [SsaOp.inputs] using hx
                    exact hxr ▸ ⟨l, by simp [SsaOp.inputs], hsrc⟩
                  · intro I σ hsem heq hck
                    have hok := hck _ _ rfl rfl
                    refine Sem_emit I σ _ st st.ws _ cs st.choiceCount j₀ hact rfl
                      (GIext_refl _ _) hinv.fresh ?_ hsem
                    intro v' hc
                    rw [heq]
                    have hva : v' newLhs = σ l := hc l newLhs hsrc
                    simp only [opEval]
                    rw [hva]
                    exact (hok : I.fmax (σ l) (σ rr) = σ l).symm
              | none =>
                  simp only [simplifyStep, WorkspaceL.active, hact, hcs, hsrc] at hstep
                  have hst := Option.some.inj hstep
                  subst hst
                  refine ⟨InvS_alias _ rest st cs l j₀ hact
                      (by simp [SsaOp.inputs]) hsrc hdep hnd hinv, ?_, ?_⟩
                  · intro s j h
                    have hsw : s ≠ l := fun hh => by rw [hh, hsrc] at h; cases h
                    show (st.ws.setActive l j₀).bind s = some j
                    rwa [setActive_ne _ _ _ hsw]
                  · intro I σ hsem heq hck
                    have hok := hck _ _ rfl rfl
                    refine Sem_alias I σ _ st cs l j₀ hact hsrc ?_ hsem
                    rw [heq]
                    simp only [opEval]
                    exact (hok : I.fmax (σ l) (σ rr) = σ l).symm
          | Right =>
              cases hsrc : st.ws.bind rr with
              | some newRhs =>
                  simp only [simplifyStep, WorkspaceL.active, hact, hcs, hsrc] at hstep
                  have hst := Option.some.inj hstep
                  subst hst
                  refine ⟨InvS_emit _ rest st st.ws _ cs st.choiceCount j₀ hact rfl
                      (GIext_refl _ _) ?_ (by simp [SsaOp.hasChoice]) hdep hnd hinv,
                    fun s j h => h, ?_⟩
                  · intro x hx
                    have hxr : x = newRhs := by simpa [SsaOp.inputs] using hx
                    exact hxr ▸ ⟨rr, by simp [SsaOp.inputs], hsrc⟩
                  · intro I σ hsem heq hck
                    have hok := hck _ _ rfl rfl
                    refine Sem_emit I σ _ st st.ws _ cs st.choiceCount j₀ hact rfl
                      (GIext_refl _ _) hinv.fresh ?_ hsem
                    intro v' hc
                    rw [heq]
                    have hva : v' newRhs = σ rr := hc rr newRhs hsrc
                    simp only [opEval]
                    rw [hva]
                    exact (hok : I.fmax (σ l) (σ rr) = σ rr).symm
              | none =>
                  simp only [simplifyStep, WorkspaceL.active, hact, hcs, hsrc] at hstep
                  have hst := Option.some.inj hstep
                  subst hst
                  refine ⟨InvS_alias _ rest st cs rr j₀ hact
                      (by simp [SsaOp.inputs]) hsrc hdep hnd hinv, ?_, ?_⟩
                  · intro s j h
                    have hsw : s ≠ rr := fun hh => by rw [hh, hsrc] at h; cases h
                    show (st.ws.setActive rr j₀).bind s = some j
                    rwa [setActive_ne _ _ _ hsw]
                  · intro I σ hsem heq hck
                    have hok := hck _ _ rfl rfl
                    refine Sem_alias I σ _ st cs rr j₀ hact hsrc ?_ hsem
                    rw [heq]
                    simp only [opEval]
                    exact (hok : I.fmax (σ l) (σ rr) = σ rr).symm
          | Both =>
              simp only [simplifyStep, WorkspaceL.active, hact, hcs] at hstep
              have hst := Option.some.inj hstep
              subst hst
              have hm1 : l ∈ SsaOp.inputs (SsaOp.MaxRegReg o l rr : SsaOp α) := by
                simp [SsaOp.inputs]
              have hm2 : rr ∈ SsaOp.inputs (SsaOp.MaxRegReg o l rr : SsaOp α) := by
                simp [SsaOp.inputs]
              have hext1 := GIext_gio hinv.fresh hm1
              have hext := GIext_trans hext1
                (GIext_gio (GIext_fresh hinv.fresh hext1) hm2)
              refine ⟨InvS_emit _ rest st _ _ cs (st.choiceCount + 1) j₀ hact rfl
                  hext ?_ (by simp [SsaOp.hasChoice]) hdep hnd hinv,
                fun s j h => gio_mono rr (gio_mono l h), ?_⟩
              · intro x hx
                have hx' : x = (st.ws.getOrInsertActive l).1 ∨
                    x = ((st.ws.getOrInsertActive l).2.getOrInsertActive rr).1 := by
                  simpa [SsaOp.inputs] using hx
                rcases hx' with hxr | hxr
                · exact hxr ▸ ⟨l, hm1, gio_mono rr (gio_bind_self st.ws l)⟩
                · exact hxr ▸ ⟨rr, hm2, gio_bind_self _ rr⟩
              · intro I σ hsem heq _
                refine Sem_emit I σ _ st _ _ cs (st.choiceCount + 1) j₀ hact rfl
                  hext hinv.fresh ?_ hsem
                intro v' hc
                rw [heq]
                have hv1 : v' (st.ws.getOrInsertActive l).1 = σ l :=
                  hc l _ (gio_mono rr (gio_bind_self st.ws l))
                have hv2 : v' ((st.ws.getOrInsertActive l).2.getOrInsertActive rr).1
                    = σ rr := hc rr _ (gio_bind_self _ rr)
                simp only [opEval]
                rw [hv1, hv2]
          | Unknown =>
              simp only [simplifyStep, WorkspaceL.active, hact, hcs] at hstep
              exact Option.noConfusion hstep
    | AddRegReg o l rr =>
        simp only [simplifyStep, WorkspaceL.active, hact] at hstep
        have hst := Option.some.inj hstep
        subst hst
        have hm1 : l ∈ SsaOp.inputs (SsaOp.AddRegReg o l rr : SsaOp α) := by simp [SsaOp.inputs]
        have hm2 : rr ∈ SsaOp.inputs (SsaOp.AddRegReg o l rr : SsaOp α) := by simp [SsaOp.inputs]
        have hext1 := GIext_gio hinv.fresh hm1
        have hext := GIext_trans hext1
          (GIext_gio (GIext_fresh hinv.fresh hext1) hm2)
        refine ⟨InvS_emit _ rest st _ _ st.choices st.choiceCount j₀ hact rfl hext
            ?_ (by simp [SsaOp.hasChoice]) hdep hnd hinv,
          fun s j h => gio_mono rr (gio_mono l h), ?_⟩
        · intro x hx
          have hx' : x = (st.ws.getOrInsertActive l).1 ∨
              x = ((st.ws.getOrInsertActive l).2.getOrInsertActive rr).1 := by
            simpa [SsaOp.inputs] using hx
          rcases hx' with hxr | hxr
          · exact hxr ▸ ⟨l, hm1, gio_mono rr (gio_bind_self st.ws l)⟩
          · exact hxr ▸ ⟨rr, hm2, gio_bind_self _ rr⟩
        · intro I σ hsem heq _
          refine Sem_emit I σ _ st _ _ st.choices st.choiceCount j₀ hact rfl hext
            hinv.fresh ?_ hsem
          intro v' hc
          rw [heq]
          have hv1 : v' (st.ws.getOrInsertActive l).1 = σ l :=
            hc l _ (gio_mono rr (gio_bind_self st.ws l))
          have hv2 : v' ((st.ws.getOrInsertActive l).2.getOrInsertActive rr).1
              = σ rr := hc rr _ (gio_bind_self _ rr)
          simp only [opEval]
          rw [hv1, hv2]
    | MulRegReg o l rr =>
        simp only [simplifyStep, WorkspaceL.active, hact] at hstep
        have hst := Option.some.inj hstep
        subst hst
        have hm1 : l ∈ SsaOp.inputs (SsaOp.MulRegReg o l rr : SsaOp α) := by simp [SsaOp.inputs]
        have hm2 : rr ∈ SsaOp.inputs (SsaOp.MulRegReg o l rr : SsaOp α) := by simp [SsaOp.inputs]
        have hext1 := GIext_gio hinv.fresh hm1
        have hext := GIext_trans hext1
          (GIext_gio (GIext_fresh hinv.fresh hext1) hm2)
        refine ⟨InvS_emit _ rest st _ _ st.choices st.choiceCount j₀ hact rfl hext
            ?_ (by simp [SsaOp.hasChoice]) hdep hnd hinv,
          fun s j h => gio_mono rr (gio_mono l h), ?_⟩
        · intro x hx
          have hx' : x = (st.ws.getOrInsertActive l).1 ∨
              x = ((st.ws.getOrInsertActive l).2.getOrInsertActive rr).1 := by
            simpa [SsaOp.inputs] using hx
          rcases hx' with hxr | hxr
          · exact hxr ▸ ⟨l, hm1, gio_mono rr (gio_bind_self st.ws l)⟩
          · exact hxr ▸ ⟨rr, hm2, gio_bind_self _ rr⟩
        · intro I σ hsem heq _
          refine Sem_emit I σ _ st _ _ st.choices st.choiceCount j₀ hact rfl hext
            hinv.fresh ?_ hsem
          intro v' hc
          rw [heq]
          have hv1 : v' (st.ws.getOrInsertActive l).1 = σ l :=
            hc l _ (gio_mono rr (gio_bind_self st.ws l))
          have hv2 : v' ((st.ws.getOrInsertActive l).2.getOrInsertActive rr).1
              = σ rr := hc rr _ (gio_bind_self _ rr)
          simp only [opEval]
          rw [hv1, hv2]
    | SubRegReg o l rr =>
        simp only [simplifyStep, WorkspaceL.active, hact] at hstep
        have hst := Option.some.inj hstep
        subst hst
        have hm1 : l ∈ SsaOp.inputs (SsaOp.SubRegReg o l rr : SsaOp α) := by simp [SsaOp.inputs]
        have hm2 : rr ∈ SsaOp.inputs (SsaOp.SubRegReg o l rr : SsaOp α) := by simp [SsaOp.inputs]
        have hext1 := GIext_gio hinv.fresh hm1
        have hext := GIext_trans hext1
          (GIext_gio (GIext_fresh hinv.fresh hext1) hm2)
        refine ⟨InvS_emit _ rest st _ _ st.choices st.choiceCount j₀ hact rfl hext
            ?_ (by simp [SsaOp.hasChoice]) hdep hnd hinv,
          fun s j h => gio_mono rr (gio_mono l h), ?_⟩
        · intro x hx
          have hx' : x = (st.ws.getOrInsertActive l).1 ∨
              x = ((st.ws.getOrInsertActive l).2.getOrInsertActive rr).1 := by
            simpa [SsaOp.inputs] using hx
          rcases hx' with hxr | hxr
          · exact hxr ▸ ⟨l, hm1, gio_mono rr (gio_bind_self st.ws l)⟩
          · exact hxr ▸ ⟨rr, hm2, gio_bind_self _ rr⟩
        · intro I σ hsem heq _
          refine Sem_emit I σ _ st _ _ st.choices st.choiceCount j₀ hact rfl hext
            hinv.fresh ?_ hsem
          intro v' hc
          rw [heq]
          have hv1 : v' (st.ws.getOrInsertActive l).1 = σ l :=
            hc l _ (gio_mono rr (gio_bind_self st.ws l))
          have hv2 : v' ((st.ws.getOrInsertActive l).2.getOrInsertActive rr).1
              = σ rr := hc rr _ (gio_bind_self _ rr)
          simp only [opEval]
          rw [hv1, hv2]
    | DivRegReg o l rr =>
        simp only [simplifyStep, WorkspaceL.active, hact] at hstep
        have hst := Option.some.inj hstep
        subst hst
        have hm1 : l ∈ SsaOp.inputs (SsaOp.DivRegReg o l rr : SsaOp α) := by simp [SsaOp.inputs]
        have hm2 : rr ∈ SsaOp.inputs (SsaOp.DivRegReg o l rr : SsaOp α) := by simp [SsaOp.inputs]
        have hext1 := GIext_gio hinv.fresh hm1
        have hext := GIext_trans hext1
          (GIext_gio (GIext_fresh hinv.fresh hext1) hm2)
        refine ⟨InvS_emit _ rest st _ _ st.choices st.choiceCount j₀ hact rfl hext
            ?_ (by simp [SsaOp.hasChoice]) hdep hnd hinv,
          fun s j h => gio_mono rr (gio_mono l h), ?_⟩
        · intro x hx
          have hx' : x = (st.ws.getOrInsertActive l).1 ∨
              x = ((st.ws.getOrInsertActive l).2.getOrInsertActive rr).1 := by
            simpa [SsaOp.inputs] using hx
          rcases hx' with hxr | hxr
          · exact hxr ▸ ⟨l, hm1, gio_mono rr (gio_bind_self st.ws l)⟩
          · exact hxr ▸ ⟨rr, hm2, gio_bind_self _ rr⟩
        · intro I σ hsem heq _
          refine Sem_emit I σ _ st _ _ st.choices st.choiceCount j₀ hact rfl hext
            hinv.fresh ?_ hsem
          intro v' hc
          rw [heq]
          have hv1 : v' (st.ws.getOrInsertActive l).1 = σ l :=
            hc l _ (gio_mono rr (gio_bind_self st.ws l))
          have hv2 : v' ((st.ws.getOrInsertActive l).2.getOrInsertActive rr).1
              = σ rr := hc rr _ (gio_bind_self _ rr)
          simp only [opEval]
          rw [hv1, hv2]
    | AddRegImm o a imm =>
        simp only [simplifyStep, WorkspaceL.active, hact] at hstep
        have hst := Option.some.inj hstep
        subst hst
        have hmem : a ∈ SsaOp.inputs (SsaOp.AddRegImm o a imm) := by simp [SsaOp.inputs]
        have hext := GIext_gio hinv.fresh hmem
        refine ⟨InvS_emit _ rest st _ _ st.choices st.choiceCount j₀ hact rfl hext
            ?_ (by simp [SsaOp.hasChoice]) hdep hnd hinv,
          fun s j h => gio_mono a h, ?_⟩
        · intro x hx
          have hxr : x = (st.ws.getOrInsertActive a).1 := by
            simpa [SsaOp.inputs] using hx
          exact hxr ▸ ⟨a, hmem, gio_bind_self st.ws a⟩
        · intro I σ hsem heq _
          refine Sem_emit I σ _ st _ _ st.choices st.choiceCount j₀ hact rfl hext
            hinv.fresh ?_ hsem
          intro v' hc
          rw [heq]
          have hva : v' (st.ws.getOrInsertActive a).1 = σ a :=
            hc a _ (gio_bind_self st.ws a)
          simp only [opEval]
          rw [hva]
    | MulRegImm o a imm =>
        simp only [simplifyStep, WorkspaceL.active, hact] at hstep
        have hst := Option.some.inj hstep
        subst hst
        have hmem : a ∈ SsaOp.inputs (SsaOp.MulRegImm o a imm) := by simp [SsaOp.inputs]
        have hext := GIext_gio hinv.fresh hmem
        refine ⟨InvS_emit _ rest st _ _ st.choices st.choiceCount j₀ hact rfl hext
            ?_ (by simp [SsaOp.hasChoice]) hdep hnd hinv,
          fun s j h => gio_mono a h, ?_⟩
        · intro x hx
          have hxr : x = (st.ws.getOrInsertActive a).1 := by
            simpa [SsaOp.inputs] using hx
          exact hxr ▸ ⟨a, hmem, gio_bind_self st.ws a⟩
        · intro I σ hsem heq _
          refine Sem_emit I σ _ st _ _ st.choices st.choiceCount j₀ hact rfl hext
            hinv.fresh ?_ hsem
          intro v' hc
          rw [heq]
          have hva : v' (st.ws.getOrInsertActive a).1 = σ a :=
            hc a _ (gio_bind_self st.ws a)
          simp only [opEval]
          rw [hva]
    | SubRegImm o a imm =>
        simp only [simplifyStep, WorkspaceL.active, hact] at hstep
        have hst := Option.some.inj hstep
        subst hst
        have hmem : a ∈ SsaOp.inputs (SsaOp.SubRegImm o a imm) := by simp [SsaOp.inputs]
        have hext := GIext_gio hinv.fresh hmem
        refine ⟨InvS_emit _ rest st _ _ st.choices st.choiceCount j₀ hact rfl hext
            ?_ (by simp [SsaOp.hasChoice]) hdep hnd hinv,
          fun s j h => gio_mono a h, ?_⟩
        · intro x hx
          have hxr : x = (st.ws.getOrInsertActive a).1 := by
            simpa [SsaOp.inputs] using hx
          exact hxr ▸ ⟨a, hmem, gio_bind_self st.ws a⟩
        · intro I σ hsem heq _
          refine Sem_emit I σ _ st _ _ st.choices st.choiceCount j₀ hact rfl hext
            hinv.fresh ?_ hsem
          intro v' hc
          rw [heq]
          have hva : v' (st.ws.getOrInsertActive a).1 = σ a :=
            hc a _ (gio_bind_self st.ws a)
          simp only [opEval]
          rw [hva]
    | SubImmReg o a imm =>
        simp only [simplifyStep, WorkspaceL.active, hact] at hstep
        have hst := Option.some.inj hstep
        subst hst
        have hmem : a ∈ SsaOp.inputs (SsaOp.SubImmReg o a imm) := by simp [SsaOp.inputs]
        have hext := GIext_gio hinv.fresh hmem
        refine ⟨InvS_emit _ rest st _ _ st.choices st.choiceCount j₀ hact rfl hext
            ?_ (by simp [SsaOp.hasChoice]) hdep hnd hinv,
          fun s j h => gio_mono a h, ?_⟩
        · intro x hx
          have hxr : x = (st.ws.getOrInsertActive a).1 := by
            simpa [SsaOp.inputs] using hx
          exact hxr ▸ ⟨a, hmem, gio_bind_self st.ws a⟩
        · intro I σ hsem heq _
          refine Sem_emit I σ _ st _ _ st.choices st.choiceCount j₀ hact rfl hext
            hinv.fresh ?_ hsem
          intro v' hc
          rw [heq]
          have hva : v' (st.ws.getOrInsertActive a).1 = σ a :=
            hc a _ (gio_bind_self st.ws a)
          simp only [opEval]
          rw [hva]
    | DivRegImm o a imm =>
        simp only [simplifyStep, WorkspaceL.active, hact] at hstep
        have hst := Option.some.inj hstep
        subst hst
        have hmem : a ∈ SsaOp.inputs (SsaOp.DivRegImm o a imm) := by simp [SsaOp.inputs]
        have hext := GIext_gio hinv.fresh hmem
        refine ⟨InvS_emit _ rest st _ _ st.choices st.choiceCount j₀ hact rfl hext
            ?_ (by simp [SsaOp.hasChoice]) hdep hnd hinv,
          fun s j h => gio_mono a h, ?_⟩
        · intro x hx
          have hxr : x = (st.ws.getOrInsertActive a).1 := by
            simpa [SsaOp.inputs] using hx
          exact hxr ▸ ⟨a, hmem, gio_bind_self st.ws a⟩
        · intro I σ hsem heq _
          refine Sem_emit I σ _ st _ _ st.choices st.choiceCount j₀ hact rfl hext
            hinv.fresh ?_ hsem
          intro v' hc
          rw [heq]
          have hva : v' (st.ws.getOrInsertActive a).1 = σ a :=
            hc a _ (gio_bind_self st.ws a)
          simp only [opEval]
          rw [hva]
    | DivImmReg o a imm =>
        simp only [simplifyStep, WorkspaceL.active, hact] at hstep
        have hst := Option.some.inj hstep
        subst hst
        have hmem : a ∈ SsaOp.inputs (SsaOp.DivImmReg o a imm) := by simp [SsaOp.inputs]
        have hext := GIext_gio hinv.fresh hmem
        refine ⟨InvS_emit _ rest st _ _ st.choices st.choiceCount j₀ hact rfl hext
            ?_ (by simp [SsaOp.hasChoice]) hdep hnd hinv,
          fun s j h => gio_mono a h, ?_⟩
        · intro x hx
          have hxr : x = (st.ws.getOrInsertActive a).1 := by
            simpa [SsaOp.inputs] using hx
          exact hxr ▸ ⟨a, hmem, gio_bind_self st.ws a⟩
        · intro I σ hsem heq _
          refine Sem_emit I σ _ st _ _ st.choices st.choiceCount j₀ hact rfl hext
            hinv.fresh ?_ hsem
          intro v' hc
          rw [heq]
          have hva : v' (st.ws.getOrInsertActive a).1 = σ a :=
            hc a _ (gio_bind_self st.ws a)
          simp only [opEval]
          rw [hva]


/-- Choice-consumption behavior of one step: exactly one choice is peeled
iff the op is choice-bearing, whether the op is live or dead. -/
theorem step_choices (op : SsaOp α) (st st' : LoopSt α)
    (hstep : simplifyStep op st = some st') :
    (SsaOp.hasChoice op = true → ∃ c, st.choices = c :: st'.choices) ∧
    (SsaOp.hasChoice op = false → st'.choices = st.choices) := by
  cases hact : st.ws.bind (SsaOp.output op) with
  | none =>
      simp only [simplifyStep, WorkspaceL.active, hact] at hstep
      by_cases hch : SsaOp.hasChoice op = true
      · rw [if_pos hch] at hstep
        cases hcs : st.choices with
        | nil => rw [hcs] at hstep; exact Option.noConfusion hstep
        | cons c cs =>
            rw [hcs] at hstep
            have hst := Option.some.inj hstep
            subst hst
            exact ⟨fun _ => ⟨c, rfl⟩, fun hf => absurd hch (by simp [hf])⟩
      · rw [if_neg hch] at hstep
        have hst := Option.some.inj hstep
        subst hst
        exact ⟨fun h => absurd h hch, fun _ => rfl⟩
  | some j₀ =>
    cases op with
    | Input o ax =>
        simp only [simplifyStep, WorkspaceL.active, hact] at hstep
        have hst := Option.some.inj hstep
        subst hst
        exact ⟨fun h => (nomatch h), fun _ => rfl⟩
    | Var o v =>
        simp only [simplifyStep, WorkspaceL.active, hact] at hstep
        have hst := Option.some.inj hstep
        subst hst
        exact ⟨fun h => (nomatch h), fun _ => rfl⟩
    | CopyImm o imm =>
        simp only [simplifyStep, WorkspaceL.active, hact] at hstep
        have hst := Option.some.inj hstep
        subst hst
        exact ⟨fun h => (nomatch h), fun _ => rfl⟩
    | NegReg o a =>
        simp only [simplifyStep, WorkspaceL.active, hact] at hstep
        have hst := Option.some.inj hstep
        subst hst
        exact ⟨fun h => (nomatch h), fun _ => rfl⟩
    | AbsReg o a =>
        simp only [simplifyStep, WorkspaceL.active, hact] at hstep
        have hst := Option.some.inj hstep
        subst hst
        exact ⟨fun h => (nomatch h), fun _ => rfl⟩
    | RecipReg o a =>
        simp only [simplifyStep, WorkspaceL.active, hact] at hstep
        have hst := Option.some.inj hstep
        subst hst
        exact ⟨fun h => (nomatch h), fun _ => rfl⟩
    | SqrtReg o a =>
        simp only [simplifyStep, WorkspaceL.active, hact] at hstep
        have hst := Option.some.inj hstep
        subst hst
        exact ⟨fun h => (nomatch h), fun _ => rfl⟩
    | SquareReg o a =>
        simp only [simplifyStep, WorkspaceL.active, hact] at hstep
        have hst := Option.some.inj hstep
        subst hst
        exact ⟨fun h => (nomatch h), fun _ => rfl⟩
    | SinReg o a =>
        simp only [simplifyStep, WorkspaceL.active, hact] at hstep
        have hst := Option.some.inj hstep
        subst hst
        exact ⟨fun h => (nomatch h), fun _ => rfl⟩
    | CosReg o a =>
        simp only [simplifyStep, WorkspaceL.active, hact] at hstep
        have hst := Option.some.inj hstep
        subst hst
        exact ⟨fun h => (nomatch h), fun _ => rfl⟩
    | TanReg o a =>
        simp only [simplifyStep, WorkspaceL.active, hact] at hstep
        have hst := Option.some.inj hstep
        subst hst
        exact ⟨fun h => (nomatch h), fun _ => rfl⟩
    | AsinReg o a =>
        simp only [simplifyStep, WorkspaceL.active, hact] at hstep
        have hst := Option.some.inj hstep
        subst hst
        exact ⟨fun h => (nomatch h), fun _ => rfl⟩
    | AcosReg o a =>
        simp only [simplifyStep, WorkspaceL.active, hact] at hstep
        have hst := Option.some.inj hstep
        subst hst
        exact ⟨fun h => (nomatch h), fun _ => rfl⟩
    | AtanReg o a =>
        simp only [simplifyStep, WorkspaceL.active, hact] at hstep
        have hst := Option.some.inj hstep
        subst hst
        exact ⟨fun h => (nomatch h), fun _ => rfl⟩
    | ExpReg o a =>
        simp only [simplifyStep, WorkspaceL.active, hact] at hstep
        have hst := Option.some.inj hstep
        subst hst
        exact ⟨fun h => (nomatch h), fun _ => rfl⟩
    | LnReg o a =>
        simp only [simplifyStep, WorkspaceL.active, hact] at hstep
        have hst := Option.some.inj hstep
        subst hst
        exact ⟨fun h => (nomatch h), fun _ => rfl⟩
    | AddRegReg o l rr =>
        simp only [simplifyStep, WorkspaceL.active, hact] at hstep
        have hst := Option.some.inj hstep
        subst hst
        exact ⟨fun h => (nomatch h), fun _ => rfl⟩
    | MulRegReg o l rr =>
        simp only [simplifyStep, WorkspaceL.active, hact] at hstep
        have hst := Option.some.inj hstep
        subst hst
        exact ⟨fun h => (nomatch h), fun _ => rfl⟩
    | SubRegReg o l rr =>
        simp only [simplifyStep, WorkspaceL.active, hact] at hstep
        have hst := Option.some.inj hstep
        subst hst
        exact ⟨fun h => (nomatch h), fun _ => rfl⟩
    | DivRegReg o l rr =>
        simp only [simplifyStep, WorkspaceL.active, hact] at hstep
        have hst := Option.some.inj hstep
        subst hst
        exact ⟨fun h => (nomatch h), fun _ => rfl⟩
    | AddRegImm o a imm =>
        simp only [simplifyStep, WorkspaceL.active, hact] at hstep
        have hst := Option.some.inj hstep
        subst hst
        exact ⟨fun h => (nomatch h), fun _ => rfl⟩
    | MulRegImm o a imm =>
        simp only [simplifyStep, WorkspaceL.active, hact] at hstep
        have hst := Option.some.inj hstep
        subst hst
        exact ⟨fun h => (nomatch h), fun _ => rfl⟩
    | SubRegImm o a imm =>
        simp only [simplifyStep, WorkspaceL.active, hact] at hstep
        have hst := Option.some.inj hstep
        subst hst
        exact ⟨fun h => (nomatch h), fun _ => rfl⟩
    | SubImmReg o a imm =>
        simp only [simplifyStep, WorkspaceL.active, hact] at hstep
        have hst := Option.some.inj hstep
        subst hst
        exact ⟨fun h => (nomatch h), fun _ => rfl⟩
    | DivRegImm o a imm =>
        simp only [simplifyStep, WorkspaceL.active, hact] at hstep
        have hst := Option.some.inj hstep
        subst hst
        exact ⟨fun h => (nomatch h), fun _ => rfl⟩
    | DivImmReg o a imm =>
        simp only [simplifyStep, WorkspaceL.active, hact] at hstep
        have hst := Option.some.inj hstep
        subst hst
        exact ⟨fun h => (nomatch h), fun _ => rfl⟩
    | CopyReg o src =>
        cases hsrc : st.ws.bind src with
        | some newSrc =>
            simp only [simplifyStep, WorkspaceL.active, hact, hsrc] at hstep
            have hst := Option.some.inj hstep
            subst hst
            exact ⟨fun h => (nomatch h), fun _ => rfl⟩
        | none =>
            simp only [simplifyStep, WorkspaceL.active, hact, hsrc] at hstep
            have hst := Option.some.inj hstep
            subst hst
            exact ⟨fun h => (nomatch h), fun _ => rfl⟩
    | MinRegImm o a imm =>
        cases hcs : st.choices with
        | nil =>
            simp only [simplifyStep, WorkspaceL.active, hact, hcs] at hstep
            exact Option.noConfusion hstep
        | cons c cs =>
          cases c with
          | Left =>
              cases hsrc : st.ws.bind a with
              | some newArg =>
                  simp only [simplifyStep, WorkspaceL.active, hact, hcs, hsrc] at hstep
                  have hst := Option.some.inj hstep
                  subst hst
                  exact ⟨fun _ => ⟨Choice.Left, rfl⟩, fun h => (nomatch h)⟩
              | none =>
                  simp only [simplifyStep, WorkspaceL.active, hact, hcs, hsrc] at hstep
                  have hst := Option.some.inj hstep
                  subst hst
                  exact ⟨fun _ => ⟨Choice.Left, rfl⟩, fun h => (nomatch h)⟩
          | Right =>
              simp only [simplifyStep, WorkspaceL.active, hact, hcs] at hstep
              have hst := Option.some.inj hstep
              subst hst
              exact ⟨fun _ => ⟨Choice.Right, rfl⟩, fun h => (nomatch h)⟩
          | Both =>
              simp only [simplifyStep, WorkspaceL.active, hact, hcs] at hstep
              have hst := Option.some.inj hstep
              subst hst
              exact ⟨fun _ => ⟨Choice.Both, rfl⟩, fun h => (nomatch h)⟩
          | Unknown =>
              simp only [simplifyStep, WorkspaceL.active, hact, hcs] at hstep
              exact Option.noConfusion hstep
    | MaxRegImm o a imm =>
        cases hcs : st.choices with
        | nil =>
            simp only [simplifyStep, WorkspaceL.active, hact, hcs] at hstep
            exact Option.noConfusion hstep
        | cons c cs =>
          cases c with
          | Left =>
              cases hsrc : st.ws.bind a with
              | some newArg =>
                  simp only [simplifyStep, WorkspaceL.active, hact, hcs, hsrc] at hstep
                  have hst := Option.some.inj hstep
                  subst hst
                  exact ⟨fun _ => ⟨Choice.Left, rfl⟩, fun h => (nomatch h)⟩
              | none =>
                  simp only [simplifyStep, WorkspaceL.active, hact, hcs, hsrc] at hstep
                  have hst := Option.some.inj hstep
                  subst hst
                  exact ⟨fun _ => ⟨Choice.Left, rfl⟩, fun h => (nomatch h)⟩
          | Right =>
              simp only [simplifyStep, WorkspaceL.active, hact, hcs] at hstep
              have hst := Option.some.inj hstep
              subst hst
              exact ⟨fun _ => ⟨Choice.Right, rfl⟩, fun h => (nomatch h)⟩
          | Both =>
              simp only [simplifyStep, WorkspaceL.active, hact, hcs] at hstep
              have hst := Option.some.inj hstep
              subst hst
              exact ⟨fun _ => ⟨Choice.Both, rfl⟩, fun h => (nomatch h)⟩
          | Unknown =>
              simp only [simplifyStep, WorkspaceL.active, hact, hcs] at hstep
              exact Option.noConfusion hstep
    | MinRegReg o l rr =>
        cases hcs : st.choices with
        | nil =>
            simp only [simplifyStep, WorkspaceL.active, hact, hcs] at hstep
            exact Option.noConfusion hstep
        | cons c cs =>
          cases c with
          | Left =>
              cases hsrc : st.ws.bind l with
              | some newLhs =>
                  simp only [simplifyStep, WorkspaceL.active, hact, hcs, hsrc] at hstep
                  have hst := Option.some.inj hstep
                  subst hst
                  exact ⟨fun _ => ⟨Choice.Left, rfl⟩, fun h => (nomatch h)⟩
              | none =>
                  simp only [simplifyStep, WorkspaceL.active, hact, hcs, hsrc] at hstep
                  have hst := Option.some.inj hstep
                  subst hst
                  exact ⟨fun _ => ⟨Choice.Left, rfl⟩, fun h => (nomatch h)⟩
          | Right =>
              cases hsrc : st.ws.bind rr with
              | some newRhs =>
                  simp only [simplifyStep, WorkspaceL.active, hact, hcs, hsrc] at hstep
                  have hst := Option.some.inj hstep
                  subst hst
                  exact ⟨fun _ => ⟨Choice.Right, rfl⟩, fun h => (nomatch h)⟩
              | none =>
                  simp only [simplifyStep, WorkspaceL.active, hact, hcs, hsrc] at hstep
                  have hst := Option.some.inj hstep
                  subst hst
                  exact ⟨fun _ => ⟨Choice.Right, rfl⟩, fun h => (nomatch h)⟩
          | Both =>
              simp only [simplifyStep, WorkspaceL.active, hact, hcs] at hstep
              have hst := Option.some.inj hstep
              subst hst
              exact ⟨fun _ => ⟨Choice.Both, rfl⟩, fun h => (nomatch h)⟩
          | Unknown =>
              simp only [simplifyStep, WorkspaceL.active, hact, hcs] at hstep
              exact Option.noConfusion hstep
    | MaxRegReg o l rr =>
        cases hcs : st.choices with
        | nil =>
            simp only [simplifyStep, WorkspaceL.active, hact, hcs] at hstep
            exact Option.noConfusion hstep
        | cons c cs =>
          cases c with
          | Left =>
              cases hsrc : st.ws.bind l with
              | some newLhs =>
                  simp only [simplifyStep, WorkspaceL.active, hact, hcs, hsrc] at hstep
                  have hst := Option.some.inj hstep
                  subst hst
                  exact ⟨fun _ => ⟨Choice.Left, rfl⟩, fun h => (nomatch h)⟩
              | none =>
                  simp only [simplifyStep, WorkspaceL.active, hact, hcs, hsrc] at hstep
                  have hst := Option.some.inj hstep
                  subst hst
                  exact ⟨fun _ => ⟨Choice.Left, rfl⟩, fun h => (nomatch h)⟩
          | Right =>
              cases hsrc : st.ws.bind rr with
              | some newRhs =>
                  simp only [simplifyStep, WorkspaceL.active, hact, hcs, hsrc] at hstep
                  have hst := Option.some.inj hstep
                  subst hst
                  exact ⟨fun _ => ⟨Choice.Right, rfl⟩, fun h => (nomatch h)⟩
              | none =>
                  simp only [simplifyStep, WorkspaceL.active, hact, hcs, hsrc] at hstep
                  have hst := Option.some.inj hstep
                  subst hst
                  exact ⟨fun _ => ⟨Choice.Right, rfl⟩, fun h => (nomatch h)⟩
          | Both =>
              simp only [simplifyStep, WorkspaceL.active, hact, hcs] at hstep
              have hst := Option.some.inj hstep
              subst hst
              exact ⟨fun _ => ⟨Choice.Both, rfl⟩, fun h => (nomatch h)⟩
          | Unknown =>
              simp only [simplifyStep, WorkspaceL.active, hact, hcs] at hstep
              exact Option.noConfusion hstep

/-- A dead op is dropped: nothing is emitted, the workspace is untouched,
and a choice is discarded iff the op carries one. -/
theorem step_dead (op : SsaOp α) (st st' : LoopSt α)
    (hstep : simplifyStep op st = some st')
    (hb : st.ws.bind (SsaOp.output op) = none) :
    st'.opsOut = st.opsOut ∧ st'.ws = st.ws ∧
    st'.choiceCount = st.choiceCount ∧
    (SsaOp.hasChoice op = true → ∃ c, st.choices = c :: st'.choices) ∧
    (SsaOp.hasChoice op = false → st'.choices = st.choices) := by
  simp only [simplifyStep, WorkspaceL.active, hb] at hstep
  by_cases hch : SsaOp.hasChoice op = true
  · rw [if_pos hch] at hstep
    cases hcs : st.choices with
    | nil => rw [hcs] at hstep; exact Option.noConfusion hstep
    | cons c cs =>
        rw [hcs] at hstep
        have hst := Option.some.inj hstep
        subst hst
        exact ⟨rfl, rfl, rfl, fun _ => ⟨c, rfl⟩,
          fun hf => absurd hch (by simp [hf])⟩
  · rw [if_neg hch] at hstep
    have hst := Option.some.inj hstep
    subst hst
    exact ⟨rfl, rfl, rfl, fun h => absurd h hch, fun _ => rfl⟩

/-- Whole-run structural facts: final invariant over the empty suffix and
write-once growth of the binding table. -/
theorem loopStructural :
    ∀ (todo : List (SsaOp α)) (st st' : LoopSt α),
      simplifyLoop todo st = some st' → DepC todo → (outs todo).Nodup →
      InvS todo st →
      InvS [] st' ∧ (∀ s j, st.ws.bind s = some j → st'.ws.bind s = some j) := by
  intro todo
  induction todo with
  | nil =>
      intro st st' h _ _ hinv
      have hst := Option.some.inj h
      subst hst
      exact ⟨hinv, fun s j hh => hh⟩
  | cons op rest ih =>
      intro st st' h hdc hnd hinv
      cases hs : simplifyStep op st with
      | none => rw [simplifyLoop, hs] at h; exact Option.noConfusion h
      | some st₁ =>
          rw [simplifyLoop, hs] at h
          rw [outs_cons, List.nodup_cons] at hnd
          obtain ⟨hinv', hmono, -⟩ := stepMain op rest st st₁ hs hdc.1 hnd.1 hinv
          obtain ⟨hfin, hmono'⟩ := ih st₁ st' h hdc.2 hnd.2 hinv'
          exact ⟨hfin, fun s j hh => hmono' s j (hmono s j hh)⟩

/-- Whole-run semantic facts: when the source equations hold and the
reversed choice list is correct for the suffix, the run preserves the
semantic invariant and consumes the choice list exactly. -/
theorem loopSem (I : Interp α) (σ : Nat → α) :
    ∀ (todo : List (SsaOp α)) (st st' : LoopSt α),
      simplifyLoop todo st = some st' →
      DepC todo → (outs todo).Nodup →
      (∀ op ∈ todo, σ (SsaOp.output op) = opEval I σ op) →
      ZipC I σ todo st.choices →
      InvS todo st → SemInv I σ st →
      SemInv I σ st' ∧ st'.choices = [] := by
  intro todo
  induction todo with
  | nil =>
      intro st st' h _ _ _ hzip hinv hsem
      have hst := Option.some.inj h
      subst hst
      exact ⟨hsem, hzip⟩
  | cons op rest ih =>
      intro st st' h hdc hnd heqs hzip hinv hsem
      cases hs : simplifyStep op st with
      | none => rw [simplifyLoop, hs] at h; exact Option.noConfusion h
      | some st₁ =>
          rw [simplifyLoop, hs] at h
          rw [outs_cons, List.nodup_cons] at hnd
          obtain ⟨hinv', hmono, hsemStep⟩ := stepMain op rest st st₁ hs hdc.1 hnd.1 hinv
          have hchs := step_choices op st st₁ hs
          by_cases hch : SsaOp.hasChoice op = true
          · obtain ⟨c, hc⟩ := hchs.1 hch
            have hzip' : ChoiceOkFor I σ op c ∧ ZipC I σ rest st₁.choices := by
              rw [hc] at hzip
              simp only [ZipC, hch] at hzip
              exact hzip
            have hsem₁ : SemInv I σ st₁ :=
              hsemStep I σ hsem (heqs op (List.mem_cons_self _ _))
                (fun c' cs' hcs' _ => by
                  rw [hc] at hcs'
                  obtain ⟨hc1, -⟩ := List.cons.inj hcs'
                  rw [← hc1]
                  exact hzip'.1)
            exact ih st₁ st' h hdc.2 hnd.2
              (fun q hq => heqs q (List.mem_cons_of_mem _ hq)) hzip'.2 hinv' hsem₁
          · have hch' : SsaOp.hasChoice op = false := by
              cases hhc : SsaOp.hasChoice op
              · rfl
              · exact absurd hhc hch
            have hcs₁ : st₁.choices = st.choices := hchs.2 hch'
            have hzip' : ZipC I σ rest st₁.choices := by
              rw [hcs₁]
              simp only [ZipC, hch'] at hzip
              exact hzip
            have hsem₁ : SemInv I σ st₁ :=
              hsemStep I σ hsem (heqs op (List.mem_cons_self _ _))
                (fun c' cs' _ hf => absurd hf hch)
            exact ih st₁ st' h hdc.2 hnd.2
              (fun q hq => heqs q (List.mem_cons_of_mem _ hq)) hzip' hinv' hsem₁

/-- Whole-run choice-list arithmetic: the run drops exactly one choice per
choice-bearing op of the suffix. -/
theorem loop_choices :
    ∀ (todo : List (SsaOp α)) (st st' : LoopSt α),
      simplifyLoop todo st = some st' →
      st'.choices = st.choices.drop (todo.countP SsaOp.hasChoice) := by
  intro todo
  induction todo with
  | nil =>
      intro st st' h
      have hst := Option.some.inj h
      subst hst
      simp [List.countP_nil]
  | cons op rest ih =>
      intro st st' h
      cases hs : simplifyStep op st with
      | none => rw [simplifyLoop, hs] at h; exact Option.noConfusion h
      | some st₁ =>
          rw [simplifyLoop, hs] at h
          have hchs := step_choices op st st₁ hs
          by_cases hch : SsaOp.hasChoice op = true
          · obtain ⟨c, hc⟩ := hchs.1 hch
            rw [ih st₁ st' h, List.countP_cons, if_pos hch, hc]
            simp [List.drop_succ_cons]
          · have hch' : SsaOp.hasChoice op = false := by
              cases hhc : SsaOp.hasChoice op
              · rfl
              · exact absurd hhc hch
            rw [ih st₁ st' h, hchs.2 hch', List.countP_cons, hch']
            simp

/-- Turn the split-based dependency condition into `DepC`. -/
theorem depC_of_splits :
    ∀ (l : List (SsaOp α)),
      (∀ l₁ e l₂, l = l₁ ++ e :: l₂ → ∀ a ∈ SsaOp.inputs e, a ∈ outs l₂) →
      DepC l := by
  intro l
  induction l with
  | nil => intro _; trivial
  | cons op rest ih =>
      intro h
      refine ⟨h [] op rest rfl, ih ?_⟩
      intro l₁ e l₂ hs
      exact h (op :: l₁) e l₂ (by rw [hs]; rfl)

/-- Consequences of the structural invariant once the suffix is empty. -/
theorem InvS_final (st : LoopSt α) (h : InvS ([] : List (SsaOp α)) st) :
    st.opsOut ≠ [] ∧
    st.opsOut.length = st.ws.count ∧
    (outs st.opsOut).Nodup ∧
    (∀ j, j ∈ outs st.opsOut ↔ j < st.ws.count) ∧
    DepC st.opsOut ∧
    (∀ e l, st.opsOut = e :: l → SsaOp.output e = 0) ∧
    st.opsOut.countP SsaOp.hasChoice = st.choiceCount := by
  have hnoOwns : ∀ s j, ¬ Owns st.ws.bind ([] : List (SsaOp α)) s j := by
    rintro s j ⟨-, hmem⟩
    exact List.not_mem_nil s hmem
  have hmemiff : ∀ j, j ∈ outs st.opsOut ↔ j < st.ws.count := by
    intro j
    constructor
    · intro hm
      obtain ⟨q, hq, hqo⟩ := List.mem_map.mp hm
      exact hqo ▸ h.outLt q hq
    · intro hj
      rcases h.part j hj with ⟨hm, -⟩ | ⟨-, s, hOwns, -⟩
      · exact hm
      · exact absurd hOwns (hnoOwns s j)
  have hne : st.opsOut ≠ [] := by
    intro hemp
    have hc1 : st.ws.count = 1 := h.fc hemp
    have h0 : (0 : Nat) ∈ outs st.opsOut := (hmemiff 0).mpr (by omega)
    rw [hemp] at h0
    exact List.not_mem_nil 0 h0
  have hlen : st.opsOut.length = st.ws.count := by
    have hft : (outs st.opsOut).toFinset = Finset.range st.ws.count := by
      ext j
      simp only [List.mem_toFinset, Finset.mem_range]
      exact hmemiff j
    have hcard : (outs st.opsOut).toFinset.card = (outs st.opsOut).length :=
      List.toFinset_card_of_nodup h.emNodup
    have hol : (outs st.opsOut).length = st.opsOut.length := List.length_map _ _
    rw [← hol, ← hcard, hft, Finset.card_range]
  have hdc : DepC st.opsOut := by
    apply depC_of_splits
    intro l₁ e l₂ hs a ha
    rcases h.dep l₁ e l₂ hs a ha with hm | ⟨s, hOwns⟩
    · exact hm
    · exact absurd hOwns (hnoOwns s a)
  exact ⟨hne, hlen, h.emNodup, hmemiff, hdc, h.fo, h.ccEq⟩

/-- The initial loop state satisfies the structural invariant. -/
theorem InvS_init (op0 : SsaOp α) (rest : List (SsaOp α))
    (choicesR : List Choice) (hroot : SsaOp.output op0 = 0) :
    InvS (op0 :: rest)
      { ws := { bind := fun j => if j = SsaOp.output op0 then some 0 else none,
                count := 1 },
        choices := choicesR, choiceCount := 0, opsOut := [] } := by
  refine ⟨?_, ?_, List.nodup_nil, ?_, ?_, fun _ => rfl, ?_, rfl⟩
  · intro s j hh
    dsimp only at hh
    by_cases hs : s = SsaOp.output op0
    · rw [if_pos hs] at hh
      have hj : (0 : Nat) = j := Option.some.inj hh
      show j < 1
      omega
    · rw [if_neg hs] at hh
      cases hh
  · intro e he
    exact absurd he (List.not_mem_nil e)
  · intro j hj
    have hj' : j < 1 := hj
    have hj0 : j = 0 := by omega
    subst hj0
    refine Or.inr ⟨List.not_mem_nil 0, SsaOp.output op0, ⟨?_, ?_⟩, ?_⟩
    · dsimp only
      rw [if_pos rfl]
    · rw [outs_cons]
      exact List.mem_cons_self _ _
    · rintro s' ⟨hb, -⟩
      dsimp only at hb
      by_cases hs : s' = SsaOp.output op0
      · exact hs
      · rw [if_neg hs] at hb
        cases hb
  · intro l₁ e l₂ hsplit
    exact absurd hsplit (by simp)
  · intro e l hh
    exact absurd hh (by simp)

/-- The initial loop state satisfies the semantic invariant. -/
theorem SemInv_init (I : Interp α) (σ : Nat → α) (op0 : SsaOp α)
    (choicesR : List Choice) (opsO : List (SsaOp α)) (hopsO : opsO = []) :
    SemInv I σ
      { ws := { bind := fun j => if j = SsaOp.output op0 then some 0 else none,
                count := 1 },
        choices := choicesR, choiceCount := 0, opsOut := opsO } := by
  constructor
  · intro s s' j hs hs'
    dsimp only at hs hs'
    by_cases h1 : s = SsaOp.output op0
    · by_cases h2 : s' = SsaOp.output op0
      · rw [h1, h2]
      · rw [if_neg h2] at hs'
        cases hs'
    · rw [if_neg h1] at hs
      cases hs
  · intro v' _ e he
    rw [hopsO] at he
    exact absurd he (List.not_mem_nil e)

/-- Definitional unfolding of `VmData::simplify` into its control-flow
skeleton. -/
theorem simplify_unfold (n : Nat) (d : VmDataL α) (choices : List Choice)
    (ws : WorkspaceL) (scr : VmDataL α) :
    d.simplify n choices ws scr =
      if choices.length ≠ d.ssa.choice_count then
        (.err (.BadChoiceSlice choices.length d.ssa.choice_count), ws, scr)
      else
        match d.ssa.tape with
        | [] => (.panicked, { bind := fun _ => none, count := 0 }, scratchOf scr)
        | op0 :: rest =>
            if SsaOp.output op0 ≠ 0 then
              (.panicked, { bind := fun _ => none, count := 0 }, scratchOf scr)
            else
              match simplifyLoop (op0 :: rest) (initState op0 choices) with
              | none => (.panicked, (initState op0 choices).ws, scratchOf scr)
              | some st =>
                  if st.ws.count ≠ st.opsOut.length then
                    (.panicked, st.ws, scratchOf scr)
                  else
                    (.ok { ssa := { tape := st.opsOut,
                                    choice_count := st.choiceCount,
                                    vars := d.ssa.vars },
                           asm := allocateTape n st.opsOut },
                     st.ws, scratchOf scr) := rfl

/-- Unfolding of `VmData::simplify` on the success path. -/
theorem simplify_ok_elim {n : Nat} {d : VmDataL α} {choices : List Choice}
    {ws : WorkspaceL} {scr : VmDataL α} {d' : VmDataL α} {ws' : WorkspaceL}
    {scr' : VmDataL α}
    (hok : d.simplify n choices ws scr = (.ok d', ws', scr')) :
    choices.length = d.ssa.choice_count ∧
    ∃ op0 rest stF,
      d.ssa.tape = op0 :: rest ∧ SsaOp.output op0 = 0 ∧
      simplifyLoop (op0 :: rest) (initState op0 choices) = some stF ∧
      stF.ws.count = stF.opsOut.length ∧
      d' = { ssa := { tape := stF.opsOut, choice_count := stF.choiceCount,
                      vars := d.ssa.vars },
             asm := allocateTape n stF.opsOut } ∧
      ws' = stF.ws := by
  rw [simplify_unfold] at hok
  by_cases hlen : choices.length ≠ d.ssa.choice_count
  · rw [if_pos hlen] at hok
    exact Outcome.noConfusion (congrArg Prod.fst hok)
  · rw [if_neg hlen] at hok
    refine ⟨not_not.mp hlen, ?_⟩
    cases htape : d.ssa.tape with
    | nil =>
        rw [htape] at hok
        dsimp only at hok
        exact Outcome.noConfusion (congrArg Prod.fst hok)
    | cons op0 rest =>
        rw [htape] at hok
        dsimp only at hok
        by_cases hroot : SsaOp.output op0 ≠ 0
        · rw [if_pos hroot] at hok
          exact Outcome.noConfusion (congrArg Prod.fst hok)
        · rw [if_neg hroot] at hok
          cases hloop : simplifyLoop (op0 :: rest) (initState op0 choices) with
          | none =>
              rw [hloop] at hok
              dsimp only at hok
              exact Outcome.noConfusion (congrArg Prod.fst hok)
          | some stF =>
              rw [hloop] at hok
              dsimp only at hok
              by_cases hassert : stF.ws.count ≠ stF.opsOut.length
              · rw [if_pos hassert] at hok
                exact Outcome.noConfusion (congrArg Prod.fst hok)
              · rw [if_neg hassert] at hok
                refine ⟨op0, rest, stF, rfl, not_not.mp hroot, hloop,
                  not_not.mp hassert, ?_, ?_⟩
                · exact (Outcome.ok.inj (congrArg Prod.fst hok)).symm
                · exact (congrArg (fun p => p.2.1) hok).symm

/-- Structural facts about the tape produced by any successful
`simplify` run on a well-formed source tape. -/
theorem simplify_ok_facts {n : Nat} {d : VmDataL α} {choices : List Choice}
    {ws : WorkspaceL} {scr : VmDataL α} {d' : VmDataL α} {ws' : WorkspaceL}
    {scr' : VmDataL α}
    (hok : d.simplify n choices ws scr = (.ok d', ws', scr'))
    (hdc : DepC d.ssa.tape) (hnod : (outs d.ssa.tape).Nodup) :
    d'.ssa.tape ≠ [] ∧
    (outs d'.ssa.tape).Nodup ∧
    (∀ j, j ∈ outs d'.ssa.tape ↔ j < d'.ssa.tape.length) ∧
    DepC d'.ssa.tape ∧
    (∀ e l, d'.ssa.tape = e :: l → SsaOp.output e = 0) ∧
    d'.ssa.tape.countP SsaOp.hasChoice = d'.ssa.choice_count := by
  obtain ⟨hlen, op0, rest, stF, htape, hroot, hloop, hassert, hd', hws'⟩ :=
    simplify_ok_elim hok
  rw [htape] at hdc hnod
  have hinv0 : InvS (op0 :: rest) (initState op0 choices) :=
    InvS_init op0 rest choices.reverse hroot
  obtain ⟨hfin, -⟩ := loopStructural (op0 :: rest) _ stF hloop hdc hnod hinv0
  obtain ⟨hne, hlen2, hnd2, hmem2, hdc2, hfo2, hcc2⟩ := InvS_final stF hfin
  rw [hassert] at hmem2
  rw [hd']
  exact ⟨hne, hnd2, hmem2, hdc2, hfo2, hcc2⟩

/-- C1 of the claims: under a correct choice vector, the simplified SSA
tape evaluates to the same value as the source SSA tape. -/
theorem simplify_preserves_value (n : Nat) (I : Interp α) (d : VmDataL α)
    (choices : List Choice) (ws : WorkspaceL) (scr : VmDataL α)
    (d' : VmDataL α) (ws' : WorkspaceL) (scr' : VmDataL α)
    (hdc : DepC d.ssa.tape)
    (hnod : (outs d.ssa.tape).Nodup)
    (hzip : ZipC I (evalTape I d.ssa.tape (fun _ => I.dflt)) d.ssa.tape
      choices.reverse)
    (hok : d.simplify n choices ws scr = (.ok d', ws', scr')) :
    tapeVal I d'.ssa.tape = tapeVal I d.ssa.tape := by
  classical
  obtain ⟨hlen, op0, rest, stF, htape, hroot, hloop, hassert, hd', hws'⟩ :=
    simplify_ok_elim hok
  have heqs : ∀ op ∈ d.ssa.tape,
      evalTape I d.ssa.tape (fun _ => I.dflt) (SsaOp.output op) =
        opEval I (evalTape I d.ssa.tape (fun _ => I.dflt)) op := by
    intro op hop
    obtain ⟨l₁, l₂, hsplit⟩ := List.append_of_mem hop
    exact evalTape_sat I _ d.ssa.tape hnod hdc l₁ op l₂ hsplit
  rw [htape] at hdc hnod hzip heqs
  set σ : Nat → α := evalTape I (op0 :: rest) (fun _ => I.dflt) with hσ
  have hinv0 : InvS (op0 :: rest) (initState op0 choices) :=
    InvS_init op0 rest choices.reverse hroot
  have hsem0 : SemInv I σ (initState op0 choices) :=
    SemInv_init I σ op0 choices.reverse [] rfl
  obtain ⟨hsemF, -⟩ := loopSem I σ (op0 :: rest) _ stF hloop hdc hnod heqs
    hzip hinv0 hsem0
  obtain ⟨hfinS, hmono⟩ := loopStructural (op0 :: rest) _ stF hloop hdc hnod hinv0
  obtain ⟨hne, hlen2, hnd2, hmem2, hdc2, hfo2, hcc2⟩ := InvS_final stF hfinS
  have hbind0 : (initState op0 choices).ws.bind (SsaOp.output op0) = some 0 := by
    show (if SsaOp.output op0 = SsaOp.output op0 then some 0 else none) = some 0
    rw [if_pos rfl]
  have hroot0 : stF.ws.bind 0 = some 0 := by
    have hh := hmono (SsaOp.output op0) 0 hbind0
    rwa [hroot] at hh
  have hv' : ∃ v' : Nat → α, Compat σ v' stF.ws.bind ∧ v' 0 = σ 0 := by
    refine ⟨fun j => if h : ∃ s, stF.ws.bind s = some j then σ h.choose
      else I.dflt, ?_, ?_⟩
    · intro s j hb
      have hex : ∃ s, stF.ws.bind s = some j := ⟨s, hb⟩
      show (if h : ∃ s, stF.ws.bind s = some j then σ h.choose
        else I.dflt) = σ s
      rw [dif_pos hex]
      exact hsemF.consist hex.choose s j hex.choose_spec hb
    · have hex : ∃ s, stF.ws.bind s = some 0 := ⟨0, hroot0⟩
      show (if h : ∃ s, stF.ws.bind s = some 0 then σ h.choose
        else I.dflt) = σ 0
      rw [dif_pos hex]
      exact hsemF.consist hex.choose 0 0 hex.choose_spec hroot0
  obtain ⟨v', hcompat, hv0⟩ := hv'
  have hsat' : ∀ e ∈ stF.opsOut, v' (SsaOp.output e) = opEval I v' e :=
    hsemF.satAll v' hcompat
  have hsatm : ∀ e ∈ stF.opsOut,
      evalTape I stF.opsOut (fun _ => I.dflt) (SsaOp.output e) =
        opEval I (evalTape I stF.opsOut (fun _ => I.dflt)) e := by
    intro e he
    obtain ⟨l₁, l₂, hsplit⟩ := List.append_of_mem he
    exact evalTape_sat I _ stF.opsOut hnd2 hdc2 l₁ e l₂ hsplit
  have hagree := eval_unique I stF.opsOut hnd2 hdc2 _ v' hsatm hsat'
  cases hops : stF.opsOut with
  | nil => exact absurd hops hne
  | cons e₀ tl =>
      have he0 : SsaOp.output e₀ = 0 := hfo2 e₀ tl hops
      have h00 := hagree e₀ (by rw [hops]; exact List.mem_cons_self _ _)
      rw [he0] at h00
      have hgoal : evalTape I stF.opsOut (fun _ => I.dflt) 0 = σ 0 := by
        rw [h00, hv0]
      rw [hd', htape]
      exact hgoal


/-- Emission behavior of one step: either nothing is appended (dead op or
alias) and the counter is unchanged, or exactly one op is appended; the
appended op is choice-bearing — and the counter incremented — exactly when
the source op was a live min/max resolved as `Both`. -/
theorem step_emissions (op : SsaOp α) (st st' : LoopSt α)
    (hstep : simplifyStep op st = some st') :
    (st'.opsOut = st.opsOut ∧ st'.choiceCount = st.choiceCount) ∨
    (∃ e, st'.opsOut = st.opsOut ++ [e] ∧
      st'.choiceCount = st.choiceCount +
        (if SsaOp.hasChoice e then 1 else 0) ∧
      (SsaOp.hasChoice e = true → SsaOp.hasChoice op = true ∧
        ∃ cs, st.choices = Choice.Both :: cs)) := by
  cases hact : st.ws.bind (SsaOp.output op) with
  | none =>
      simp only [simplifyStep, WorkspaceL.active, hact] at hstep
      by_cases hch : SsaOp.hasChoice op = true
      · rw [if_pos hch] at hstep
        cases hcs : st.choices with
        | nil => rw [hcs] at hstep; exact Option.noConfusion hstep
        | cons c cs =>
            rw [hcs] at hstep
            have hst := Option.some.inj hstep
            subst hst
            exact Or.inl ⟨rfl, rfl⟩
      · rw [if_neg hch] at hstep
        have hst := Option.some.inj hstep
        subst hst
        exact Or.inl ⟨rfl, rfl⟩
  | some j₀ =>
    cases op with
    | Input o ax =>
        simp only [simplifyStep, WorkspaceL.active, hact] at hstep
        have hst := Option.some.inj hstep
        subst hst
        exact Or.inr ⟨_, rfl, by simp [SsaOp.hasChoice, emitOp], fun h => (nomatch h)⟩
    | Var o v =>
        simp only [simplifyStep, WorkspaceL.active, hact] at hstep
        have hst := Option.some.inj hstep
        subst hst
        exact Or.inr ⟨_, rfl, by simp [SsaOp.hasChoice, emitOp], fun h => (nomatch h)⟩
    | CopyImm o imm =>
        simp only [simplifyStep, WorkspaceL.active, hact] at hstep
        have hst := Option.some.inj hstep
        subst hst
        exact Or.inr ⟨_, rfl, by simp [SsaOp.hasChoice, emitOp], fun h => (nomatch h)⟩
    | NegReg o a =>
        simp only [simplifyStep, WorkspaceL.active, hact] at hstep
        have hst := Option.some.inj hstep
        subst hst
        exact Or.inr ⟨_, rfl, by simp [SsaOp.hasChoice, emitOp], fun h => (nomatch h)⟩
    | AbsReg o a =>
        simp only [simplifyStep, WorkspaceL.active, hact] at hstep
        have hst := Option.some.inj hstep
        subst hst
        exact Or.inr ⟨_, rfl, by simp [SsaOp.hasChoice, emitOp], fun h => (nomatch h)⟩
    | RecipReg o a =>
        simp only [simplifyStep, WorkspaceL.active, hact] at hstep
        have hst := Option.some.inj hstep
        subst hst
        exact Or.inr ⟨_, rfl, by simp [SsaOp.hasChoice, emitOp], fun h => (nomatch h)⟩
    | SqrtReg o a =>
        simp only [simplifyStep, WorkspaceL.active, hact] at hstep
        have hst := Option.some.inj hstep
        subst hst
        exact Or.inr ⟨_, rfl, by simp [SsaOp.hasChoice, emitOp], fun h => (nomatch h)⟩
    | SquareReg o a =>
        simp only [simplifyStep, WorkspaceL.active, hact] at hstep
        have hst := Option.some.inj hstep
        subst hst
        exact Or.inr ⟨_, rfl, by simp [SsaOp.hasChoice, emitOp], fun h => (nomatch h)⟩
    | SinReg o a =>
        simp only [simplifyStep, WorkspaceL.active, hact] at hstep
        have hst := Option.some.inj hstep
        subst hst
        exact Or.inr ⟨_, rfl, by simp [SsaOp.hasChoice, emitOp], fun h => (nomatch h)⟩
    | CosReg o a =>
        simp only [simplifyStep, WorkspaceL.active, hact] at hstep
        have hst := Option.some.inj hstep
        subst hst
        exact Or.inr ⟨_, rfl, by simp [SsaOp.hasChoice, emitOp], fun h => (nomatch h)⟩
    | TanReg o a =>
        simp only [simplifyStep, WorkspaceL.active, hact] at hstep
        have hst := Option.some.inj hstep
        subst hst
        exact Or.inr ⟨_, rfl, by simp [SsaOp.hasChoice, emitOp], fun h => (nomatch h)⟩
    | AsinReg o a =>
        simp only [simplifyStep, WorkspaceL.active, hact] at hstep
        have hst := Option.some.inj hstep
        subst hst
        exact Or.inr ⟨_, rfl, by simp [SsaOp.hasChoice, emitOp], fun h => (nomatch h)⟩
    | AcosReg o a =>
        simp only [simplifyStep, WorkspaceL.active, hact] at hstep
        have hst := Option.some.inj hstep
        subst hst
        exact Or.inr ⟨_, rfl, by simp [SsaOp.hasChoice, emitOp], fun h => (nomatch h)⟩
    | AtanReg o a =>
        simp only [simplifyStep, WorkspaceL.active, hact] at hstep
        have hst := Option.some.inj hstep
        subst hst
        exact Or.inr ⟨_, rfl, by simp [SsaOp.hasChoice, emitOp], fun h => (nomatch h)⟩
    | ExpReg o a =>
        simp only [simplifyStep, WorkspaceL.active, hact] at hstep
        have hst := Option.some.inj hstep
        subst hst
        exact Or.inr ⟨_, rfl, by simp [SsaOp.hasChoice, emitOp], fun h => (nomatch h)⟩
    | LnReg o a =>
        simp only [simplifyStep, WorkspaceL.active, hact] at hstep
        have hst := Option.some.inj hstep
        subst hst
        exact Or.inr ⟨_, rfl, by simp [SsaOp.hasChoice, emitOp], fun h => (nomatch h)⟩
    | CopyReg o src =>
        cases hsrc : st.ws.bind src with
        | some newSrc =>
            simp only [simplifyStep, WorkspaceL.active, hact, hsrc] at hstep
            have hst := Option.some.inj hstep
            subst hst
            exact Or.inr ⟨_, rfl, by simp [SsaOp.hasChoice, emitOp], fun h => (nomatch h)⟩
        | none =>
            simp only [simplifyStep, WorkspaceL.active, hact, hsrc] at hstep
            have hst := Option.some.inj hstep
            subst hst
            exact Or.inl ⟨rfl, rfl⟩
    | MinRegImm o a imm =>
        cases hcs : st.choices with
        | nil =>
            simp only [simplifyStep, WorkspaceL.active, hact, hcs] at hstep
            exact Option.noConfusion hstep
        | cons c cs =>
          cases c with
          | Left =>
              cases hsrc : st.ws.bind a with
              | some newArg =>
                  simp only [simplifyStep, WorkspaceL.active, hact, hcs, hsrc] at hstep
                  have hst := Option.some.inj hstep
                  subst hst
                  exact Or.inr ⟨_, rfl, by simp [SsaOp.hasChoice, emitOp],
                    fun h => (nomatch h)⟩
              | none =>
                  simp only [simplifyStep, WorkspaceL.active, hact, hcs, hsrc] at hstep
                  have hst := Option.some.inj hstep
                  subst hst
                  exact Or.inl ⟨rfl, rfl⟩
          | Right =>
              simp only [simplifyStep, WorkspaceL.active, hact, hcs] at hstep
              have hst := Option.some.inj hstep
              subst hst
              exact Or.inr ⟨_, rfl, by simp [SsaOp.hasChoice, emitOp],
                fun h => (nomatch h)⟩
          | Both =>
              simp only [simplifyStep, WorkspaceL.active, hact, hcs] at hstep
              have hst := Option.some.inj hstep
              subst hst
              exact Or.inr ⟨_, rfl, by simp [SsaOp.hasChoice, emitOp],
                fun _ => ⟨rfl, cs, rfl⟩⟩
          | Unknown =>
              simp only [simplifyStep, WorkspaceL.active, hact, hcs] at hstep
              exact Option.noConfusion hstep
    | MaxRegImm o a imm =>
        cases hcs : st.choices with
        | nil =>
            simp only [simplifyStep, WorkspaceL.active, hact, hcs] at hstep
            exact Option.noConfusion hstep
        | cons c cs =>
          cases c with
          | Left =>
              cases hsrc : st.ws.bind a with
              | some newArg =>
                  simp only [simplifyStep, WorkspaceL.active, hact, hcs, hsrc] at hstep
                  have hst := Option.some.inj hstep
                  subst hst
                  exact Or.inr ⟨_, rfl, by simp [SsaOp.hasChoice, emitOp],
                    fun h => (nomatch h)⟩
              | none =>
                  simp only [simplifyStep, WorkspaceL.active, hact, hcs, hsrc] at hstep
                  have hst := Option.some.inj hstep
                  subst hst
                  exact Or.inl ⟨rfl, rfl⟩
          | Right =>
              simp only [simplifyStep, WorkspaceL.active, hact, hcs] at hstep
              have hst := Option.some.inj hstep
              subst hst
              exact Or.inr ⟨_, rfl, by simp [SsaOp.hasChoice, emitOp],
                fun h => (nomatch h)⟩
          | Both =>
              simp only [simplifyStep, WorkspaceL.active, hact, hcs] at hstep
              have hst := Option.some.inj hstep
              subst hst
              exact Or.inr ⟨_, rfl, by simp [SsaOp.hasChoice, emitOp],
                fun _ => ⟨rfl, cs, rfl⟩⟩
          | Unknown =>
              simp only [simplifyStep, WorkspaceL.active, hact, hcs] at hstep
              exact Option.noConfusion hstep
    | MinRegReg o l rr =>
        cases hcs : st.choices with
        | nil =>
            simp only [simplifyStep, WorkspaceL.active, hact, hcs] at hstep
            exact Option.noConfusion hstep
        | cons c cs =>
          cases c with
          | Left =>
              cases hsrc : st.ws.bind l with
              | some newLhs =>
                  simp only [simplifyStep, WorkspaceL.active, hact, hcs, hsrc] at hstep
                  have hst := Option.some.inj hstep
                  subst hst
                  exact Or.inr ⟨_, rfl, by simp [SsaOp.hasChoice, emitOp],
                    fun h => (nomatch h)⟩
              | none =>
                  simp only [simplifyStep, WorkspaceL.active, hact, hcs, hsrc] at hstep
                  have hst := Option.some.inj hstep
                  subst hst
                  exact Or.inl ⟨rfl, rfl⟩
          | Right =>
              cases hsrc : st.ws.bind rr with
              | some newRhs =>
                  simp only [simplifyStep, WorkspaceL.active, hact, hcs, hsrc] at hstep
                  have hst := Option.some.inj hstep
                  subst hst
                  exact Or.inr ⟨_, rfl, by simp [SsaOp.hasChoice, emitOp],
                    fun h => (nomatch h)⟩
              | none =>
                  simp only [simplifyStep, WorkspaceL.active, hact, hcs, hsrc] at hstep
                  have hst := Option.some.inj hstep
                  subst hst
                  exact Or.inl ⟨rfl, rfl⟩
          | Both =>
              simp only [simplifyStep, WorkspaceL.active, hact, hcs] at hstep
              have hst := Option.some.inj hstep
              subst hst
              exact Or.inr ⟨_, rfl, by simp [SsaOp.hasChoice, emitOp],
                fun _ => ⟨rfl, cs, rfl⟩⟩
          | Unknown =>
              simp only [simplifyStep, WorkspaceL.active, hact, hcs] at hstep
              exact Option.noConfusion hstep
    | MaxRegReg o l rr =>
        cases hcs : st.choices with
        | nil =>
            simp only [simplifyStep, WorkspaceL.active, hact, hcs] at hstep
            exact Option.noConfusion hstep
        | cons c cs =>
          cases c with
          | Left =>
              cases hsrc : st.ws.bind l with
              | some newLhs =>
                  simp only [simplifyStep, WorkspaceL.active, hact, hcs, hsrc] at hstep
                  have hst := Option.some.inj hstep
                  subst hst
                  exact Or.inr ⟨_, rfl, by simp [SsaOp.hasChoice, emitOp],
                    fun h => (nomatch h)⟩
              | none =>
                  simp only [simplifyStep, WorkspaceL.active, hact, hcs, hsrc] at hstep
                  have hst := Option.some.inj hstep
                  subst hst
                  exact Or.inl ⟨rfl, rfl⟩
          | Right =>
              cases hsrc : st.ws.bind rr with
              | some newRhs =>
                  simp only [simplifyStep, WorkspaceL.active, hact, hcs, hsrc] at hstep
                  have hst := Option.some.inj hstep
                  subst hst
                  exact Or.inr ⟨_, rfl, by simp [SsaOp.hasChoice, emitOp],
                    fun h => (nomatch h)⟩
              | none =>
                  simp only [simplifyStep, WorkspaceL.active, hact, hcs, hsrc] at hstep
                  have hst := Option.some.inj hstep
                  subst hst
                  exact Or.inl ⟨rfl, rfl⟩
          | Both =>
              simp only [simplifyStep, WorkspaceL.active, hact, hcs] at hstep
              have hst := Option.some.inj hstep
              subst hst
              exact Or.inr ⟨_, rfl, by simp [SsaOp.hasChoice, emitOp],
                fun _ => ⟨rfl, cs, rfl⟩⟩
          | Unknown =>
              simp only [simplifyStep, WorkspaceL.active, hact, hcs] at hstep
              exact Option.noConfusion hstep
    | AddRegReg o l rr =>
        simp only [simplifyStep, WorkspaceL.active, hact] at hstep
        have hst := Option.some.inj hstep
        subst hst
        exact Or.inr ⟨_, rfl, by simp [SsaOp.hasChoice, emitOp], fun h => (nomatch h)⟩
    | MulRegReg o l rr =>
        simp only [simplifyStep, WorkspaceL.active, hact] at hstep
        have hst := Option.some.inj hstep
        subst hst
        exact Or.inr ⟨_, rfl, by simp [SsaOp.hasChoice, emitOp], fun h => (nomatch h)⟩
    | SubRegReg o l rr =>
        simp only [simplifyStep, WorkspaceL.active, hact] at hstep
        have hst := Option.some.inj hstep
        subst hst
        exact Or.inr ⟨_, rfl, by simp [SsaOp.hasChoice, emitOp], fun h => (nomatch h)⟩
    | DivRegReg o l rr =>
        simp only [simplifyStep, WorkspaceL.active, hact] at hstep
        have hst := Option.some.inj hstep
        subst hst
        exact Or.inr ⟨_, rfl, by simp [SsaOp.hasChoice, emitOp], fun h => (nomatch h)⟩
    | AddRegImm o a imm =>
        simp only [simplifyStep, WorkspaceL.active, hact] at hstep
        have hst := Option.some.inj hstep
        subst hst
        exact Or.inr ⟨_, rfl, by simp [SsaOp.hasChoice, emitOp], fun h => (nomatch h)⟩
    | MulRegImm o a imm =>
        simp only [simplifyStep, WorkspaceL.active, hact] at hstep
        have hst := Option.some.inj hstep
        subst hst
        exact Or.inr ⟨_, rfl, by simp [SsaOp.hasChoice, emitOp], fun h => (nomatch h)⟩
    | SubRegImm o a imm =>
        simp only [simplifyStep, WorkspaceL.active, hact] at hstep
        have hst := Option.some.inj hstep
        subst hst
        exact Or.inr ⟨_, rfl, by simp [SsaOp.hasChoice, emitOp], fun h => (nomatch h)⟩
    | SubImmReg o a imm =>
        simp only [simplifyStep, WorkspaceL.active, hact] at hstep
        have hst := Option.some.inj hstep
        subst hst
        exact Or.inr ⟨_, rfl, by simp [SsaOp.hasChoice, emitOp], fun h => (nomatch h)⟩
    | DivRegImm o a imm =>
        simp only [simplifyStep, WorkspaceL.active, hact] at hstep
        have hst := Option.some.inj hstep
        subst hst
        exact Or.inr ⟨_, rfl, by simp [SsaOp.hasChoice, emitOp], fun h => (nomatch h)⟩
    | DivImmReg o a imm =>
        simp only [simplifyStep, WorkspaceL.active, hact] at hstep
        have hst := Option.some.inj hstep
        subst hst
        exact Or.inr ⟨_, rfl, by simp [SsaOp.hasChoice, emitOp], fun h => (nomatch h)⟩

/-- The rewritten main op is never a spill op. -/
theorem mapRegs_not_ls (op : SsaOp α) (d : Nat) (ins : List Nat) :
    RegOp.isLoadStore (mapRegs op d ins) = false := by
  cases op <;> rfl

/-- A list of spill ops contributes nothing to the non-spill count. -/
theorem countP_nonls_zero {l : List (RegOp α)}
    (h : ∀ x ∈ l, RegOp.isLoadStore x = true) :
    l.countP (fun x => !(RegOp.isLoadStore x)) = 0 := by
  induction l with
  | nil => rfl
  | cons x xs ih =>
      rw [List.countP_cons]
      have hx : RegOp.isLoadStore x = true := h x (List.mem_cons_self _ _)
      rw [ih (fun y hy => h y (List.mem_cons_of_mem _ hy))]
      simp [hx]

/-- Register-tape length splits into spill ops and main ops. -/
theorem length_eq_ls_add_nonls (l : List (RegOp α)) :
    l.length = l.countP RegOp.isLoadStore +
      l.countP (fun x => !(RegOp.isLoadStore x)) := by
  induction l with
  | nil => rfl
  | cons x xs ih =>
      rw [List.length_cons, List.countP_cons, List.countP_cons, ih]
      cases hx : RegOp.isLoadStore x <;> simp [hx] <;> omega

/-- `getFreeReg` does not touch the output stream and only produces
`Store` spills. -/
theorem evictVictim_out (st : AllocSt α) (victim : Nat) :
    (evictVictim st victim).2.1.out = st.out ∧
    ∀ x ∈ (evictVictim st victim).2.2, RegOp.isLoadStore x = true := by
  unfold evictVictim
  cases hc : st.contents victim with
  | none =>
      exact ⟨rfl, by intro x hx; exact absurd hx (List.not_mem_nil x)⟩
  | some s =>
      cases hm : st.freeMem with
      | cons m ms =>
          refine ⟨rfl, ?_⟩
          intro x hx
          rw [List.mem_singleton] at hx
          rw [hx]
          rfl
      | nil =>
          refine ⟨rfl, ?_⟩
          intro x hx
          rw [List.mem_singleton] at hx
          rw [hx]
          rfl

theorem getFreeReg_out (st : AllocSt α) (fb : List Nat) :
    (getFreeReg st fb).2.1.out = st.out ∧
    ∀ x ∈ (getFreeReg st fb).2.2, RegOp.isLoadStore x = true := by
  unfold getFreeReg
  cases hf : st.free with
  | cons r rest =>
      exact ⟨rfl, by intro x hx; exact absurd hx (List.not_mem_nil x)⟩
  | nil =>
      cases hv : (st.lru.reverse.filter (fun r => !(fb.contains r))).head? with
      | none =>
          exact ⟨rfl, by intro x hx; exact absurd hx (List.not_mem_nil x)⟩
      | some victim =>
          exact evictVictim_out
            { alloc := st.alloc, contents := st.contents, free := [],
              lru := victim :: st.lru.erase victim, freeMem := st.freeMem,
              nextMem := st.nextMem, out := st.out } victim

/-- `ensureReg` does not touch the output stream; its pre-ops are all
spills, as are its post-ops. -/
theorem ensureReg_out (st : AllocSt α) (s : Nat) (fb : List Nat) :
    (ensureReg st s fb).2.1.out = st.out ∧
    (∀ x ∈ (ensureReg st s fb).2.2.1, RegOp.isLoadStore x = true) ∧
    (∀ x ∈ (ensureReg st s fb).2.2.2, RegOp.isLoadStore x = true) := by
  unfold ensureReg
  cases ha : st.alloc s with
  | none =>
      obtain ⟨h1, h2⟩ := getFreeReg_out st fb
      exact ⟨h1, h2, by intro x hx; exact absurd hx (List.not_mem_nil x)⟩
  | some loc =>
      cases loc with
      | reg r =>
          exact ⟨rfl, by intro x hx; exact absurd hx (List.not_mem_nil x),
            by intro x hx; exact absurd hx (List.not_mem_nil x)⟩
      | mem m =>
          obtain ⟨h1, h2⟩ := getFreeReg_out st fb
          refine ⟨h1, h2, ?_⟩
          intro x hx
          rw [List.mem_singleton] at hx
          rw [hx]
          rfl

/-- `allocInputs` does not touch the output stream and only accumulates
spill ops. -/
theorem allocInputs_out (rOut : Nat) :
    ∀ (ins : List Nat)
      (acc : List Nat × AllocSt α × List (RegOp α) × List (RegOp α)),
      (∀ x ∈ acc.2.2.1, RegOp.isLoadStore x = true) →
      (∀ x ∈ acc.2.2.2, RegOp.isLoadStore x = true) →
      (allocInputs rOut ins acc).2.1.out = acc.2.1.out ∧
      (∀ x ∈ (allocInputs rOut ins acc).2.2.1, RegOp.isLoadStore x = true) ∧
      (∀ x ∈ (allocInputs rOut ins acc).2.2.2, RegOp.isLoadStore x = true) := by
  intro ins
  induction ins with
  | nil => intro acc h1 h2; exact ⟨rfl, h1, h2⟩
  | cons s ins' ih =>
      intro acc h1 h2
      obtain ⟨e1, e2, e3⟩ := ensureReg_out acc.2.1 s (rOut :: acc.1)
      have hstep := ih (acc.1 ++ [(ensureReg acc.2.1 s (rOut :: acc.1)).1],
        (ensureReg acc.2.1 s (rOut :: acc.1)).2.1,
        acc.2.2.1 ++ (ensureReg acc.2.1 s (rOut :: acc.1)).2.2.1,
        acc.2.2.2 ++ (ensureReg acc.2.1 s (rOut :: acc.1)).2.2.2)
        (by
          intro x hx
          rcases List.mem_append.mp hx with h | h
          · exact h1 x h
          · exact e2 x h)
        (by
          intro x hx
          rcases List.mem_append.mp hx with h | h
          · exact h2 x h
          · exact e3 x h)
      exact ⟨hstep.1.trans e1, hstep.2.1, hstep.2.2⟩

/-- Processing one op appends a block containing at most one non-spill
op to the output stream. -/
theorem allocOp_shape (st : AllocSt α) (op : SsaOp α) :
    ∃ extra : List (RegOp α), (allocOp st op).out = st.out ++ extra ∧
      extra.countP (fun x => !(RegOp.isLoadStore x)) ≤ 1 := by
  unfold allocOp
  cases ha : st.alloc (SsaOp.output op) with
  | none => exact ⟨[], by simp, by simp⟩
  | some loc =>
      have key : ∀ rOut (st1 : AllocSt α) (pres : List (RegOp α)),
          st1.out = st.out → (∀ x ∈ pres, RegOp.isLoadStore x = true) →
          ∃ extra : List (RegOp α),
            (releaseReg (allocInputs rOut op.inputs
                (([] : List Nat), st1, pres, ([] : List (RegOp α)))).2.1
              (SsaOp.output op) rOut).out ++
              (allocInputs rOut op.inputs
                (([] : List Nat), st1, pres, ([] : List (RegOp α)))).2.2.1 ++
              [mapRegs op rOut (allocInputs rOut op.inputs
                (([] : List Nat), st1, pres, ([] : List (RegOp α)))).1] ++
              (allocInputs rOut op.inputs
                (([] : List Nat), st1, pres, ([] : List (RegOp α)))).2.2.2
            = st.out ++ extra ∧
            extra.countP (fun x => !(RegOp.isLoadStore x)) ≤ 1 := by
        intro rOut st1 pres h1 h2
        obtain ⟨f1, f2, f3⟩ := allocInputs_out rOut op.inputs
          (([] : List Nat), st1, pres, ([] : List (RegOp α))) h2
          (by intro x hx; exact absurd hx (List.not_mem_nil x))
        refine ⟨(allocInputs rOut op.inputs
            (([] : List Nat), st1, pres, ([] : List (RegOp α)))).2.2.1 ++
          [mapRegs op rOut (allocInputs rOut op.inputs
            (([] : List Nat), st1, pres, ([] : List (RegOp α)))).1] ++
          (allocInputs rOut op.inputs
            (([] : List Nat), st1, pres, ([] : List (RegOp α)))).2.2.2, ?_, ?_⟩
        · have hrel : (releaseReg (allocInputs rOut op.inputs
              (([] : List Nat), st1, pres, ([] : List (RegOp α)))).2.1
              (SsaOp.output op) rOut).out = st.out := by
            show (allocInputs rOut op.inputs
              (([] : List Nat), st1, pres, ([] : List (RegOp α)))).2.1.out = st.out
            rw [f1]
            exact h1
          rw [hrel]
          simp [List.append_assoc]
        · rw [List.countP_append, List.countP_append]
          rw [countP_nonls_zero f2, countP_nonls_zero f3]
          have hmain : List.countP (fun x => !(RegOp.isLoadStore x))
              [mapRegs op rOut (allocInputs rOut op.inputs
                (([] : List Nat), st1, pres, ([] : List (RegOp α)))).1] ≤ 1 := by
            rw [List.countP_singleton]
            split <;> omega
          omega
      cases loc with
      | reg r => exact key r st [] rfl (by intro x hx; exact absurd hx (List.not_mem_nil x))
      | mem m =>
          obtain ⟨g1, g2⟩ := getFreeReg_out st ([] : List Nat)
          refine key (getFreeReg st ([] : List Nat)).1
            { (getFreeReg st ([] : List Nat)).2.1 with
                contents := fun q => if q = (getFreeReg st ([] : List Nat)).1
                  then some (SsaOp.output op)
                  else (getFreeReg st ([] : List Nat)).2.1.contents q,
                alloc := fun j => if j = SsaOp.output op
                  then some (.reg (getFreeReg st ([] : List Nat)).1)
                  else (getFreeReg st ([] : List Nat)).2.1.alloc j,
                freeMem := m :: (getFreeReg st ([] : List Nat)).2.1.freeMem }
            ((getFreeReg st ([] : List Nat)).2.2 ++
              [RegOp.Store m (getFreeReg st ([] : List Nat)).1]) g1 ?_
          intro x hx
          rcases List.mem_append.mp hx with h | h
          · exact g2 x h
          · rw [List.mem_singleton] at h
            rw [h]
            rfl

/-- The register tape built by the modelled allocator contains at most
one main op per input SSA op (the rest are spills). -/
theorem allocateTape_nonls_le (n : Nat) (ops : List (SsaOp α)) :
    (allocateTape n ops).tape.countP (fun x => !(RegOp.isLoadStore x)) ≤
      ops.length := by
  have key : ∀ (l : List (SsaOp α)) (st : AllocSt α),
      (l.foldl allocOp st).out.countP (fun x => !(RegOp.isLoadStore x)) ≤
        st.out.countP (fun x => !(RegOp.isLoadStore x)) + l.length := by
    intro l
    induction l with
    | nil => intro st; simp
    | cons op l' ih =>
        intro st
        rw [List.foldl_cons]
        obtain ⟨extra, hout, hcnt⟩ := allocOp_shape st op
        have hstep := ih (allocOp st op)
        rw [hout, List.countP_append] at hstep
        rw [List.length_cons]
        omega
  have h0 := key ops (allocInit n)
  have hinit : (allocInit n : AllocSt α).out.countP
      (fun x => !(RegOp.isLoadStore x)) = 0 := rfl
  rw [hinit] at h0
  simpa using h0

/-- A successful loop run emits at most one op per source op. -/
theorem loop_opsOut_len :
    ∀ (todo : List (SsaOp α)) (st st' : LoopSt α),
      simplifyLoop todo st = some st' →
      st'.opsOut.length ≤ st.opsOut.length + todo.length := by
  intro todo
  induction todo with
  | nil =>
      intro st st' h
      have hst := Option.some.inj h
      subst hst
      simp
  | cons op rest ih =>
      intro st st' h
      cases hs : simplifyStep op st with
      | none => rw [simplifyLoop, hs] at h; exact Option.noConfusion h
      | some st₁ =>
          rw [simplifyLoop, hs] at h
          have hlen := ih st₁ st' h
          rcases step_emissions op st st₁ hs with ⟨he, -⟩ | ⟨e, he, -, -⟩
          · rw [he] at hlen
            rw [List.length_cons]
            omega
          · rw [he, List.length_append] at hlen
            rw [List.length_cons]
            simp at hlen
            omega

/-- Converse emission direction for the choice counter: a live
choice-bearing op whose consumed choice is `Both` always emits exactly one
op, that op is choice-bearing, and the running counter is incremented
(data.rs lines 199-208, 227-237). -/
theorem step_both_emits (op : SsaOp α) (st st' : LoopSt α) (j : Nat)
    (hstep : simplifyStep op st = some st')
    (hb : st.ws.bind (SsaOp.output op) = some j)
    (hch : SsaOp.hasChoice op = true)
    (cs : List Choice) (hcs : st.choices = Choice.Both :: cs) :
    ∃ e, st'.opsOut = st.opsOut ++ [e] ∧ SsaOp.hasChoice e = true ∧
      st'.choiceCount = st.choiceCount + 1 := by
  cases op with
  | Input o ax => exact absurd hch (by simp [SsaOp.hasChoice])
  | Var o v => exact absurd hch (by simp [SsaOp.hasChoice])
  | CopyImm o imm => exact absurd hch (by simp [SsaOp.hasChoice])
  | NegReg o a => exact absurd hch (by simp [SsaOp.hasChoice])
  | AbsReg o a => exact absurd hch (by simp [SsaOp.hasChoice])
  | RecipReg o a => exact absurd hch (by simp [SsaOp.hasChoice])
  | SqrtReg o a => exact absurd hch (by simp [SsaOp.hasChoice])
  | SquareReg o a => exact absurd hch (by simp [SsaOp.hasChoice])
  | SinReg o a => exact absurd hch (by simp [SsaOp.hasChoice])
  | CosReg o a => exact absurd hch (by simp [SsaOp.hasChoice])
  | TanReg o a => exact absurd hch (by simp [SsaOp.hasChoice])
  | AsinReg o a => exact absurd hch (by simp [SsaOp.hasChoice])
  | AcosReg o a => exact absurd hch (by simp [SsaOp.hasChoice])
  | AtanReg o a => exact absurd hch (by simp [SsaOp.hasChoice])
  | ExpReg o a => exact absurd hch (by simp [SsaOp.hasChoice])
  | LnReg o a => exact absurd hch (by simp [SsaOp.hasChoice])
  | CopyReg o a => exact absurd hch (by simp [SsaOp.hasChoice])
  | AddRegReg o l rr => exact absurd hch (by simp [SsaOp.hasChoice])
  | MulRegReg o l rr => exact absurd hch (by simp [SsaOp.hasChoice])
  | SubRegReg o l rr => exact absurd hch (by simp [SsaOp.hasChoice])
  | DivRegReg o l rr => exact absurd hch (by simp [SsaOp.hasChoice])
  | MinRegReg o l rr =>
      simp only [SsaOp.output] at hb
      simp only [simplifyStep, WorkspaceL.active, SsaOp.output, hb, hcs]
        at hstep
      obtain rfl := Option.some.inj hstep
      exact ⟨_, rfl, rfl, rfl⟩
  | MaxRegReg o l rr =>
      simp only [SsaOp.output] at hb
      simp only [simplifyStep, WorkspaceL.active, SsaOp.output, hb, hcs]
        at hstep
      obtain rfl := Option.some.inj hstep
      exact ⟨_, rfl, rfl, rfl⟩
  | AddRegImm o a imm => exact absurd hch (by simp [SsaOp.hasChoice])
  | MulRegImm o a imm => exact absurd hch (by simp [SsaOp.hasChoice])
  | SubRegImm o a imm => exact absurd hch (by simp [SsaOp.hasChoice])
  | SubImmReg o a imm => exact absurd hch (by simp [SsaOp.hasChoice])
  | DivRegImm o a imm => exact absurd hch (by simp [SsaOp.hasChoice])
  | DivImmReg o a imm => exact absurd hch (by simp [SsaOp.hasChoice])
  | MinRegImm o a imm =>
      simp only [SsaOp.output] at hb
      simp only [simplifyStep, WorkspaceL.active, SsaOp.output, hb, hcs]
        at hstep
      obtain rfl := Option.some.inj hstep
      exact ⟨_, rfl, rfl, rfl⟩
  | MaxRegImm o a imm =>
      simp only [SsaOp.output] at hb
      simp only [simplifyStep, WorkspaceL.active, SsaOp.output, hb, hcs]
        at hstep
      obtain rfl := Option.some.inj hstep
      exact ⟨_, rfl, rfl, rfl⟩

/-! ## Claim theorems -/

/-- C2: `simplify` returns `BadChoiceSlice(got, expected)` exactly when
the choice slice length differs from the source's recorded choice count,
with `got` the supplied length and `expected` the recorded count; with
matching lengths that error is never returned
(data.rs lines 109-114). -/
theorem simplify_badChoiceSlice_iff (n : Nat) (d : VmDataL α)
    (choices : List Choice) (ws : WorkspaceL) (scr : VmDataL α) (g e : Nat) :
    (d.simplify n choices ws scr).1 =
        Outcome.err (ErrorE.BadChoiceSlice g e) ↔
      choices.length ≠ d.ssa.choice_count ∧ g = choices.length ∧
        e = d.ssa.choice_count := by
  rw [simplify_unfold]
  by_cases hlen : choices.length ≠ d.ssa.choice_count
  · rw [if_pos hlen]
    constructor
    · intro h
      have h' := Outcome.err.inj h
      obtain ⟨h1, h2⟩ := ErrorE.BadChoiceSlice.inj h'
      exact ⟨hlen, h1.symm, h2.symm⟩
    · rintro ⟨-, hg, he⟩
      rw [hg, he]
  · rw [if_neg hlen]
    constructor
    · intro h
      exfalso
      revert h
      cases htape : d.ssa.tape with
      | nil =>
          intro h
          exact Outcome.noConfusion h
      | cons op0 rest =>
          dsimp only
          by_cases hroot : SsaOp.output op0 ≠ 0
          · rw [if_pos hroot]
            intro h
            exact Outcome.noConfusion h
          · rw [if_neg hroot]
            cases hloop : simplifyLoop (op0 :: rest) (initState op0 choices) with
            | none =>
                intro h
                exact Outcome.noConfusion h
            | some stF =>
                dsimp only
                by_cases hassert : stF.ws.count ≠ stF.opsOut.length
                · rw [if_pos hassert]
                  intro h
                  exact Outcome.noConfusion h
                · rw [if_neg hassert]
                  intro h
                  exact Outcome.noConfusion h
    · rintro ⟨hc, -, -⟩
      exact absurd hc hlen

/-- C8: on the length-mismatch error path, `simplify` returns before
touching any state: the error carries the two lengths, the workspace and
the scratch `VmData` come back exactly as supplied, and resetting the
returned workspace still yields the clean state
(data.rs lines 109-114; the length check precedes every mutation). -/
theorem simplify_error_no_mutation (n : Nat) (d : VmDataL α)
    (choices : List Choice) (ws : WorkspaceL) (scr : VmDataL α)
    (hlen : choices.length ≠ d.ssa.choice_count) :
    d.simplify n choices ws scr =
      (.err (.BadChoiceSlice choices.length d.ssa.choice_count), ws, scr) ∧
    (d.simplify n choices ws scr).2.1 = ws ∧
    (d.simplify n choices ws scr).2.2 = scr ∧
    ∀ m : Nat, ((d.simplify n choices ws scr).2.1).reset m =
      { bind := fun _ => none, count := 0 } := by
  have h : d.simplify n choices ws scr =
      (.err (.BadChoiceSlice choices.length d.ssa.choice_count), ws, scr) := by
    rw [simplify_unfold, if_pos hlen]
  refine ⟨h, ?_, ?_, ?_⟩
  · rw [h]
  · rw [h]
  · intro m
    rw [h]
    rfl

/-- C8 witness: a concrete mismatching call (1 choice expected, 0
supplied) returns the error and the untouched inputs. -/
theorem simplify_error_no_mutation_witness :
    dC1.simplify 255 [] wsEmpty VmDataL.dfltData =
      (.err (.BadChoiceSlice 0 1), wsEmpty, VmDataL.dfltData) ∧
    (dC1.simplify 255 [] wsEmpty VmDataL.dfltData).2.1 = wsEmpty := by
  have h := simplify_error_no_mutation 255 dC1 [] wsEmpty VmDataL.dfltData
    (by decide)
  exact ⟨h.1, h.2.1⟩

/-- C9 counterexample: a freshly created register tape contains no
`Load`/`Store` operation, yet `slot_count()` reports 1, not 0
(tape.rs lines 15-21: `slot_count` starts at 1). -/
theorem tape_slot_count_counterexample :
    (TapeR.new 8 : TapeR Int).tape.countP RegOp.isLoadStore = 0 ∧
    (TapeR.new 8 : TapeR Int).slotCountFn = 1 ∧
    (TapeR.new 8 : TapeR Int).slotCountFn ≠ 0 := by
  refine ⟨rfl, rfl, ?_⟩
  intro h
  exact Nat.noConfusion h

/-- C9 amended: `slot_count()` returns the stored `slot_count` counter;
`Tape::new` and `Tape::reset` initialize it to 1 (slot 0 is always
accounted for), so an empty tape — which contains no `Load`/`Store` —
reports 1 rather than 0 (tape.rs lines 14-33). -/
theorem tape_new_reset_slot_count (r r' : Nat) (t : TapeR α) :
    (TapeR.new r : TapeR α).slotCountFn = 1 ∧
    (TapeR.new r : TapeR α).tape = [] ∧
    (TapeR.new r : TapeR α).regLimitFn = r ∧
    (t.reset r').slotCountFn = 1 ∧
    (t.reset r').tape = [] ∧
    (t.reset r').regLimitFn = r' :=
  ⟨rfl, rfl, rfl, rfl, rfl, rfl⟩

/-- C10: the derived `Default` for `VmData` has an empty SSA tape; calling
`simplify` on it with an empty choice slice passes the length check
(`0 = 0`) and then panics at the `self.ssa.tape[0]` index instead of
returning a result-shaped error (data.rs lines 52-56 and 109-125). -/
theorem simplify_default_empty_panics :
    (VmDataL.dfltData : VmDataL Int).ssa.tape = [] ∧
    ([] : List Choice).length = (VmDataL.dfltData : VmDataL Int).ssa.choice_count ∧
    (VmDataL.simplify 255 (VmDataL.dfltData : VmDataL Int) [] wsEmpty
      VmDataL.dfltData).1 = Outcome.panicked ∧
    ∀ er : ErrorE, (VmDataL.simplify 255 (VmDataL.dfltData : VmDataL Int) []
      wsEmpty VmDataL.dfltData).1 ≠ Outcome.err er := by
  refine ⟨rfl, rfl, rfl, ?_⟩
  intro er h
  have h' : Outcome.panicked = Outcome.err er := h
  exact Outcome.noConfusion h'

/-- C3: rewriting of live winner-resolved ops.  For `MinRegImm`/
`MaxRegImm` with choice `Right` the immediate wins and `CopyImm(new_i,
imm)` is emitted.  For a register-side win (`Left` on any choice op,
`Right` on `MinRegReg`/`MaxRegReg`): if the winning slot is already
active, `CopyReg(new_i, new_arg)` is emitted; otherwise nothing is
emitted and the winning slot is aliased to `new_i`.  `CopyReg` ops get
the same emit-or-alias treatment (data.rs lines 169-238). -/
theorem simplify_winner_rewrites (st : LoopSt α) (j₀ : Nat) :
    (∀ o a (imm : α) cs, st.ws.bind o = some j₀ →
      st.choices = Choice.Right :: cs →
      simplifyStep (SsaOp.MinRegImm o a imm) st =
        some (emitOp { st with choices := cs } st.ws (SsaOp.CopyImm j₀ imm))) ∧
    (∀ o a (imm : α) cs, st.ws.bind o = some j₀ →
      st.choices = Choice.Right :: cs →
      simplifyStep (SsaOp.MaxRegImm o a imm) st =
        some (emitOp { st with choices := cs } st.ws (SsaOp.CopyImm j₀ imm))) ∧
    (∀ o a (imm : α) cs a', st.ws.bind o = some j₀ →
      st.choices = Choice.Left :: cs → st.ws.bind a = some a' →
      simplifyStep (SsaOp.MinRegImm o a imm) st =
        some (emitOp { st with choices := cs } st.ws (SsaOp.CopyReg j₀ a'))) ∧
    (∀ o a (imm : α) cs a', st.ws.bind o = some j₀ →
      st.choices = Choice.Left :: cs → st.ws.bind a = some a' →
      simplifyStep (SsaOp.MaxRegImm o a imm) st =
        some (emitOp { st with choices := cs } st.ws (SsaOp.CopyReg j₀ a'))) ∧
    (∀ o a (imm : α) cs, st.ws.bind o = some j₀ →
      st.choices = Choice.Left :: cs → st.ws.bind a = none →
      simplifyStep (SsaOp.MinRegImm o a imm) st =
        some { st with ws := st.ws.setActive a j₀, choices := cs }) ∧
    (∀ o a (imm : α) cs, st.ws.bind o = some j₀ →
      st.choices = Choice.Left :: cs → st.ws.bind a = none →
      simplifyStep (SsaOp.MaxRegImm o a imm) st =
        some { st with ws := st.ws.setActive a j₀, choices := cs }) ∧
    (∀ o l r cs l', st.ws.bind o = some j₀ →
      st.choices = Choice.Left :: cs → st.ws.bind l = some l' →
      simplifyStep (SsaOp.MinRegReg o l r : SsaOp α) st =
        some (emitOp { st with choices := cs } st.ws (SsaOp.CopyReg j₀ l'))) ∧
    (∀ o l r cs l', st.ws.bind o = some j₀ →
      st.choices = Choice.Left :: cs → st.ws.bind l = some l' →
      simplifyStep (SsaOp.MaxRegReg o l r : SsaOp α) st =
        some (emitOp { st with choices := cs } st.ws (SsaOp.CopyReg j₀ l'))) ∧
    (∀ o l r cs r', st.ws.bind o = some j₀ →
      st.choices = Choice.Right :: cs → st.ws.bind r = some r' →
      simplifyStep (SsaOp.MinRegReg o l r : SsaOp α) st =
        some (emitOp { st with choices := cs } st.ws (SsaOp.CopyReg j₀ r'))) ∧
    (∀ o l r cs r', st.ws.bind o = some j₀ →
      st.choices = Choice.Right :: cs → st.ws.bind r = some r' →
      simplifyStep (SsaOp.MaxRegReg o l r : SsaOp α) st =
        some (emitOp { st with choices := cs } st.ws (SsaOp.CopyReg j₀ r'))) ∧
    (∀ o l r cs, st.ws.bind o = some j₀ →
      st.choices = Choice.Left :: cs → st.ws.bind l = none →
      simplifyStep (SsaOp.MinRegReg o l r : SsaOp α) st =
        some { st with ws := st.ws.setActive l j₀, choices := cs }) ∧
    (∀ o l r cs, st.ws.bind o = some j₀ →
      st.choices = Choice.Left :: cs → st.ws.bind l = none →
      simplifyStep (SsaOp.MaxRegReg o l r : SsaOp α) st =
        some { st with ws := st.ws.setActive l j₀, choices := cs }) ∧
    (∀ o l r cs, st.ws.bind o = some j₀ →
      st.choices = Choice.Right :: cs → st.ws.bind r = none →
      simplifyStep (SsaOp.MinRegReg o l r : SsaOp α) st =
        some { st with ws := st.ws.setActive r j₀, choices := cs }) ∧
    (∀ o l r cs, st.ws.bind o = some j₀ →
      st.choices = Choice.Right :: cs → st.ws.bind r = none →
      simplifyStep (SsaOp.MaxRegReg o l r : SsaOp α) st =
        some { st with ws := st.ws.setActive r j₀, choices := cs }) ∧
    (∀ o src src', st.ws.bind o = some j₀ → st.ws.bind src = some src' →
      simplifyStep (SsaOp.CopyReg o src : SsaOp α) st =
        some (emitOp st st.ws (SsaOp.CopyReg j₀ src'))) ∧
    (∀ o src, st.ws.bind o = some j₀ → st.ws.bind src = none →
      simplifyStep (SsaOp.CopyReg o src : SsaOp α) st =
        some { st with ws := st.ws.setActive src j₀ }) := by
  refine ⟨?_, ?_, ?_, ?_, ?_, ?_, ?_, ?_, ?_, ?_, ?_, ?_, ?_, ?_, ?_, ?_⟩
  · intro o a imm cs h1 h2
    simp only [simplifyStep, WorkspaceL.active, SsaOp.output, h1, h2]
  · intro o a imm cs h1 h2
    simp only [simplifyStep, WorkspaceL.active, SsaOp.output, h1, h2]
  · intro o a imm cs a' h1 h2 h3
    simp only [simplifyStep, WorkspaceL.active, SsaOp.output, h1, h2, h3]
  · intro o a imm cs a' h1 h2 h3
    simp only [simplifyStep, WorkspaceL.active, SsaOp.output, h1, h2, h3]
  · intro o a imm cs h1 h2 h3
    simp only [simplifyStep, WorkspaceL.active, SsaOp.output, h1, h2, h3]
  · intro o a imm cs h1 h2 h3
    simp only [simplifyStep, WorkspaceL.active, SsaOp.output, h1, h2, h3]
  · intro o l r cs l' h1 h2 h3
    simp only [simplifyStep, WorkspaceL.active, SsaOp.output, h1, h2, h3]
  · intro o l r cs l' h1 h2 h3
    simp only [simplifyStep, WorkspaceL.active, SsaOp.output, h1, h2, h3]
  · intro o l r cs r' h1 h2 h3
    simp only [simplifyStep, WorkspaceL.active, SsaOp.output, h1, h2, h3]
  · intro o l r cs r' h1 h2 h3
    simp only [simplifyStep, WorkspaceL.active, SsaOp.output, h1, h2, h3]
  · intro o l r cs h1 h2 h3
    simp only [simplifyStep, WorkspaceL.active, SsaOp.output, h1, h2, h3]
  · intro o l r cs h1 h2 h3
    simp only [simplifyStep, WorkspaceL.active, SsaOp.output, h1, h2, h3]
  · intro o l r cs h1 h2 h3
    simp only [simplifyStep, WorkspaceL.active, SsaOp.output, h1, h2, h3]
  · intro o l r cs h1 h2 h3
    simp only [simplifyStep, WorkspaceL.active, SsaOp.output, h1, h2, h3]
  · intro o src src' h1 h2
    simp only [simplifyStep, WorkspaceL.active, SsaOp.output, h1, h2]
  · intro o src h1 h2
    simp only [simplifyStep, WorkspaceL.active, SsaOp.output, h1, h2]

/-- C4: choice consumption.  Every step consumes exactly one choice iff
its op is choice-bearing, live or dead; a dead op is dropped (nothing
emitted, workspace untouched) with its choice discarded; and a full
`simplify` run seeds the loop with `choices.reverse` and drops exactly
one entry of it per choice-bearing op of the source tape
(data.rs lines 127-140). -/
theorem simplify_reversed_choice_consumption :
    (∀ (op : SsaOp α) (st st' : LoopSt α), simplifyStep op st = some st' →
      (SsaOp.hasChoice op = true → ∃ c, st.choices = c :: st'.choices) ∧
      (SsaOp.hasChoice op = false → st'.choices = st.choices)) ∧
    (∀ (op : SsaOp α) (st st' : LoopSt α), simplifyStep op st = some st' →
      st.ws.bind (SsaOp.output op) = none →
      st'.opsOut = st.opsOut ∧ st'.ws = st.ws ∧
      (SsaOp.hasChoice op = true → ∃ c, st.choices = c :: st'.choices) ∧
      (SsaOp.hasChoice op = false → st'.choices = st.choices)) ∧
    (∀ (n : Nat) (d : VmDataL α) (choices : List Choice) (ws : WorkspaceL)
      (scr d' : VmDataL α) (ws' : WorkspaceL) (scr' : VmDataL α),
      d.simplify n choices ws scr = (.ok d', ws', scr') →
      ∃ op0 rest stF, d.ssa.tape = op0 :: rest ∧
        simplifyLoop (op0 :: rest) (initState op0 choices) = some stF ∧
        (initState op0 choices).choices = choices.reverse ∧
        stF.choices = choices.reverse.drop
          (d.ssa.tape.countP SsaOp.hasChoice)) := by
  refine ⟨?_, ?_, ?_⟩
  · intro op st st' h
    exact step_choices op st st' h
  · intro op st st' h hb
    obtain ⟨h1, h2, -, h4, h5⟩ := step_dead op st st' h hb
    exact ⟨h1, h2, h4, h5⟩
  · intro n d choices ws scr d' ws' scr' hok
    obtain ⟨-, op0, rest, stF, htape, -, hloop, -, -, -⟩ := simplify_ok_elim hok
    refine ⟨op0, rest, stF, htape, hloop, rfl, ?_⟩
    have hdrop := loop_choices (op0 :: rest) (initState op0 choices) stF hloop
    rw [htape]
    exact hdrop

/-- C5: choice-count consistency.  In every tape produced by a successful
`simplify` run on a well-formed source, the number of choice-bearing ops
equals the recorded `choice_count`; and per step, an emitted op is
choice-bearing — with the running counter incremented — exactly when the
source op was a live min/max whose consumed choice was `Both`: forward,
any choice-bearing emission comes from such an op with the counter
incremented; conversely, a live choice-bearing op consuming `Both`
always emits a choice-bearing op and increments the counter
(data.rs lines 186-238 and 264-271). -/
theorem simplify_choice_count_consistency (n : Nat) (d : VmDataL α)
    (choices : List Choice) (ws : WorkspaceL) (scr d' : VmDataL α)
    (ws' : WorkspaceL) (scr' : VmDataL α)
    (hok : d.simplify n choices ws scr = (.ok d', ws', scr'))
    (hdc : DepC d.ssa.tape) (hnod : (outs d.ssa.tape).Nodup) :
    d'.ssa.tape.countP SsaOp.hasChoice = d'.ssa.choice_count ∧
    (∀ (op : SsaOp α) (st st' : LoopSt α), simplifyStep op st = some st' →
      (st'.opsOut = st.opsOut ∧ st'.choiceCount = st.choiceCount) ∨
      (∃ e, st'.opsOut = st.opsOut ++ [e] ∧
        st'.choiceCount = st.choiceCount +
          (if SsaOp.hasChoice e then 1 else 0) ∧
        (SsaOp.hasChoice e = true → SsaOp.hasChoice op = true ∧
          ∃ cs, st.choices = Choice.Both :: cs))) ∧
    ∀ (op : SsaOp α) (st st' : LoopSt α) (j : Nat),
      simplifyStep op st = some st' →
      st.ws.bind (SsaOp.output op) = some j →
      SsaOp.hasChoice op = true →
      ∀ cs, st.choices = Choice.Both :: cs →
      ∃ e, st'.opsOut = st.opsOut ++ [e] ∧ SsaOp.hasChoice e = true ∧
        st'.choiceCount = st.choiceCount + 1 := by
  refine ⟨?_, ?_, ?_⟩
  · exact (simplify_ok_facts hok hdc hnod).2.2.2.2.2
  · intro op st st' h
    exact step_emissions op st st' h
  · intro op st st' j h hb hch cs hcs
    exact step_both_emits op st st' j h hb hch cs hcs

/-- C6: denseness of the produced tape.  The output slots of a tape
produced by a successful `simplify` run on a well-formed source are
exactly `{0, ..., len-1}`, each assigned by exactly one op; the first
stored op defines slot 0 (the root); and the emitted op count equals the
workspace's final counter (data.rs lines 120-130 and 261). -/
theorem simplify_output_slots_dense (n : Nat) (d : VmDataL α)
    (choices : List Choice) (ws : WorkspaceL) (scr d' : VmDataL α)
    (ws' : WorkspaceL) (scr' : VmDataL α)
    (hok : d.simplify n choices ws scr = (.ok d', ws', scr'))
    (hdc : DepC d.ssa.tape) (hnod : (outs d.ssa.tape).Nodup) :
    d'.ssa.tape ≠ [] ∧
    (outs d'.ssa.tape).Nodup ∧
    (∀ j, j ∈ outs d'.ssa.tape ↔ j < d'.ssa.tape.length) ∧
    (∀ e l, d'.ssa.tape = e :: l → SsaOp.output e = 0) ∧
    ∃ op0 rest stF, d.ssa.tape = op0 :: rest ∧
      simplifyLoop (op0 :: rest) (initState op0 choices) = some stF ∧
      d'.ssa.tape = stF.opsOut ∧ stF.ws.count = d'.ssa.tape.length := by
  obtain ⟨hne, hnd, hmem, -, hfo, -⟩ := simplify_ok_facts hok hdc hnod
  obtain ⟨-, op0, rest, stF, htape, -, hloop, hassert, hd', -⟩ :=
    simplify_ok_elim hok
  refine ⟨hne, hnd, hmem, hfo, op0, rest, stF, htape, hloop, ?_, ?_⟩
  · rw [hd']
  · rw [hd']
    exact hassert

/-- C7 counterexample, refuting both clauses of the claimed bound.
Strictness: for `min(x, 5) + x` with choice `[Right]`, the choice op is
live (it is rewritten to `CopyImm` in the output) and the choice is
`Right`, yet the simplified tape has the same length as the source,
because the register operand is still referenced by the sum.
Non-strict bound: for the seven-op source `dC7b` over a three-register
budget — coherent, its `asm` being the allocation of its own SSA tape —
with choices `[Right, Right]`, simplification removes one SSA op but the
changed slot lifetimes cost an extra spill pair, so
`simplify(tape, choices).len() = 12 > 11 = tape.len()`. -/
theorem simplify_strict_shrink_counterexample :
    ((VmDataL.simplify 255 dC7 [Choice.Right] wsEmpty VmDataL.dfltData).1 =
      Outcome.ok dC7s ∧
    dC7.ssa.tape.countP SsaOp.hasChoice = 1 ∧
    dC7s.ssa.tape = [SsaOp.AddRegReg 0 1 2, SsaOp.CopyImm 1 5,
      SsaOp.Input 2 0] ∧
    dC7.len = 3 ∧ dC7s.len = 3 ∧ ¬ (dC7s.len < dC7.len)) ∧
    dC7b.asm = allocateTape 3 dC7b.ssa.tape ∧
    (VmDataL.simplify 3 dC7b [Choice.Right, Choice.Right] wsEmpty
      VmDataL.dfltData).1 = Outcome.ok dC7bs ∧
    dC7b.ssa.tape.length = 7 ∧ dC7bs.ssa.tape.length = 6 ∧
    dC7b.len = 11 ∧ dC7bs.len = 12 ∧ ¬ (dC7bs.len ≤ dC7b.len) := by
  refine ⟨⟨rfl, rfl, rfl, rfl, rfl, ?_⟩, rfl, rfl, rfl, rfl, rfl, rfl, ?_⟩
  · intro h
    have h3 : dC7s.len = 3 := rfl
    have h3' : dC7.len = 3 := rfl
    rw [h3, h3'] at h
    omega
  · intro h
    have h3 : dC7bs.len = 12 := rfl
    have h3' : dC7b.len = 11 := rfl
    rw [h3, h3'] at h
    omega

/-- C7 amended: the simplified SSA op count never exceeds the source SSA
op count; consequently, whenever the simplified register tape contains no
spill (`Load`/`Store`) ops and the source register tape is at least as
long as its SSA tape, `len()` does not grow.  Neither clause of the
original bound survives unconditionally: strict shrinking under a
`Left`/`Right` choice fails, and under spills even the non-strict
`len()` bound fails on a coherent source (see the counterexample, which
refutes both). -/
theorem simplify_len_monotone (n : Nat) (d : VmDataL α)
    (choices : List Choice) (ws : WorkspaceL) (scr d' : VmDataL α)
    (ws' : WorkspaceL) (scr' : VmDataL α)
    (hok : d.simplify n choices ws scr = (.ok d', ws', scr')) :
    d'.ssa.tape.length ≤ d.ssa.tape.length ∧
    (d'.asm.tape.countP RegOp.isLoadStore = 0 →
      d.ssa.tape.length ≤ d.len →
      d'.len ≤ d.len) := by
  obtain ⟨-, op0, rest, stF, htape, -, hloop, -, hd', -⟩ := simplify_ok_elim hok
  have hlen : stF.opsOut.length ≤ (op0 :: rest).length := by
    have h := loop_opsOut_len (op0 :: rest) (initState op0 choices) stF hloop
    have h0 : (initState op0 choices).opsOut = [] := rfl
    rw [h0] at h
    simpa using h
  have hssa : d'.ssa.tape.length ≤ d.ssa.tape.length := by
    rw [hd', htape]
    exact hlen
  refine ⟨hssa, ?_⟩
  intro hls hsrc
  have hsplit : d'.asm.tape.length =
      d'.asm.tape.countP RegOp.isLoadStore +
        d'.asm.tape.countP (fun x => !(RegOp.isLoadStore x)) :=
    length_eq_ls_add_nonls _
  have hbound : d'.asm.tape.countP (fun x => !(RegOp.isLoadStore x)) ≤
      d'.ssa.tape.length := by
    rw [hd']
    exact allocateTape_nonls_le n stF.opsOut
  have hdlen : d'.len = d'.asm.tape.length := rfl
  rw [hdlen, hsplit, hls]
  omega

/-- Witness for the C1 theorem at `min(x, 5)` with choice `[Left]`. -/
theorem simplify_preserves_value_witness :
    tapeVal IInt d1C1.ssa.tape = tapeVal IInt dC1.ssa.tape :=
  simplify_preserves_value 255 IInt dC1 [Choice.Left] wsEmpty
    VmDataL.dfltData d1C1
    (VmDataL.simplify 255 dC1 [Choice.Left] wsEmpty VmDataL.dfltData).2.1
    (VmDataL.simplify 255 dC1 [Choice.Left] wsEmpty VmDataL.dfltData).2.2
    (by decide) (by decide)
    ⟨((by decide :
        IInt.fmin (evalTape IInt dC1.ssa.tape (fun _ => IInt.dflt) 1) 5 =
          evalTape IInt dC1.ssa.tape (fun _ => IInt.dflt) 1)), rfl⟩ rfl

/-- Witness for the C5 theorem at `min(x, 5)` with choice `[Left]`. -/
theorem simplify_choice_count_consistency_witness :
    d1C1.ssa.tape.countP SsaOp.hasChoice = d1C1.ssa.choice_count ∧
    (∀ (op : SsaOp Int) (st st' : LoopSt Int), simplifyStep op st = some st' →
      (st'.opsOut = st.opsOut ∧ st'.choiceCount = st.choiceCount) ∨
      (∃ e, st'.opsOut = st.opsOut ++ [e] ∧
        st'.choiceCount = st.choiceCount +
          (if SsaOp.hasChoice e then 1 else 0) ∧
        (SsaOp.hasChoice e = true → SsaOp.hasChoice op = true ∧
          ∃ cs, st.choices = Choice.Both :: cs))) ∧
    ∀ (op : SsaOp Int) (st st' : LoopSt Int) (j : Nat),
      simplifyStep op st = some st' →
      st.ws.bind (SsaOp.output op) = some j →
      SsaOp.hasChoice op = true →
      ∀ cs, st.choices = Choice.Both :: cs →
      ∃ e, st'.opsOut = st.opsOut ++ [e] ∧ SsaOp.hasChoice e = true ∧
        st'.choiceCount = st.choiceCount + 1 :=
  simplify_choice_count_consistency 255 dC1 [Choice.Left] wsEmpty
    VmDataL.dfltData d1C1
    (VmDataL.simplify 255 dC1 [Choice.Left] wsEmpty VmDataL.dfltData).2.1
    (VmDataL.simplify 255 dC1 [Choice.Left] wsEmpty VmDataL.dfltData).2.2
    rfl (by decide) (by decide)

/-- Witness for the C6 theorem at `min(x, 5)` with choice `[Left]`. -/
theorem simplify_output_slots_dense_witness :
    d1C1.ssa.tape ≠ [] ∧
    (outs d1C1.ssa.tape).Nodup ∧
    (∀ j, j ∈ outs d1C1.ssa.tape ↔ j < d1C1.ssa.tape.length) ∧
    (∀ e l, d1C1.ssa.tape = e :: l → SsaOp.output e = 0) ∧
    ∃ op0 rest stF, dC1.ssa.tape = op0 :: rest ∧
      simplifyLoop (op0 :: rest) (initState op0 [Choice.Left]) = some stF ∧
      d1C1.ssa.tape = stF.opsOut ∧ stF.ws.count = d1C1.ssa.tape.length :=
  simplify_output_slots_dense 255 dC1 [Choice.Left] wsEmpty
    VmDataL.dfltData d1C1
    (VmDataL.simplify 255 dC1 [Choice.Left] wsEmpty VmDataL.dfltData).2.1
    (VmDataL.simplify 255 dC1 [Choice.Left] wsEmpty VmDataL.dfltData).2.2
    rfl (by decide) (by decide)

/-- Witness for the C7 amended theorem at `min(x, 5) + x` with choice
`[Right]`. -/
theorem simplify_len_monotone_witness :
    dC7s.ssa.tape.length ≤ dC7.ssa.tape.length ∧
    (dC7s.asm.tape.countP RegOp.isLoadStore = 0 →
      dC7.ssa.tape.length ≤ dC7.len →
      dC7s.len ≤ dC7.len) :=
  simplify_len_monotone 255 dC7 [Choice.Right] wsEmpty VmDataL.dfltData
    dC7s
    (VmDataL.simplify 255 dC7 [Choice.Right] wsEmpty VmDataL.dfltData).2.1
    (VmDataL.simplify 255 dC7 [Choice.Right] wsEmpty VmDataL.dfltData).2.2
    rfl

end Fidget
